import Mathlib

/-!
# OrderCache: a shallow embedding of `OrderCache.h` / `OrderCache.cpp`

The C++ class `OrderCache` keeps three members: `m_buyOrders` and
`m_sellOrders` (`std::unordered_map<std::string, std::vector<OrderExpander>>`)
and `m_orderIds` (`std::unordered_set<std::string>`).

Modelling decisions.

* `std::vector<OrderExpander>` is a `List OrderExpander`.
* `std::unordered_map` is an association list; `operator[]` appends a fresh
  key with an empty vector when the key is absent, lookups and writes go to
  the first entry carrying the key, range-`for` walks the entries in list
  order (the C++ iteration order is unspecified).
* `std::unordered_set<std::string>` is a `Finset String`.
* `unsigned int` is a `Nat` with explicit `% UINT_MOD` where the code can
  wrap (`totalQty +=`); `std::size_t` is a `Nat` with explicit `% SIZE_MOD`
  (`index--` in `erase`, `i++` / `j++` in the loops).  The two guarded
  subtractions `a -= b` (executed only when `a >= b`) cannot wrap and are
  plain truncated subtractions.
* Loops are recursions on a fuel argument; every caller passes
  `size + 1`, and running out of fuel or indexing a vector out of range is
  reported as a `Fault`, never silently repaired.
* A thrown exception is an `Outcome` next to the state the object is left
  in at the moment of the `throw`.
* `std::vector<Order> getAllOrders() const` returns by value: `getAllOrdersCall`
  runs its two loops and yields the local vector as a list next to the state
  the object is left in; `getAllOrders` is the list it is proved to return, and
  a caller's own vector is a value outside the state.
* A `std::vector` has fewer than `SIZE_MOD` elements. The model's lists have
  no such bound, so `Fits` states it, and the reachable books are the ones
  reached from the empty cache through books that fit.
-/

namespace OrderCache

/-- Width of `unsigned int`: values live in `[0, UINT_MOD)`. -/
def UINT_MOD : Nat := 2 ^ 32

/-- Width of `std::size_t`: values live in `[0, SIZE_MOD)`. -/
def SIZE_MOD : Nat := 2 ^ 64

/-- The string constant `BUY` of `OrderCache.cpp`. -/
def BUY : String := "Buy"

/-- The string constant `SELL` of `OrderCache.cpp`. -/
def SELL : String := "Sell"

/-- The class `Order` of `OrderCache.h`: six immutable members. -/
structure Order where
  orderId : String
  securityId : String
  side : String
  qty : Nat
  user : String
  company : String
deriving DecidableEq

/-- The struct `OrderExpander`: the base `Order` plus the mutable member `currentQty`. -/
structure OrderExpander where
  order : Order
  currentQty : Nat
deriving DecidableEq

/-- The constructor `OrderExpander(Order& order)`: `currentQty(qty())`. -/
def OrderExpander.ofOrder (order : Order) : OrderExpander :=
  { order := order, currentQty := order.qty }

/-- The type `std::vector<OrderExpander>`. -/
abbrev Vec := List OrderExpander

/-- The alias `MapOrders` of the class: security id to vector, as an association list. -/
abbrev MapOrders := List (String × Vec)

/-- The alias `OrderIds` of the class. -/
abbrev OrderIds := Finset String

/-- What can go wrong inside the model of a loop. -/
inductive Fault where
  | outOfFuel
  | outOfRange
deriving DecidableEq

/-- How a public member function ends: it returns, throws one of the two
exception types used by the source, or the model reports a fault. -/
inductive Outcome (α : Type) where
  | ret (a : α)
  | invalid_argument (what : String)
  | runtime_error (what : String)
  | fault (f : Fault)
deriving DecidableEq

/-- The data members of the class `OrderCache`. -/
structure State where
  m_buyOrders : MapOrders
  m_sellOrders : MapOrders
  m_orderIds : OrderIds
deriving DecidableEq

/-- A default-constructed `OrderCache`. -/
def State.empty : State :=
  { m_buyOrders := [], m_sellOrders := [], m_orderIds := ∅ }

/-! ## `std::unordered_map` primitives -/

/-- The call `m.find(k)`: the vector of the first entry with key `k`. -/
def MapOrders.find : MapOrders → String → Option Vec
  | [], _ => none
  | (k1, v) :: rest, k => if k1 = k then some v else MapOrders.find rest k

/-- The vector a lookup of `k` sees; an absent key holds no orders. -/
def MapOrders.vec (m : MapOrders) (k : String) : Vec :=
  (MapOrders.find m k).getD []

/-- A write through the reference obtained for key `k`. -/
def MapOrders.assign : MapOrders → String → Vec → MapOrders
  | [], _, _ => []
  | (k1, v1) :: rest, k, v =>
    if k1 = k then (k1, v) :: rest else (k1, v1) :: MapOrders.assign rest k v

/-- The expression `m[k]`: the map after a possible default insertion, and the vector referred to. -/
def MapOrders.subscript (m : MapOrders) (k : String) : MapOrders × Vec :=
  match MapOrders.find m k with
  | some v => (m, v)
  | none => (m ++ [(k, [])], [])

/-- Every vector element of the map, in iteration order. -/
def MapOrders.all (m : MapOrders) : Vec :=
  m.flatMap Prod.snd

/-! ## The private helper `erase` -/

/-- The member `OrderCache::erase(vctr, index)`.
`vctr.size()-1` is computed in `size_t`; when `index` is below it the element
is swapped with the last one and `index` is post-decremented (modulo
`SIZE_MOD`, so `x - 1` reads `(SIZE_MOD - 1 + x) % SIZE_MOD`); then the last
slot is dropped. Returns the vector and the index. -/
def erase (vctr : Vec) (index : Nat) : Except Fault (Vec × Nat) :=
  if index < (SIZE_MOD - 1 + vctr.length) % SIZE_MOD then
    match vctr[index]?, vctr.getLast? with
    | some _, some last =>
      .ok ((vctr.set index last).dropLast, (SIZE_MOD - 1 + index) % SIZE_MOD)
    | _, _ => .error .outOfRange
  else
    match vctr with
    | [] => .error .outOfRange
    | _ :: _ => .ok (vctr.dropLast, index)

/-! ## `getMatchingSizeForSecurity` -/

/-- The variables the two nested loops of `getMatchingSizeForSecurity` share. -/
structure MatchVars where
  vecSell : Vec
  vecBuy : Vec
  i : Nat
  totalQty : Nat
deriving DecidableEq

/-- The inner loop `for(std::size_t j = ...; j < vecBuy.size(); j++)`, entered
with the current value of `j`; the result is the variables when the loop is
left, by its condition or by `break`. -/
def matchBuys : Nat → MatchVars → Nat → Except Fault MatchVars
  | 0, _, _ => .error .outOfFuel
  | fuel + 1, st, j =>
    if j < st.vecBuy.length then
      match st.vecSell[st.i]?, st.vecBuy[j]? with
      | some s, some b =>
        if s.order.company = b.order.company then
          matchBuys fuel st ((j + 1) % SIZE_MOD)
        else if s.currentQty ≥ b.currentQty then
          let totalQty := (st.totalQty + b.currentQty) % UINT_MOD
          let s1 : OrderExpander := { s with currentQty := s.currentQty - b.currentQty }
          let vecSell := st.vecSell.set st.i s1
          match erase st.vecBuy j with
          | .error e => .error e
          | .ok (vecBuy, j1) =>
            if s1.currentQty = 0 then
              match erase vecSell st.i with
              | .error e => .error e
              | .ok (vecSell2, i2) =>
                .ok { vecSell := vecSell2, vecBuy := vecBuy, i := i2, totalQty := totalQty }
            else
              matchBuys fuel
                { vecSell := vecSell, vecBuy := vecBuy, i := st.i, totalQty := totalQty }
                ((j1 + 1) % SIZE_MOD)
        else
          let totalQty := (st.totalQty + s.currentQty) % UINT_MOD
          let b1 : OrderExpander := { b with currentQty := b.currentQty - s.currentQty }
          let vecBuy := st.vecBuy.set j b1
          match erase st.vecSell st.i with
          | .error e => .error e
          | .ok (vecSell, i1) =>
            .ok { vecSell := vecSell, vecBuy := vecBuy, i := i1, totalQty := totalQty }
      | _, _ => .error .outOfRange
    else
      .ok st

/-- The outer loop `for(std::size_t i = ...; i < vecSell.size(); i++)`, entered
with the current `i`; each pass evaluates `m_buyOrders[securityId]`, runs the
inner loop from `j = 0` and writes the buy vector back. -/
def matchSells : Nat → String → Vec → MapOrders → Nat → Nat →
    Except Fault (Vec × MapOrders × Nat)
  | 0, _, _, _, _, _ => .error .outOfFuel
  | fuel + 1, securityId, vecSell, buyOrders, i, totalQty =>
    if i < vecSell.length then
      let ref := MapOrders.subscript buyOrders securityId
      match matchBuys (ref.2.length + 1)
          { vecSell := vecSell, vecBuy := ref.2, i := i, totalQty := totalQty } 0 with
      | .error e => .error e
      | .ok st =>
        matchSells fuel securityId st.vecSell
          (MapOrders.assign ref.1 securityId st.vecBuy) ((st.i + 1) % SIZE_MOD) st.totalQty
    else
      .ok (vecSell, buyOrders, totalQty)

/-- The member `OrderCache::getMatchingSizeForSecurity`. On a fault the state is returned as it was. -/
def getMatchingSizeForSecurity (c : State) (securityId : String) : Outcome Nat × State :=
  if securityId = "" then
    (.invalid_argument "Error: security ID is empty!", c)
  else
    let ref := MapOrders.subscript c.m_sellOrders securityId
    match matchSells (ref.2.length + 1) securityId ref.2 c.m_buyOrders 0 0 with
    | .error e => (.fault e, c)
    | .ok (vecSell, buyOrders, totalQty) =>
      (.ret totalQty,
        { c with m_sellOrders := MapOrders.assign ref.1 securityId vecSell,
                 m_buyOrders := buyOrders })

/-! ## `addOrder` -/

/-- The member `OrderCache::addOrder`. The identifier is inserted into
`m_orderIds` before the side is dispatched on, as in the source. -/
def addOrder (c : State) (order : Order) : Outcome Unit × State :=
  if order.orderId = "" then
    (.invalid_argument "Error: order ID is empty!", c)
  else if order.securityId = "" then
    (.invalid_argument "Error: security ID is empty!", c)
  else if order.user = "" then
    (.invalid_argument "Error: user ID is empty!", c)
  else if order.company = "" then
    (.invalid_argument "Error: company name is empty!", c)
  else if order.side = "" then
    (.invalid_argument "Error: side is empty!", c)
  else if order.qty = 0 then
    (.invalid_argument "Error: qty is zero!", c)
  else if order.orderId ∈ c.m_orderIds then
    (.runtime_error "Error: order ID have already exist!", c)
  else
    let c1 : State := { c with m_orderIds := insert order.orderId c.m_orderIds }
    if order.side = BUY then
      let ref := MapOrders.subscript c1.m_buyOrders order.securityId
      (.ret (),
        { c1 with m_buyOrders :=
            MapOrders.assign ref.1 order.securityId (ref.2 ++ [OrderExpander.ofOrder order]) })
    else if order.side = SELL then
      let ref := MapOrders.subscript c1.m_sellOrders order.securityId
      (.ret (),
        { c1 with m_sellOrders :=
            MapOrders.assign ref.1 order.securityId (ref.2 ++ [OrderExpander.ofOrder order]) })
    else
      (.invalid_argument "Error:invalid side!", c1)

/-! ## `cancelOrder` -/

/-- The inner loop of the private `cancelOrder(orderId, mapOrders)` over one
vector: `some v` when an element was found and erased (`return true`). -/
def cancelOrderVec : Nat → String → Vec → Nat → Except Fault (Option Vec)
  | 0, _, _, _ => .error .outOfFuel
  | fuel + 1, orderId, vec, i =>
    if i < vec.length then
      match vec[i]? with
      | none => .error .outOfRange
      | some o =>
        if o.order.orderId ≠ orderId then
          cancelOrderVec fuel orderId vec ((i + 1) % SIZE_MOD)
        else
          match erase vec i with
          | .error e => .error e
          | .ok (v, _) => .ok (some v)
    else
      .ok none

/-- The private member `cancelOrder(orderId, mapOrders)`: the returned flag and the map. -/
def cancelOrderIn : String → MapOrders → Except Fault (Bool × MapOrders)
  | _, [] => .ok (false, [])
  | orderId, (k, vec) :: rest =>
    match cancelOrderVec (vec.length + 1) orderId vec 0 with
    | .error e => .error e
    | .ok (some v) => .ok (true, (k, v) :: rest)
    | .ok none =>
      match cancelOrderIn orderId rest with
      | .error e => .error e
      | .ok (found, rest1) => .ok (found, (k, vec) :: rest1)

/-- The public member `OrderCache::cancelOrder`. -/
def cancelOrder (c : State) (orderId : String) : Outcome Unit × State :=
  if orderId = "" then
    (.invalid_argument "Error: order ID is empty!", c)
  else
    let c1 : State := { c with m_orderIds := c.m_orderIds.erase orderId }
    match cancelOrderIn orderId c1.m_buyOrders with
    | .error e => (.fault e, c)
    | .ok (true, buyOrders) => (.ret (), { c1 with m_buyOrders := buyOrders })
    | .ok (false, buyOrders) =>
      match cancelOrderIn orderId c1.m_sellOrders with
      | .error e => (.fault e, c)
      | .ok (_, sellOrders) =>
        (.ret (), { c1 with m_buyOrders := buyOrders, m_sellOrders := sellOrders })

/-! ## `cancelOrdersForUser` -/

/-- The inner loop of the private `cancelOrdersForUser` over one vector. -/
def cancelUserVec : Nat → String → Vec → OrderIds → Nat → Except Fault (Vec × OrderIds)
  | 0, _, _, _, _ => .error .outOfFuel
  | fuel + 1, user, vec, orderIds, i =>
    if i < vec.length then
      match vec[i]? with
      | none => .error .outOfRange
      | some o =>
        if o.order.user ≠ user then
          cancelUserVec fuel user vec orderIds ((i + 1) % SIZE_MOD)
        else
          match erase vec i with
          | .error e => .error e
          | .ok (v, i1) =>
            cancelUserVec fuel user v (orderIds.erase o.order.orderId) ((i1 + 1) % SIZE_MOD)
    else
      .ok (vec, orderIds)

/-- The private member `cancelOrdersForUser(user, mapOrders, orderIds)`. -/
def cancelOrdersForUserIn : String → MapOrders → OrderIds → Except Fault (MapOrders × OrderIds)
  | _, [], orderIds => .ok ([], orderIds)
  | user, (k, vec) :: rest, orderIds =>
    match cancelUserVec (vec.length + 1) user vec orderIds 0 with
    | .error e => .error e
    | .ok (v, ids1) =>
      match cancelOrdersForUserIn user rest ids1 with
      | .error e => .error e
      | .ok (rest1, ids2) => .ok ((k, v) :: rest1, ids2)

/-- The public member `OrderCache::cancelOrdersForUser`. -/
def cancelOrdersForUser (c : State) (user : String) : Outcome Unit × State :=
  if user = "" then
    (.invalid_argument "Error: user is empty!", c)
  else
    match cancelOrdersForUserIn user c.m_buyOrders c.m_orderIds with
    | .error e => (.fault e, c)
    | .ok (buyOrders, ids1) =>
      match cancelOrdersForUserIn user c.m_sellOrders ids1 with
      | .error e => (.fault e, c)
      | .ok (sellOrders, ids2) =>
        (.ret (), { m_buyOrders := buyOrders, m_sellOrders := sellOrders, m_orderIds := ids2 })

/-! ## `cancelOrdersForSecIdWithMinimumQty` -/

/-- The loop of the private `cancelOrdersForSecIdWithMinimumQty` over the vector of the security. -/
def cancelMinQtyVec : Nat → Nat → Vec → OrderIds → Nat → Except Fault (Vec × OrderIds)
  | 0, _, _, _, _ => .error .outOfFuel
  | fuel + 1, minQty, vec, orderIds, i =>
    if i < vec.length then
      match vec[i]? with
      | none => .error .outOfRange
      | some o =>
        if o.order.qty < minQty then
          cancelMinQtyVec fuel minQty vec orderIds ((i + 1) % SIZE_MOD)
        else
          match erase vec i with
          | .error e => .error e
          | .ok (v, i1) =>
            cancelMinQtyVec fuel minQty v (orderIds.erase o.order.orderId) ((i1 + 1) % SIZE_MOD)
    else
      .ok (vec, orderIds)

/-- The private member `cancelOrdersForSecIdWithMinimumQty(securityId, minQty, mapOrders, orderIds)`. -/
def cancelOrdersForSecIdWithMinimumQtyIn (securityId : String) (minQty : Nat)
    (mapOrders : MapOrders) (orderIds : OrderIds) : Except Fault (MapOrders × OrderIds) :=
  let ref := MapOrders.subscript mapOrders securityId
  match cancelMinQtyVec (ref.2.length + 1) minQty ref.2 orderIds 0 with
  | .error e => .error e
  | .ok (v, ids1) => .ok (MapOrders.assign ref.1 securityId v, ids1)

/-- The public member `OrderCache::cancelOrdersForSecIdWithMinimumQty`. -/
def cancelOrdersForSecIdWithMinimumQty (c : State) (securityId : String) (minQty : Nat) :
    Outcome Unit × State :=
  if securityId = "" then
    (.invalid_argument "Error: security ID is empty!", c)
  else if minQty = 0 then
    (.invalid_argument "Error: minQty is zero!", c)
  else
    match cancelOrdersForSecIdWithMinimumQtyIn securityId minQty c.m_buyOrders c.m_orderIds with
    | .error e => (.fault e, c)
    | .ok (buyOrders, ids1) =>
      match cancelOrdersForSecIdWithMinimumQtyIn securityId minQty c.m_sellOrders ids1 with
      | .error e => (.fault e, c)
      | .ok (sellOrders, ids2) =>
        (.ret (), { m_buyOrders := buyOrders, m_sellOrders := sellOrders, m_orderIds := ids2 })

/-! ## `getAllOrders` -/

/-- The member `OrderCache::getAllOrders`: the `Order` base of every element, buy map first. -/
def getAllOrders (c : State) : List Order :=
  (MapOrders.all c.m_buyOrders).map OrderExpander.order ++
    (MapOrders.all c.m_sellOrders).map OrderExpander.order

/-- The inner loop of `getAllOrders`,
`for(std::size_t i = 0; i < pair.second.size(); i++) orders.push_back(pair.second[i]);`,
entered with the current `i`: `push_back` stores a copy of the `Order` base of the element at
the end of the local vector `orders`. -/
def copyOrders : Nat → Vec → Nat → List Order → Except Fault (List Order)
  | 0, _, _, _ => .error .outOfFuel
  | fuel + 1, vec, i, orders =>
    if i < vec.length then
      match vec[i]? with
      | none => .error .outOfRange
      | some o => copyOrders fuel vec ((i + 1) % SIZE_MOD) (orders ++ [o.order])
    else
      .ok orders

/-- The range-`for` of `getAllOrders` over the entries of one map. -/
def copyAll : MapOrders → List Order → Except Fault (List Order)
  | [], orders => .ok orders
  | (_, vec) :: rest, orders =>
    match copyOrders (vec.length + 1) vec 0 orders with
    | .error e => .error e
    | .ok orders1 => copyAll rest orders1

/-- The member `std::vector<Order> OrderCache::getAllOrders() const` as a call: the local
vector `orders` is filled by the two loops, first from `m_buyOrders`, then from
`m_sellOrders`, and returned by value next to the state the object is left in (`reserve` only
sets the capacity of the local vector). The loops read the two maps and write nothing but the
local vector. On a fault the state is returned as it was. -/
def getAllOrdersCall (c : State) : Outcome (List Order) × State :=
  match copyAll c.m_buyOrders [] with
  | .error e => (.fault e, c)
  | .ok orders =>
    match copyAll c.m_sellOrders orders with
    | .error e => (.fault e, c)
    | .ok orders1 => (.ret orders1, c)

/-- The three statements of the test `EdgeCases_GetAllOrders_ResultNotModifiableExternally`
that follow its `addOrder`, with any operation `edit` of the caller on its own vector in the
place of `clear()`:
`std::vector<Order> ordersCopy = cache.getAllOrders(); ordersCopy.clear();`
`std::vector<Order> ordersAfter = cache.getAllOrders();`.
The result is the pair of the two local vectors at the end, next to the state of the cache;
a call that does not return ends the run. -/
def fetchEditFetch (edit : List Order → List Order) (c : State) :
    Outcome (List Order × List Order) × State :=
  match getAllOrdersCall c with
  | (.ret ordersCopy, c1) =>
    let ordersCopy1 := edit ordersCopy
    match getAllOrdersCall c1 with
    | (.ret ordersAfter, c2) => (.ret (ordersCopy1, ordersAfter), c2)
    | (.invalid_argument what, c2) => (.invalid_argument what, c2)
    | (.runtime_error what, c2) => (.runtime_error what, c2)
    | (.fault f, c2) => (.fault f, c2)
  | (.invalid_argument what, c1) => (.invalid_argument what, c1)
  | (.runtime_error what, c1) => (.runtime_error what, c1)
  | (.fault f, c1) => (.fault f, c1)

/-! ## The six public operations as a transition system -/

/-- A call of one of the six public member functions, with its arguments. -/
inductive Op where
  | addOrder (order : Order)
  | cancelOrder (orderId : String)
  | cancelOrdersForUser (user : String)
  | cancelOrdersForSecIdWithMinimumQty (securityId : String) (minQty : Nat)
  | getMatchingSizeForSecurity (securityId : String)
  | getAllOrders
deriving DecidableEq

/-- The state the object is in after the call, whether it returned or threw. -/
def Op.run (c : State) : Op → State
  | .addOrder order => (OrderCache.addOrder c order).2
  | .cancelOrder orderId => (OrderCache.cancelOrder c orderId).2
  | .cancelOrdersForUser user => (OrderCache.cancelOrdersForUser c user).2
  | .cancelOrdersForSecIdWithMinimumQty securityId minQty =>
    (OrderCache.cancelOrdersForSecIdWithMinimumQty c securityId minQty).2
  | .getMatchingSizeForSecurity securityId =>
    (OrderCache.getMatchingSizeForSecurity c securityId).2
  | .getAllOrders => c

/-- The state after a sequence of calls, first call first. -/
def runOps : State → List Op → State
  | c, [] => c
  | c, op :: ops => runOps (Op.run c op) ops

/-- The book fits in the address space: every vector of both maps has fewer
than `SIZE_MOD` elements, as every `std::vector` has. -/
def Fits (c : State) : Prop :=
  ∀ p ∈ c.m_buyOrders ++ c.m_sellOrders, p.2.length < SIZE_MOD

instance (c : State) : Decidable (Fits c) :=
  inferInstanceAs (Decidable (∀ p ∈ c.m_buyOrders ++ c.m_sellOrders, p.2.length < SIZE_MOD))

/-- Every book met while running the calls from `c`, the last one included, fits. -/
def fitsAlong : State → List Op → Bool
  | c, [] => decide (Fits c)
  | c, op :: ops => decide (Fits c) && fitsAlong (Op.run c op) ops

/-- The relation `Trace c ops d`: running the calls `ops` from the book `c` ends in `d`, and every
book on the way (after each call) fits in the address space. -/
inductive Trace : State → List Op → State → Prop where
  | nil (c : State) : Trace c [] c
  | snoc (c d : State) (ops : List Op) (op : Op) :
      Trace c ops d → Fits (Op.run d op) → Trace c (ops ++ [op]) (Op.run d op)

/-- A book reachable from the default-constructed cache by public calls
(calls that throw included), through books that fit in the address space. -/
def Reachable (c : State) : Prop :=
  ∃ ops, Trace State.empty ops c

/-- The live orders of the book: every element of the buy map, then of the sell map. -/
def State.live (c : State) : Vec :=
  MapOrders.all c.m_buyOrders ++ MapOrders.all c.m_sellOrders

/-! ## Vocabulary for what the loops do -/

/-- The map after `m[k] = v`: `operator[]` followed by a write through the reference. -/
def MapOrders.put (m : MapOrders) (k : String) (v : Vec) : MapOrders :=
  MapOrders.assign (MapOrders.subscript m k).1 k v

/-- Every vector element of the map outside the entry a lookup of `k` sees. -/
def MapOrders.rest : MapOrders → String → Vec
  | [], _ => []
  | (k1, v) :: r, k => if k1 = k then MapOrders.all r else v ++ MapOrders.rest r k

/-- The vector `erase` leaves behind when it is called with a valid index: the
last element moved into slot `i` (unless `i` is the last slot), last slot dropped. -/
def swapPop (v : Vec) (i : Nat) : Vec :=
  if i + 1 < v.length then
    match v.getLast? with
    | some last => (v.set i last).dropLast
    | none => v.dropLast
  else v.dropLast

/-- The vector after the order `x` in slot `i` has traded the amount `a`: the
order is erased when nothing remains, otherwise its `currentQty` is reduced. -/
def settle (v : Vec) (i : Nat) (x : OrderExpander) (a : Nat) : Vec :=
  if x.currentQty = a then swapPop v i
  else v.set i { x with currentQty := x.currentQty - a }

/-- One trade of the matching loops, on (sell vector, buy vector, totalQty):
the sell order in slot `i` and the buy order in slot `j`, of different
companies, trade the smaller of their two remaining quantities. -/
inductive TradeStep : Vec × Vec × Nat → Vec × Vec × Nat → Prop where
  | trade (vs vb : Vec) (t i j : Nat) (s b : OrderExpander) :
      vs[i]? = some s → vb[j]? = some b → s.order.company ≠ b.order.company →
      TradeStep (vs, vb, t)
        (settle vs i s (min s.currentQty b.currentQty),
         settle vb j b (min s.currentQty b.currentQty),
         (t + min s.currentQty b.currentQty) % UINT_MOD)

/-- Zero or more trades in a row. -/
abbrev Trades := Relation.ReflTransGen TradeStep

/-- A record of one trade: the identifiers of the sell and the buy order and the amount. -/
structure Fill where
  sellId : String
  buyId : String
  amount : Nat
deriving DecidableEq

/-- The sum of the amounts of the fills. -/
def Fill.total (fills : List Fill) : Nat :=
  (fills.map Fill.amount).sum

/-- The amount the sell order `id` traded in the fills. -/
def Fill.sold (fills : List Fill) (id : String) : Nat :=
  Fill.total (fills.filter (fun f => f.sellId = id))

/-- The amount the buy order `id` traded in the fills. -/
def Fill.bought (fills : List Fill) (id : String) : Nat :=
  Fill.total (fills.filter (fun f => f.buyId = id))

/-- The remaining quantity of the order `id` in the vector; an order that is
not (or no longer) in the vector has remaining quantity 0. -/
def remaining (v : Vec) (id : String) : Nat :=
  match v.find? (fun o => o.order.orderId = id) with
  | some o => o.currentQty
  | none => 0

/-- The total `currentQty` of the elements of the vector that carry the identifier `id`. -/
def remainingSum (v : Vec) (id : String) : Nat :=
  ((v.filter (fun o => o.order.orderId = id)).map OrderExpander.currentQty).sum

/-- The loop shape the two bulk cancellations share: walk the vector by index
and erase every element `drop` holds for, together with its identifier. -/
def sweepVec (drop : OrderExpander → Bool) :
    Nat → Vec → OrderIds → Nat → Except Fault (Vec × OrderIds)
  | 0, _, _, _ => .error .outOfFuel
  | fuel + 1, vec, orderIds, i =>
    if i < vec.length then
      match vec[i]? with
      | none => .error .outOfRange
      | some o =>
        if drop o = false then
          sweepVec drop fuel vec orderIds ((i + 1) % SIZE_MOD)
        else
          match erase vec i with
          | .error e => .error e
          | .ok (v, i1) =>
            sweepVec drop fuel v (orderIds.erase o.order.orderId) ((i1 + 1) % SIZE_MOD)
    else
      .ok (vec, orderIds)

/-- The identifiers carried by the elements of a vector. -/
def idsOf (v : Vec) : List String :=
  v.map (fun o => o.order.orderId)

/-- The bookkeeping invariant on the live orders and the id-set: live
identifiers are pairwise distinct, every one of them is in the id-set, and no
live order has `currentQty` 0. -/
def LiveInv (live : Vec) (ids : OrderIds) : Prop :=
  (idsOf live).Nodup ∧ (∀ o ∈ live, o.order.orderId ∈ ids) ∧ (∀ o ∈ live, 0 < o.currentQty)

/-- The bookkeeping invariant of a book. -/
def State.Inv (c : State) : Prop :=
  LiveInv c.live c.m_orderIds

/-- An order `addOrder` accepts apart from the duplicate check: no empty
field, a non-zero quantity, side `Buy` or `Sell`. -/
def Order.valid (o : Order) : Prop :=
  o.orderId ≠ "" ∧ o.securityId ≠ "" ∧ o.user ≠ "" ∧ o.company ≠ "" ∧
    (o.side = BUY ∨ o.side = SELL) ∧ o.qty ≠ 0

/-! ## Concrete books used by the examples -/

/-- The eight orders of README example 1, in the order the test
`MatchingSize_ReadmeExample1_MatchesCorrectly` adds them. -/
def readme1 : List Op :=
  [ .addOrder ⟨"OrdId1", "SecId1", "Buy", 1000, "User1", "CompanyA"⟩,
    .addOrder ⟨"OrdId2", "SecId2", "Sell", 3000, "User2", "CompanyB"⟩,
    .addOrder ⟨"OrdId3", "SecId1", "Sell", 500, "User3", "CompanyA"⟩,
    .addOrder ⟨"OrdId4", "SecId2", "Buy", 600, "User4", "CompanyC"⟩,
    .addOrder ⟨"OrdId5", "SecId2", "Buy", 100, "User5", "CompanyB"⟩,
    .addOrder ⟨"OrdId6", "SecId3", "Buy", 1000, "User6", "CompanyD"⟩,
    .addOrder ⟨"OrdId7", "SecId2", "Buy", 2000, "User7", "CompanyE"⟩,
    .addOrder ⟨"OrdId8", "SecId2", "Sell", 5000, "User8", "CompanyE"⟩ ]

/-- The five orders of the test `MatchingSize_LargeBuyer_MatchesWithMultipleSmallSellers`. -/
def largeBuyer : List Op :=
  [ .addOrder ⟨"OrdId1", "SecId1", "Buy", 10000, "User1", "CompanyA"⟩,
    .addOrder ⟨"OrdId2", "SecId1", "Sell", 2000, "User2", "CompanyB"⟩,
    .addOrder ⟨"OrdId3", "SecId1", "Sell", 1500, "User3", "CompanyC"⟩,
    .addOrder ⟨"OrdId4", "SecId1", "Sell", 2500, "User4", "CompanyD"⟩,
    .addOrder ⟨"OrdId5", "SecId1", "Sell", 4000, "User5", "CompanyE"⟩ ]

/-- Two sells (companies A and B) and two buys (companies C and B) of 100
each for one security: the first sell can trade with either buy, the second
only with the first buy. -/
def crossed : List Op :=
  [ .addOrder ⟨"S1", "Sec", "Sell", 100, "U1", "A"⟩,
    .addOrder ⟨"S2", "Sec", "Sell", 100, "U2", "B"⟩,
    .addOrder ⟨"B1", "Sec", "Buy", 100, "U3", "C"⟩,
    .addOrder ⟨"B2", "Sec", "Buy", 100, "U4", "B"⟩ ]

/-- One buy and one sell of 100 for one security, of different companies. -/
def onePair : List Op :=
  [ .addOrder ⟨"OrdId1", "SecId1", "Buy", 100, "User1", "CompanyA"⟩,
    .addOrder ⟨"OrdId2", "SecId1", "Sell", 100, "User2", "CompanyB"⟩ ]

/-- The order of the test `EdgeCases_AddOrder_InvalidSideThrowsException`. -/
def holdOrder : Order :=
  ⟨"OrdId1", "SecId1", "Hold", 500, "User1", "Company1"⟩

/-- Following the spec's words for claim C4: an assignment of traded amounts to (sell, buy) pairs of
the two vectors with different companies in which no order trades more than
its remaining quantity. -/
def Feasible (vs vb : Vec) (fills : List Fill) : Prop :=
  (∀ f ∈ fills, ∃ s ∈ vs, ∃ b ∈ vb, s.order.orderId = f.sellId ∧
    b.order.orderId = f.buyId ∧ s.order.company ≠ b.order.company) ∧
  (∀ s ∈ vs, Fill.sold fills s.order.orderId ≤ s.currentQty) ∧
  (∀ b ∈ vb, Fill.bought fills b.order.orderId ≤ b.currentQty)

instance (vs vb : Vec) (fills : List Fill) : Decidable (Feasible vs vb fills) :=
  inferInstanceAs (Decidable (_ ∧ _ ∧ _))

instance (o : Order) : Decidable o.valid :=
  inferInstanceAs (Decidable (_ ∧ _ ∧ _ ∧ _ ∧ _ ∧ _))

/-! ## Vocabulary for the cancellations and the placement of orders -/

/-- The entries of two maps correspond one to one: the same keys in the
same order, with vectors related by `R`. -/
def MapOrders.Rel (R : Vec → Vec → Prop) (m m1 : MapOrders) : Prop :=
  List.Forall₂ (fun p q => q.1 = p.1 ∧ R p.2 q.2) m m1

/-- The map `m1` is the map `m` after `erase` removed the element `x` from
slot `j` of the vector of one entry; no earlier entry holds an element with
the identifier of `x`. -/
inductive MapOrders.ErasedAt (x : OrderExpander) : MapOrders → MapOrders → Prop where
  | mk (front : MapOrders) (k : String) (v : Vec) (back : MapOrders) (j : Nat) :
      v[j]? = some x →
      (∀ y ∈ MapOrders.all front, y.order.orderId ≠ x.order.orderId) →
      MapOrders.ErasedAt x (front ++ (k, v) :: back) (front ++ (k, swapPop v j) :: back)

/-- What `addOrder` has checked of an order it stored in the map of `side`
under the key `k`. -/
def OrderExpander.placed (side k : String) (x : OrderExpander) : Prop :=
  x.order.side = side ∧ x.order.securityId = k ∧ x.order.orderId ≠ "" ∧
    x.order.user ≠ "" ∧ x.order.company ≠ "" ∧ x.order.qty ≠ 0

/-- The keys of the map are pairwise distinct and every element sits under
the key of its own security, in the map of its own side. -/
def MapOrders.Placed (side : String) (m : MapOrders) : Prop :=
  (m.map Prod.fst).Nodup ∧ ∀ p ∈ m, ∀ x ∈ p.2, OrderExpander.placed side p.1 x

/-- The placement invariant of a book. -/
def State.Placed (c : State) : Prop :=
  MapOrders.Placed BUY c.m_buyOrders ∧ MapOrders.Placed SELL c.m_sellOrders

/-- The checks of `addOrder` that come before the duplicate check: no empty
field and a non-zero quantity (the side is only known to be non-empty). -/
def Order.filled (o : Order) : Prop :=
  o.orderId ≠ "" ∧ o.securityId ≠ "" ∧ o.user ≠ "" ∧ o.company ≠ "" ∧ o.side ≠ "" ∧ o.qty ≠ 0

instance (o : Order) : Decidable o.filled :=
  inferInstanceAs (Decidable (_ ∧ _ ∧ _ ∧ _ ∧ _ ∧ _))

/-- The five orders of the test
`EdgeCases_CancelOrdersForUser_AcrossMultipleSecuritiesShouldRemoveAll`. -/
def userBook : List Op :=
  [ .addOrder ⟨"OrdId1", "SecId1", "Buy", 500, "User1", "Company1"⟩,
    .addOrder ⟨"OrdId2", "SecId2", "Sell", 700, "User1", "Company1"⟩,
    .addOrder ⟨"OrdId3", "SecId3", "Buy", 300, "User1", "Company1"⟩,
    .addOrder ⟨"OrdId4", "SecId1", "Sell", 400, "User2", "Company2"⟩,
    .addOrder ⟨"OrdId5", "SecId2", "Buy", 600, "User3", "Company3"⟩ ]

/-- The six orders of the test
`EdgeCases_CancelOrdersForSecIdWithMinimumQty_LowQuantityOrdersShouldRemain`. -/
def minQtyBook : List Op :=
  [ .addOrder ⟨"OrdId1", "SecId1", "Buy", 200, "User1", "Company1"⟩,
    .addOrder ⟨"OrdId2", "SecId1", "Sell", 500, "User2", "Company2"⟩,
    .addOrder ⟨"OrdId3", "SecId1", "Buy", 800, "User3", "Company3"⟩,
    .addOrder ⟨"OrdId4", "SecId1", "Sell", 300, "User4", "Company4"⟩,
    .addOrder ⟨"OrdId5", "SecId1", "Buy", 1000, "User5", "Company5"⟩,
    .addOrder ⟨"OrdId6", "SecId2", "Buy", 600, "User6", "Company6"⟩ ]

/-- README example 1 followed by the matching call for `SecId2`, which
leaves the sell `OrdId2` (3000) live with `currentQty` 400. -/
def readme1Matched : List Op :=
  readme1 ++ [.getMatchingSizeForSecurity "SecId2"]

/-! ## The reference greedy pass, sums of remaining quantities and further books -/

/-- Following the spec's words (matching, one sell order against the buy sequence): the sell
order `s` examines the buy slots from `j` on, `left` being the number of slots still to examine.
A pair of the same company is skipped; any other pair trades the smaller remaining quantity.
A consumed buy order leaves the sequence through `remove`, and the scan goes on at the same slot;
the scan stops when the sell order is consumed (`none`). The total is exact. -/
def refScan (remove : Vec → Nat → Vec) :
    Nat → OrderExpander → Vec → Nat → Nat → Option OrderExpander × Vec × Nat
  | 0, s, vb, _, t => (some s, vb, t)
  | left + 1, s, vb, j, t =>
    match vb[j]? with
    | none => (some s, vb, t)
    | some b =>
      if s.order.company = b.order.company then refScan remove left s vb (j + 1) t
      else if s.currentQty ≥ b.currentQty then
        if s.currentQty - b.currentQty = 0 then (none, remove vb j, t + b.currentQty)
        else refScan remove left { s with currentQty := s.currentQty - b.currentQty }
          (remove vb j) j (t + b.currentQty)
      else
        (none, vb.set j { b with currentQty := b.currentQty - s.currentQty }, t + s.currentQty)

/-- Following the spec's words (matching, the sell sequence): the sell slots are taken from `i`
on, `left` being the number of slots still to take; each sell order scans the whole buy sequence
from its first slot. A consumed sell order leaves the sequence through `remove` and the slot is
taken again. -/
def refSells (remove : Vec → Nat → Vec) : Nat → Vec → Nat → Vec → Nat → Vec × Vec × Nat
  | 0, vs, _, vb, t => (vs, vb, t)
  | left + 1, vs, i, vb, t =>
    match vs[i]? with
    | none => (vs, vb, t)
    | some s =>
      match refScan remove vb.length s vb 0 t with
      | (some s1, vb1, t1) => refSells remove left (vs.set i s1) (i + 1) vb1 t1
      | (none, vb1, t1) => refSells remove left (remove vs i) i vb1 t1

/-- Following the spec's words: the reference greedy pass over the two sequences of one security
under the removal policy `remove`; the result is the sell sequence, the buy sequence and the
exact total traded. With `List.eraseIdx` the removal preserves the order of arrival; with
`swapPop` the last element takes the freed slot, as `erase` does. -/
def refMatch (remove : Vec → Nat → Vec) (vs vb : Vec) : Vec × Vec × Nat :=
  refSells remove vs.length vs 0 vb 0

/-- The sum of the remaining quantities of the orders of a sequence that satisfy `p`. -/
def qtyWhere (p : OrderExpander → Bool) (v : Vec) : Nat :=
  ((v.filter p).map (fun o => o.currentQty)).sum

/-- The sum of the remaining quantities of a sequence. -/
def totalRemaining (v : Vec) : Nat := (v.map (fun o => o.currentQty)).sum

/-- Every live order's remaining quantity is at most its original quantity. -/
def State.Bounded (c : State) : Prop := ∀ x ∈ c.live, x.currentQty ≤ x.order.qty

/-- README example 3, in the order of the test `MatchingSize_ReadmeExample3_MatchesCorrectly`. -/
def readme3 : List Op :=
  [ .addOrder ⟨"OrdId1", "SecId3", "Sell", 100, "User1", "Company1"⟩,
    .addOrder ⟨"OrdId2", "SecId3", "Sell", 200, "User3", "Company2"⟩,
    .addOrder ⟨"OrdId3", "SecId1", "Buy", 300, "User2", "Company1"⟩,
    .addOrder ⟨"OrdId4", "SecId3", "Sell", 400, "User5", "Company2"⟩,
    .addOrder ⟨"OrdId5", "SecId2", "Sell", 500, "User2", "Company1"⟩,
    .addOrder ⟨"OrdId6", "SecId2", "Buy", 600, "User3", "Company2"⟩,
    .addOrder ⟨"OrdId7", "SecId2", "Sell", 700, "User1", "Company1"⟩,
    .addOrder ⟨"OrdId8", "SecId1", "Sell", 800, "User2", "Company1"⟩,
    .addOrder ⟨"OrdId9", "SecId1", "Buy", 900, "User5", "Company2"⟩,
    .addOrder ⟨"OrdId10", "SecId1", "Sell", 1000, "User1", "Company1"⟩,
    .addOrder ⟨"OrdId11", "SecId2", "Sell", 1100, "User6", "Company2"⟩ ]

/-- A book on which the removal policy decides the total: the first sell order consumes the
first buy order and has 50 left for the next buy slot. -/
def swapBook : List Op :=
  [ .addOrder ⟨"S1", "Sec", "Sell", 150, "U1", "A"⟩,
    .addOrder ⟨"S2", "Sec", "Sell", 100, "U2", "B"⟩,
    .addOrder ⟨"B1", "Sec", "Buy", 100, "U3", "C"⟩,
    .addOrder ⟨"B2", "Sec", "Buy", 100, "U4", "B"⟩,
    .addOrder ⟨"B3", "Sec", "Buy", 100, "U5", "C"⟩ ]

/-- One buy order facing three sell orders, the last of them of the company of the buyer. -/
def oneBuyer : List Op :=
  [ .addOrder ⟨"OrdId1", "SecId1", "Buy", 5000, "User1", "Company1"⟩,
    .addOrder ⟨"OrdId2", "SecId1", "Sell", 2000, "User2", "Company2"⟩,
    .addOrder ⟨"OrdId3", "SecId1", "Sell", 1000, "User3", "Company3"⟩,
    .addOrder ⟨"OrdId4", "SecId1", "Sell", 700, "User4", "Company1"⟩ ]

/-- One sell order of 700 and one buy order of 300 for one security, of different companies. -/
def unevenPair : List Op :=
  [ .addOrder ⟨"OrdId1", "SecId1", "Sell", 700, "User1", "CompanyA"⟩,
    .addOrder ⟨"OrdId2", "SecId1", "Buy", 300, "User2", "CompanyB"⟩ ]

/-- The book of the test `MatchingSize_ManyToMany_MatchesBidirectionally`. -/
def manyToMany : List Op :=
  [ .addOrder ⟨"OrdId1", "SecId2", "Buy", 6000, "User1", "CompanyA"⟩,
    .addOrder ⟨"OrdId2", "SecId2", "Sell", 2000, "User2", "CompanyB"⟩,
    .addOrder ⟨"OrdId3", "SecId2", "Sell", 3000, "User3", "CompanyC"⟩,
    .addOrder ⟨"OrdId4", "SecId2", "Buy", 1000, "User4", "CompanyD"⟩,
    .addOrder ⟨"OrdId5", "SecId2", "Sell", 1500, "User5", "CompanyE"⟩ ]

/-! ## The matching loops with a counter of inner iterations, and one more book -/

/-- The inner loop of `getMatchingSizeForSecurity` as in `matchBuys`, with a ghost counter `n`
that is raised at every execution of the loop body. -/
def matchBuysCount : Nat → MatchVars → Nat → Nat → Except Fault (MatchVars × Nat)
  | 0, _, _, _ => .error .outOfFuel
  | fuel + 1, st, j, n =>
    if j < st.vecBuy.length then
      match st.vecSell[st.i]?, st.vecBuy[j]? with
      | some s, some b =>
        if s.order.company = b.order.company then
          matchBuysCount fuel st ((j + 1) % SIZE_MOD) (n + 1)
        else if s.currentQty ≥ b.currentQty then
          let totalQty := (st.totalQty + b.currentQty) % UINT_MOD
          let s1 : OrderExpander := { s with currentQty := s.currentQty - b.currentQty }
          let vecSell := st.vecSell.set st.i s1
          match erase st.vecBuy j with
          | .error e => .error e
          | .ok (vecBuy, j1) =>
            if s1.currentQty = 0 then
              match erase vecSell st.i with
              | .error e => .error e
              | .ok (vecSell2, i2) =>
                .ok ({ vecSell := vecSell2, vecBuy := vecBuy, i := i2, totalQty := totalQty },
                  n + 1)
            else
              matchBuysCount fuel
                { vecSell := vecSell, vecBuy := vecBuy, i := st.i, totalQty := totalQty }
                ((j1 + 1) % SIZE_MOD) (n + 1)
        else
          let totalQty := (st.totalQty + s.currentQty) % UINT_MOD
          let b1 : OrderExpander := { b with currentQty := b.currentQty - s.currentQty }
          let vecBuy := st.vecBuy.set j b1
          match erase st.vecSell st.i with
          | .error e => .error e
          | .ok (vecSell, i1) =>
            .ok ({ vecSell := vecSell, vecBuy := vecBuy, i := i1, totalQty := totalQty }, n + 1)
      | _, _ => .error .outOfRange
    else
      .ok (st, n)

/-- The outer loop of `getMatchingSizeForSecurity` as in `matchSells`, threading the ghost
counter of inner-loop iterations. -/
def matchSellsCount : Nat → String → Vec → MapOrders → Nat → Nat → Nat →
    Except Fault ((Vec × MapOrders × Nat) × Nat)
  | 0, _, _, _, _, _, _ => .error .outOfFuel
  | fuel + 1, securityId, vecSell, buyOrders, i, totalQty, n =>
    if i < vecSell.length then
      let ref := MapOrders.subscript buyOrders securityId
      match matchBuysCount (ref.2.length + 1)
          { vecSell := vecSell, vecBuy := ref.2, i := i, totalQty := totalQty } 0 n with
      | .error e => .error e
      | .ok (st, n1) =>
        matchSellsCount fuel securityId st.vecSell
          (MapOrders.assign ref.1 securityId st.vecBuy) ((st.i + 1) % SIZE_MOD) st.totalQty n1
    else
      .ok ((vecSell, buyOrders, totalQty), n)

/-- The number of inner-loop iterations one call `getMatchingSizeForSecurity(securityId)` on
the book `c` makes (the security id being non-empty). -/
def getMatchingIterations (c : State) (securityId : String) : Except Fault Nat :=
  let ref := MapOrders.subscript c.m_sellOrders securityId
  match matchSellsCount (ref.2.length + 1) securityId ref.2 c.m_buyOrders 0 0 0 with
  | .error e => .error e
  | .ok (_, n) => .ok n

/-- Three sell orders and three buy orders of 2^31 each for one security, of six companies. -/
def wrapBook : List Op :=
  [ .addOrder ⟨"S1", "Sec", "Sell", 2147483648, "U1", "A"⟩,
    .addOrder ⟨"S2", "Sec", "Sell", 2147483648, "U2", "B"⟩,
    .addOrder ⟨"S3", "Sec", "Sell", 2147483648, "U3", "C"⟩,
    .addOrder ⟨"B1", "Sec", "Buy", 2147483648, "U4", "D"⟩,
    .addOrder ⟨"B2", "Sec", "Buy", 2147483648, "U5", "E"⟩,
    .addOrder ⟨"B3", "Sec", "Buy", 2147483648, "U6", "F"⟩ ]

/-- The book of the test `EdgeCases_GetAllOrders_ResultNotModifiableExternally`. -/
def oneOrder : List Op :=
  [ .addOrder ⟨"OrdId1", "SecId1", "Buy", 100, "User1", "Company1"⟩ ]

/-! # Lemmas

### Arithmetic of `size_t` and the helper `erase` -/

theorem size_pred_eq (n : Nat) (h0 : 0 < n) (h : n < SIZE_MOD) :
    (SIZE_MOD - 1 + n) % SIZE_MOD = n - 1 := by
  unfold SIZE_MOD at *
  omega

theorem index_redo (i : Nat) (h : i < SIZE_MOD) :
    ((SIZE_MOD - 1 + i) % SIZE_MOD + 1) % SIZE_MOD = i := by
  unfold SIZE_MOD at *
  omega

theorem erase_eq (v : Vec) (i : Nat) (hi : i < v.length) (hv : v.length < SIZE_MOD) :
    erase v i = .ok (swapPop v i,
      if i + 1 < v.length then (SIZE_MOD - 1 + i) % SIZE_MOD else i) := by
  have h0 : 0 < v.length := by omega
  unfold erase swapPop
  rw [size_pred_eq _ h0 hv]
  by_cases h1 : i + 1 < v.length
  · have h2 : i < v.length - 1 := by omega
    have h3 : v ≠ [] := by intro h; simp [h] at hi
    simp only [h1, h2, if_true, List.getElem?_eq_getElem hi, List.getLast?_eq_getLast _ h3]
  · have h2 : ¬ i < v.length - 1 := by omega
    simp only [h1, h2, if_false]
    cases v with
    | nil => simp at hi
    | cons a l => rfl

theorem swapPop_length (v : Vec) (i : Nat) : (swapPop v i).length = v.length - 1 := by
  unfold swapPop
  split
  · split <;> simp
  · simp

theorem swapPop_concat (l : Vec) (a : OrderExpander) (i : Nat) :
    swapPop (l ++ [a]) i = if i < l.length then l.set i a else l := by
  unfold swapPop
  by_cases h : i < l.length
  · have h1 : i + 1 < (l ++ [a]).length := by simp; omega
    simp only [h1, h, if_true, List.getLast?_append, List.getLast?_singleton]
    simp [List.set_append, h]
  · have h1 : ¬ i + 1 < (l ++ [a]).length := by simp; omega
    simp [h1, h]

theorem set_perm_cons_eraseIdx {α : Type} (v : List α) (i : Nat) (x : α) (hi : i < v.length) :
    List.Perm (v.set i x) (x :: v.eraseIdx i) := by
  induction v generalizing i with
  | nil => simp at hi
  | cons a l ih =>
    cases i with
    | zero => simp
    | succ n =>
      simp only [List.set_cons_succ, List.eraseIdx_cons_succ]
      have := ih n (by simpa using hi)
      exact (List.Perm.cons a this).trans (List.Perm.swap x a _)

theorem perm_cons_eraseIdx {α : Type} (v : List α) (i : Nat) (x : α) (hx : v[i]? = some x) :
    List.Perm v (x :: v.eraseIdx i) := by
  induction v generalizing i with
  | nil => simp at hx
  | cons a l ih =>
    cases i with
    | zero =>
      simp only [List.getElem?_cons_zero, Option.some.injEq] at hx
      subst hx
      simp
    | succ n =>
      simp only [List.getElem?_cons_succ] at hx
      simp only [List.eraseIdx_cons_succ]
      exact (List.Perm.cons a (ih n hx)).trans (List.Perm.swap x a _)

theorem swapPop_perm (v : Vec) (i : Nat) (hi : i < v.length) :
    List.Perm (swapPop v i) (v.eraseIdx i) := by
  rcases List.eq_nil_or_concat v with h | ⟨l, a, h⟩
  · subst h; simp at hi
  · subst h
    rw [List.concat_eq_append] at hi ⊢
    rw [swapPop_concat]
    by_cases h : i < l.length
    · simp only [h, if_true]
      rw [List.eraseIdx_append_of_lt_length h]
      exact (set_perm_cons_eraseIdx l i a h).trans (List.perm_append_singleton a _).symm
    · simp only [h, if_false]
      have h2 : i = l.length := by simp at hi; omega
      subst h2
      rw [List.eraseIdx_append_of_length_le (le_refl _)]
      simp

theorem swapPop_set (v : Vec) (i : Nat) (x : OrderExpander) :
    swapPop (v.set i x) i = swapPop v i := by
  rcases List.eq_nil_or_concat v with h | ⟨l, a, h⟩
  · subst h; rfl
  · subst h
    rw [List.concat_eq_append]
    by_cases h : i < l.length
    · rw [List.set_append]
      simp only [h, if_true, swapPop_concat, List.length_set, List.set_set]
    · rcases Nat.lt_or_ge l.length i with h3 | h3
      · rw [List.set_eq_of_length_le (by simp; omega)]
      · have h2 : i = l.length := by omega
        subst h2
        rw [List.set_append]
        simp [swapPop_concat]

theorem size_succ_mod (j n : Nat) (h : j < n) (hn : n < SIZE_MOD) : (j + 1) % SIZE_MOD = j + 1 := by
  unfold SIZE_MOD at *
  omega

/-- The index the enclosing loop continues with after `erase v i` and its own increment. -/
theorem erase_next (v : Vec) (i : Nat) (hi : i < v.length) (hv : v.length < SIZE_MOD) :
    ∃ i1, erase v i = .ok (swapPop v i, i1) ∧
      (i1 + 1) % SIZE_MOD = (if i + 1 < v.length then i else i + 1) := by
  rw [erase_eq v i hi hv]
  refine ⟨_, rfl, ?_⟩
  by_cases h : i + 1 < v.length
  · simp only [h, if_true]
    exact index_redo i (by omega)
  · simp only [h, if_false]
    exact size_succ_mod i _ hi hv

theorem matchBuys_spec (fuel : Nat) : ∀ (st : MatchVars) (j : Nat),
    st.vecSell.length < SIZE_MOD → st.vecBuy.length < SIZE_MOD →
    st.i < st.vecSell.length → st.vecBuy.length - j < fuel →
    ∃ st1, matchBuys fuel st j = .ok st1 ∧
      Trades (st.vecSell, st.vecBuy, st.totalQty) (st1.vecSell, st1.vecBuy, st1.totalQty) ∧
      st1.vecSell.length - (st1.i + 1) % SIZE_MOD < st.vecSell.length - st.i := by
  induction fuel with
  | zero => intro st j _ _ _ h; omega
  | succ fuel ih =>
    intro st j hvs hvb hi hfuel
    unfold matchBuys
    by_cases hj : j < st.vecBuy.length
    · simp only [hj, if_true]
      obtain ⟨vs, vb, i, t⟩ := st
      simp only at hvs hvb hi hfuel hj ⊢
      rw [List.getElem?_eq_getElem hi, List.getElem?_eq_getElem hj]
      simp only
      generalize hs : vs[i] = s
      generalize hb : vb[j] = b
      have hs1 : vs[i]? = some s := by rw [List.getElem?_eq_getElem hi, hs]
      have hb1 : vb[j]? = some b := by rw [List.getElem?_eq_getElem hj, hb]
      by_cases hc : s.order.company = b.order.company
      · simp only [hc, if_true]
        rw [size_succ_mod j _ hj hvb]
        exact ih ⟨vs, vb, i, t⟩ (j + 1) hvs hvb hi (by simp only; omega)
      · simp only [hc, if_false]
        have hstep := TradeStep.trade vs vb t i j s b hs1 hb1 hc
        obtain ⟨j1, hej, hj1⟩ := erase_next vb j hj hvb
        by_cases hge : s.currentQty ≥ b.currentQty
        · simp only [hge, if_true, hej]
          have hmin : min s.currentQty b.currentQty = b.currentQty := Nat.min_eq_right hge
          rw [hmin] at hstep
          by_cases hz : s.currentQty - b.currentQty = 0
          · simp only [hz, if_true]
            obtain ⟨i1, hei, hi1⟩ := erase_next (vs.set i { s with currentQty := 0 }) i
              (by simpa using hi) (by simpa using hvs)
            rw [swapPop_set] at hei
            simp only [hei]
            refine ⟨_, rfl, ?_, ?_⟩
            · have hsb : s.currentQty = b.currentQty := by omega
              have : settle vs i s b.currentQty = swapPop vs i := by
                simp [settle, hsb]
              rw [this] at hstep
              have h2 : settle vb j b b.currentQty = swapPop vb j := by simp [settle]
              rw [h2] at hstep
              exact Relation.ReflTransGen.single hstep
            · simp only [hi1, swapPop_length, List.length_set]
              split <;> omega
          · simp only [hz, if_false]
            have hne : s.currentQty ≠ b.currentQty := by omega
            have h1 : settle vs i s b.currentQty =
                vs.set i { s with currentQty := s.currentQty - b.currentQty } := by
              simp [settle, hne]
            have h2 : settle vb j b b.currentQty = swapPop vb j := by simp [settle]
            rw [h1, h2] at hstep
            obtain ⟨st1, hrun, htr, hlen⟩ := ih
              ⟨vs.set i { s with currentQty := s.currentQty - b.currentQty }, swapPop vb j, i,
                (t + b.currentQty) % UINT_MOD⟩ ((j1 + 1) % SIZE_MOD)
              (by simpa using hvs) (by simp only [swapPop_length]; omega) (by simpa using hi)
              (by simp only [swapPop_length, hj1]; split <;> omega)
            refine ⟨st1, hrun, Relation.ReflTransGen.head hstep htr, ?_⟩
            simpa using hlen
        · simp only [hge, if_false]
          have hlt : s.currentQty < b.currentQty := by omega
          have hmin : min s.currentQty b.currentQty = s.currentQty := Nat.min_eq_left (by omega)
          rw [hmin] at hstep
          obtain ⟨i1, hei, hi1⟩ := erase_next vs i hi hvs
          simp only [hei]
          refine ⟨_, rfl, ?_, ?_⟩
          · have h1 : settle vs i s s.currentQty = swapPop vs i := by simp [settle]
            have h2 : settle vb j b s.currentQty =
                vb.set j { b with currentQty := b.currentQty - s.currentQty } := by
              have : b.currentQty ≠ s.currentQty := by omega
              simp [settle, this]
            rw [h1, h2] at hstep
            exact Relation.ReflTransGen.single hstep
          · simp only [hi1, swapPop_length]
            split <;> omega
    · simp only [hj, if_false]
      refine ⟨st, rfl, Relation.ReflTransGen.refl, ?_⟩
      rw [size_succ_mod st.i _ hi hvs]
      omega

/-! ### Association-list lemmas -/

theorem subscript_snd (m : MapOrders) (k : String) : (MapOrders.subscript m k).2 = MapOrders.vec m k := by
  unfold MapOrders.subscript MapOrders.vec
  cases h : MapOrders.find m k <;> simp

theorem find_append_absent (m : MapOrders) (k : String) (v : Vec) (h : MapOrders.find m k = none) (k1 : String) :
    MapOrders.find (m ++ [(k, v)]) k1 = if k = k1 then some v else MapOrders.find m k1 := by
  induction m with
  | nil => simp [MapOrders.find]
  | cons p r ih =>
    obtain ⟨k2, v2⟩ := p
    simp only [MapOrders.find, List.cons_append] at h ⊢
    by_cases h2 : k2 = k
    · simp [h2] at h
    · simp only [h2, if_false] at h
      by_cases h3 : k2 = k1
      · have : ¬ k = k1 := by rw [← h3]; exact fun h4 => h2 h4.symm
        simp [h3, this]
      · simp only [h3, if_false]
        exact ih h

theorem find_assign (m : MapOrders) (k : String) (v : Vec) (k1 : String) :
    MapOrders.find (MapOrders.assign m k v) k1 =
      if k1 = k then (MapOrders.find m k).map (fun _ => v) else MapOrders.find m k1 := by
  induction m with
  | nil => simp [MapOrders.find, MapOrders.assign]
  | cons p r ih =>
    obtain ⟨k2, v2⟩ := p
    simp only [MapOrders.assign]
    by_cases h2 : k2 = k
    · subst h2
      by_cases h3 : k1 = k2
      · subst h3; simp [MapOrders.find]
      · have : ¬ k2 = k1 := fun h => h3 h.symm
        simp [MapOrders.find, h3, this]
    · simp only [h2, if_false, MapOrders.find]
      by_cases h3 : k2 = k1
      · have : ¬ k1 = k := by rw [← h3]; exact h2
        simp [h3, this]
      · simp only [h3, if_false, ih]

theorem find_put (m : MapOrders) (k : String) (v : Vec) (k1 : String) :
    MapOrders.find (MapOrders.put m k v) k1 = if k1 = k then some v else MapOrders.find m k1 := by
  unfold MapOrders.put MapOrders.subscript
  cases h : MapOrders.find m k with
  | some w =>
    simp only [find_assign, h, Option.map_some']
  | none =>
    simp only [find_assign, find_append_absent m k [] h]
    by_cases h1 : k1 = k
    · simp [h1]
    · have : ¬ k = k1 := fun h2 => h1 h2.symm
      simp [h1, this]

theorem vec_put_same (m : MapOrders) (k : String) (v : Vec) :
    MapOrders.vec (MapOrders.put m k v) k = v := by
  simp [MapOrders.vec, find_put]

theorem vec_put_other (m : MapOrders) (k : String) (v : Vec) (k1 : String) (h : k1 ≠ k) :
    MapOrders.vec (MapOrders.put m k v) k1 = MapOrders.vec m k1 := by
  simp [MapOrders.vec, find_put, h]

theorem assign_assign (m : MapOrders) (k : String) (v w : Vec) :
    MapOrders.assign (MapOrders.assign m k v) k w = MapOrders.assign m k w := by
  induction m with
  | nil => rfl
  | cons p r ih =>
    obtain ⟨k2, v2⟩ := p
    by_cases h2 : k2 = k
    · simp [MapOrders.assign, h2]
    · simp [MapOrders.assign, h2, ih]

theorem subscript_put (m : MapOrders) (k : String) (v : Vec) :
    MapOrders.subscript (MapOrders.put m k v) k = (MapOrders.put m k v, v) := by
  have h := find_put m k v k
  simp only [if_true] at h
  simp [MapOrders.subscript, h]

theorem put_put (m : MapOrders) (k : String) (v w : Vec) :
    MapOrders.put (MapOrders.put m k v) k w = MapOrders.put m k w := by
  have h : MapOrders.put (MapOrders.put m k v) k w = MapOrders.assign (MapOrders.put m k v) k w := by
    show MapOrders.assign (MapOrders.subscript (MapOrders.put m k v) k).1 k w = _
    rw [subscript_put]
  rw [h]
  unfold MapOrders.put
  exact assign_assign _ _ _ _

theorem all_cons (k : String) (v : Vec) (r : MapOrders) :
    MapOrders.all ((k, v) :: r) = v ++ MapOrders.all r := by
  simp [MapOrders.all]

theorem all_append (m r : MapOrders) :
    MapOrders.all (m ++ r) = MapOrders.all m ++ MapOrders.all r := by
  simp [MapOrders.all]

theorem all_perm_vec_rest (m : MapOrders) (k : String) :
    List.Perm (MapOrders.all m) (MapOrders.vec m k ++ MapOrders.rest m k) := by
  induction m with
  | nil => simp [MapOrders.all, MapOrders.vec, MapOrders.rest, MapOrders.find]
  | cons p r ih =>
    obtain ⟨k2, v2⟩ := p
    by_cases h2 : k2 = k
    · simp [all_cons, MapOrders.vec, MapOrders.rest, MapOrders.find, h2]
    · simp only [all_cons, MapOrders.vec, MapOrders.rest, MapOrders.find, h2, if_false]
      have h3 := ih
      simp only [MapOrders.vec] at h3
      refine (List.Perm.append_left v2 h3).trans ?_
      rw [← List.append_assoc, ← List.append_assoc]
      exact List.Perm.append_right _ List.perm_append_comm

theorem all_put_perm (m : MapOrders) (k : String) (v : Vec) :
    List.Perm (MapOrders.all (MapOrders.put m k v)) (v ++ MapOrders.rest m k) := by
  unfold MapOrders.put MapOrders.subscript
  induction m with
  | nil => simp [MapOrders.find, MapOrders.assign, MapOrders.all, MapOrders.rest]
  | cons p r ih =>
    obtain ⟨k2, v2⟩ := p
    by_cases h2 : k2 = k
    · simp [MapOrders.find, MapOrders.assign, MapOrders.rest, h2, all_cons]
    · simp only [MapOrders.find, h2, if_false, MapOrders.rest]
      cases h : MapOrders.find r k with
      | some w =>
        simp only [h] at ih
        simp only [MapOrders.assign, h2, if_false, all_cons]
        refine (List.Perm.append_left v2 ih).trans ?_
        rw [← List.append_assoc, ← List.append_assoc]
        exact List.Perm.append_right _ List.perm_append_comm
      | none =>
        simp only [h] at ih
        simp only [List.cons_append, MapOrders.assign, h2, if_false, all_cons]
        refine (List.Perm.append_left v2 ih).trans ?_
        rw [← List.append_assoc, ← List.append_assoc]
        exact List.Perm.append_right _ List.perm_append_comm

theorem find_mem (m : MapOrders) (k : String) (v : Vec) (h : MapOrders.find m k = some v) :
    (k, v) ∈ m := by
  induction m with
  | nil => simp [MapOrders.find] at h
  | cons p r ih =>
    obtain ⟨k2, v2⟩ := p
    by_cases h2 : k2 = k
    · simp only [MapOrders.find, h2, if_true, Option.some.injEq] at h
      simp [h2, h]
    · simp only [MapOrders.find, h2, if_false] at h
      exact List.mem_cons_of_mem _ (ih h)

theorem vec_length_lt (m : MapOrders) (k : String) (h : ∀ p ∈ m, p.2.length < SIZE_MOD) :
    (MapOrders.vec m k).length < SIZE_MOD := by
  unfold MapOrders.vec
  cases hf : MapOrders.find m k with
  | none => simp [SIZE_MOD]
  | some v => exact h _ (find_mem m k v hf)

theorem settle_length_le (v : Vec) (i : Nat) (x : OrderExpander) (a : Nat) :
    (settle v i x a).length ≤ v.length := by
  unfold settle
  split
  · rw [swapPop_length]; omega
  · simp

theorem tradeStep_length_le {x y : Vec × Vec × Nat} (h : TradeStep x y) :
    y.1.length ≤ x.1.length ∧ y.2.1.length ≤ x.2.1.length := by
  cases h with
  | trade vs vb t i j s b hs hb hc =>
    exact ⟨settle_length_le _ _ _ _, settle_length_le _ _ _ _⟩

theorem trades_length_le {x y : Vec × Vec × Nat} (h : Trades x y) :
    y.1.length ≤ x.1.length ∧ y.2.1.length ≤ x.2.1.length := by
  induction h with
  | refl => exact ⟨le_refl _, le_refl _⟩
  | tail _ hstep ih =>
    have := tradeStep_length_le hstep
    exact ⟨le_trans this.1 ih.1, le_trans this.2 ih.2⟩

theorem matchSells_zero (sid : String) (vs : Vec) (m : MapOrders) (i t : Nat) :
    matchSells 0 sid vs m i t = .error .outOfFuel := rfl

theorem matchSells_spec (sid : String) (fuel : Nat) : ∀ (vs : Vec) (buys : MapOrders) (i t : Nat),
    vs.length < SIZE_MOD → (MapOrders.vec buys sid).length < SIZE_MOD →
    vs.length - i < fuel →
    ∃ vs1 buys1 t1, matchSells fuel sid vs buys i t = .ok (vs1, buys1, t1) ∧
      Trades (vs, MapOrders.vec buys sid, t) (vs1, MapOrders.vec buys1 sid, t1) ∧
      (buys1 = buys ∨ buys1 = MapOrders.put buys sid (MapOrders.vec buys1 sid)) := by
  induction fuel with
  | zero => intro vs buys i t _ _ h; omega
  | succ fuel ih =>
    intro vs buys i t hvs hvb hfuel
    unfold matchSells
    by_cases hi : i < vs.length
    · simp only [hi, if_true, subscript_snd]
      obtain ⟨st1, hrun, htr, hlen⟩ := matchBuys_spec ((MapOrders.vec buys sid).length + 1)
        ⟨vs, MapOrders.vec buys sid, i, t⟩ 0 hvs hvb hi (by simp)
      simp only [hrun]
      have hl := trades_length_le htr
      simp only at hl hlen htr
      have hput : MapOrders.assign (MapOrders.subscript buys sid).1 sid st1.vecBuy =
          MapOrders.put buys sid st1.vecBuy := rfl
      rw [hput]
      obtain ⟨vs1, buys1, t1, hrun1, htr1, hb1⟩ := ih st1.vecSell
        (MapOrders.put buys sid st1.vecBuy) ((st1.i + 1) % SIZE_MOD) st1.totalQty
        (by omega) (by rw [vec_put_same]; omega) (by omega)
      refine ⟨vs1, buys1, t1, hrun1, ?_, Or.inr ?_⟩
      · rw [vec_put_same] at htr1
        exact htr.trans htr1
      · rcases hb1 with h | h
        · rw [h, vec_put_same]
        · rw [put_put] at h
          exact h
    · simp only [hi, if_false]
      exact ⟨vs, buys, t, rfl, Relation.ReflTransGen.refl, Or.inl rfl⟩

/-- What `getMatchingSizeForSecurity` does on a book whose two vectors of the
security fit: it returns, and result and vectors come from a run of trades. -/
theorem getMatching_spec (c : State) (sid : String) (hsid : sid ≠ "")
    (hs : (MapOrders.vec c.m_sellOrders sid).length < SIZE_MOD)
    (hb : (MapOrders.vec c.m_buyOrders sid).length < SIZE_MOD) :
    ∃ vs1 buys1 t1,
      getMatchingSizeForSecurity c sid =
        (.ret t1, { c with m_sellOrders := MapOrders.put c.m_sellOrders sid vs1,
                           m_buyOrders := buys1 }) ∧
      Trades (MapOrders.vec c.m_sellOrders sid, MapOrders.vec c.m_buyOrders sid, 0)
        (vs1, MapOrders.vec buys1 sid, t1) ∧
      (buys1 = c.m_buyOrders ∨
        buys1 = MapOrders.put c.m_buyOrders sid (MapOrders.vec buys1 sid)) := by
  unfold getMatchingSizeForSecurity
  simp only [hsid, if_false, subscript_snd]
  obtain ⟨vs1, buys1, t1, hrun, htr, hb1⟩ := matchSells_spec sid
    ((MapOrders.vec c.m_sellOrders sid).length + 1) (MapOrders.vec c.m_sellOrders sid)
    c.m_buyOrders 0 0 hs hb (by simp)
  simp only [hrun]
  exact ⟨vs1, buys1, t1, rfl, htr, hb1⟩

/-! ### What one trade does to a vector -/

theorem swapPop_subperm (v : Vec) (i : Nat) (hi : i < v.length) : List.Subperm (swapPop v i) v :=
  (swapPop_perm v i hi).subperm.trans (List.eraseIdx_sublist v i).subperm

theorem subperm_map {α β : Type} (f : α → β) {l₁ l₂ : List α} (h : List.Subperm l₁ l₂) :
    List.Subperm (l₁.map f) (l₂.map f) := by
  obtain ⟨l, hp, hs⟩ := h
  exact ⟨l.map f, hp.map f, hs.map f⟩

theorem getElem?_lt {v : Vec} {i : Nat} {x : OrderExpander} (h : v[i]? = some x) : i < v.length := by
  rcases Nat.lt_or_ge i v.length with h1 | h1
  · exact h1
  · rw [List.getElem?_eq_none h1] at h; cases h

theorem set_same_order (v : Vec) (i : Nat) (x : OrderExpander) (q : Nat) (h : v[i]? = some x) :
    (v.set i { x with currentQty := q }).map OrderExpander.order = v.map OrderExpander.order := by
  induction v generalizing i with
  | nil => simp
  | cons a l ih =>
    cases i with
    | zero =>
      simp only [List.getElem?_cons_zero, Option.some.injEq] at h
      subst h
      simp
    | succ n =>
      simp only [List.getElem?_cons_succ] at h
      simp [ih n h]

theorem settle_orders (v : Vec) (i : Nat) (x : OrderExpander) (a : Nat) (h : v[i]? = some x) :
    List.Subperm ((settle v i x a).map OrderExpander.order) (v.map OrderExpander.order) := by
  unfold settle
  split
  · exact subperm_map _ (swapPop_subperm v i (getElem?_lt h))
  · rw [set_same_order v i x _ h]

theorem settle_pos (v : Vec) (i : Nat) (x : OrderExpander) (a : Nat) (h : v[i]? = some x)
    (ha : a ≤ x.currentQty) (hv : ∀ o ∈ v, 0 < o.currentQty) :
    ∀ o ∈ settle v i x a, 0 < o.currentQty := by
  unfold settle
  split
  · intro o ho
    exact hv o ((swapPop_subperm v i (getElem?_lt h)).subset ho)
  · rename_i hne
    intro o ho
    rcases List.mem_or_eq_of_mem_set ho with h1 | h1
    · exact hv o h1
    · subst h1
      show 0 < x.currentQty - a
      omega

theorem remainingSum_perm {v w : Vec} (h : List.Perm v w) (id : String) :
    remainingSum v id = remainingSum w id := by
  unfold remainingSum
  exact ((h.filter _).map _).sum_eq

theorem remainingSum_cons (x : OrderExpander) (v : Vec) (id : String) :
    remainingSum (x :: v) id =
      (if x.order.orderId = id then x.currentQty else 0) + remainingSum v id := by
  unfold remainingSum
  by_cases h : x.order.orderId = id
  · simp [List.filter_cons, h]
  · simp [List.filter_cons, h]

theorem settle_remainingSum (v : Vec) (i : Nat) (x : OrderExpander) (a : Nat) (h : v[i]? = some x)
    (ha : a ≤ x.currentQty) (id : String) :
    remainingSum (settle v i x a) id + (if x.order.orderId = id then a else 0) =
      remainingSum v id := by
  have hi := getElem?_lt h
  rw [remainingSum_perm (perm_cons_eraseIdx v i x h) id, remainingSum_cons]
  unfold settle
  split
  · rename_i hxa
    rw [remainingSum_perm (swapPop_perm v i hi) id]
    split <;> omega
  · rw [remainingSum_perm (set_perm_cons_eraseIdx v i _ hi) id, remainingSum_cons]
    simp only
    split <;> omega

/-- A trade needs a sell and a buy order of different companies. -/
theorem TradeStep.pair {x y : Vec × Vec × Nat} (h : TradeStep x y) :
    ∃ s ∈ x.1, ∃ b ∈ x.2.1, s.order.company ≠ b.order.company := by
  cases h with
  | trade vs vb t i j s b hs hb hc =>
    exact ⟨s, List.getElem?_mem hs, b, List.getElem?_mem hb, hc⟩

theorem Trades.eq_of_no_pair {x y : Vec × Vec × Nat} (h : Trades x y)
    (hno : ∀ s ∈ x.1, ∀ b ∈ x.2.1, s.order.company = b.order.company) : y = x := by
  rcases Relation.ReflTransGen.cases_head h with h1 | ⟨z, hz, _⟩
  · exact h1.symm
  · obtain ⟨s, hs, b, hb, hc⟩ := hz.pair
    exact absurd (hno s hs b hb) hc

theorem tradeStep_orders {x y : Vec × Vec × Nat} (h : TradeStep x y) :
    List.Subperm (y.1.map OrderExpander.order) (x.1.map OrderExpander.order) ∧
    List.Subperm (y.2.1.map OrderExpander.order) (x.2.1.map OrderExpander.order) := by
  cases h with
  | trade vs vb t i j s b hs hb hc =>
    exact ⟨settle_orders _ _ _ _ hs, settle_orders _ _ _ _ hb⟩

theorem trades_orders {x y : Vec × Vec × Nat} (h : Trades x y) :
    List.Subperm (y.1.map OrderExpander.order) (x.1.map OrderExpander.order) ∧
    List.Subperm (y.2.1.map OrderExpander.order) (x.2.1.map OrderExpander.order) := by
  induction h with
  | refl => exact ⟨List.Subperm.refl _, List.Subperm.refl _⟩
  | tail _ hstep ih =>
    have := tradeStep_orders hstep
    exact ⟨this.1.trans ih.1, this.2.trans ih.2⟩

theorem tradeStep_pos {x y : Vec × Vec × Nat} (h : TradeStep x y)
    (hs : ∀ o ∈ x.1, 0 < o.currentQty) (hb : ∀ o ∈ x.2.1, 0 < o.currentQty) :
    (∀ o ∈ y.1, 0 < o.currentQty) ∧ (∀ o ∈ y.2.1, 0 < o.currentQty) := by
  cases h with
  | trade vs vb t i j s b h1 h2 hc =>
    exact ⟨settle_pos _ _ _ _ h1 (Nat.min_le_left _ _) hs,
      settle_pos _ _ _ _ h2 (Nat.min_le_right _ _) hb⟩

theorem trades_pos {x y : Vec × Vec × Nat} (h : Trades x y)
    (hs : ∀ o ∈ x.1, 0 < o.currentQty) (hb : ∀ o ∈ x.2.1, 0 < o.currentQty) :
    (∀ o ∈ y.1, 0 < o.currentQty) ∧ (∀ o ∈ y.2.1, 0 < o.currentQty) := by
  induction h with
  | refl => exact ⟨hs, hb⟩
  | tail _ hstep ih => exact tradeStep_pos hstep ih.1 ih.2

theorem nodup_of_subperm {α : Type} {l₁ l₂ : List α} (h : List.Subperm l₁ l₂) (hn : l₂.Nodup) :
    l₁.Nodup := by
  obtain ⟨l, hp, hs⟩ := h
  exact hp.nodup_iff.mp (hn.sublist hs)

theorem Fill.total_cons (f : Fill) (fills : List Fill) :
    Fill.total (f :: fills) = f.amount + Fill.total fills := by
  simp [Fill.total]

theorem Fill.sold_cons (f : Fill) (fills : List Fill) (id : String) :
    Fill.sold (f :: fills) id = (if f.sellId = id then f.amount else 0) + Fill.sold fills id := by
  unfold Fill.sold
  by_cases h : f.sellId = id
  · simp [List.filter_cons, h, Fill.total_cons]
  · simp [List.filter_cons, h]

theorem Fill.bought_cons (f : Fill) (fills : List Fill) (id : String) :
    Fill.bought (f :: fills) id = (if f.buyId = id then f.amount else 0) + Fill.bought fills id := by
  unfold Fill.bought
  by_cases h : f.buyId = id
  · simp [List.filter_cons, h, Fill.total_cons]
  · simp [List.filter_cons, h]

theorem uint_add_mod (t a b : Nat) :
    ((t + a) % UINT_MOD + b) % UINT_MOD = (t + (a + b)) % UINT_MOD := by
  unfold UINT_MOD
  omega

theorem mem_of_order_subperm {v w : Vec}
    (h : List.Subperm (v.map OrderExpander.order) (w.map OrderExpander.order))
    {o : OrderExpander} (ho : o ∈ v) : ∃ o1 ∈ w, o1.order = o.order := by
  have h1 : o.order ∈ w.map OrderExpander.order := h.subset (List.mem_map_of_mem _ ho)
  obtain ⟨o1, h2, h3⟩ := List.mem_map.mp h1
  exact ⟨o1, h2, h3⟩

/-- A run of trades is explained by a list of fills. -/
theorem Trades.fills {x y : Vec × Vec × Nat} (h : Trades x y) :
    (∀ o ∈ x.1, 0 < o.currentQty) → (∀ o ∈ x.2.1, 0 < o.currentQty) → x.2.2 < UINT_MOD →
    ∃ fills : List Fill,
      (∀ f ∈ fills, 0 < f.amount ∧ ∃ s ∈ x.1, ∃ b ∈ x.2.1,
        s.order.orderId = f.sellId ∧ b.order.orderId = f.buyId ∧
        s.order.company ≠ b.order.company) ∧
      (∀ id, remainingSum y.1 id + Fill.sold fills id = remainingSum x.1 id) ∧
      (∀ id, remainingSum y.2.1 id + Fill.bought fills id = remainingSum x.2.1 id) ∧
      y.2.2 = (x.2.2 + Fill.total fills) % UINT_MOD := by
  induction h using Relation.ReflTransGen.head_induction_on with
  | refl =>
    intro _ _ ht
    refine ⟨[], ?_, ?_, ?_, ?_⟩
    · intro f hf; cases hf
    · intro id; simp [Fill.sold, Fill.total]
    · intro id; simp [Fill.bought, Fill.total]
    · simp only [Fill.total, List.map_nil, List.sum_nil, Nat.add_zero]
      exact (Nat.mod_eq_of_lt ht).symm
  | head hstep hrest ih =>
    intro hs hb ht
    have hpos := tradeStep_pos hstep hs hb
    have hord := tradeStep_orders hstep
    cases hstep with
    | trade vs vb t i j s b h1 h2 hc =>
      obtain ⟨fills, hf, hsold, hbought, htot⟩ := ih hpos.1 hpos.2
        (Nat.mod_lt _ (by unfold UINT_MOD; omega))
      have hsm : s ∈ vs := List.getElem?_mem h1
      have hbm : b ∈ vb := List.getElem?_mem h2
      refine ⟨⟨s.order.orderId, b.order.orderId, min s.currentQty b.currentQty⟩ :: fills,
        ?_, ?_, ?_, ?_⟩
      · intro f hfm
        rcases List.mem_cons.mp hfm with h | h
        · subst h
          refine ⟨?_, s, hsm, b, hbm, rfl, rfl, hc⟩
          have := hs s hsm
          have := hb b hbm
          simp only [lt_min_iff]
          exact ⟨hs s hsm, hb b hbm⟩
        · obtain ⟨hamt, s1, hs1, b1, hb1, e1, e2, e3⟩ := hf f h
          obtain ⟨s0, hs0, es⟩ := mem_of_order_subperm hord.1 hs1
          obtain ⟨b0, hb0, eb⟩ := mem_of_order_subperm hord.2 hb1
          refine ⟨hamt, s0, hs0, b0, hb0, ?_, ?_, ?_⟩
          · rw [es]; exact e1
          · rw [eb]; exact e2
          · rw [es, eb]; exact e3
      · intro id
        have := settle_remainingSum vs i s (min s.currentQty b.currentQty) h1
          (Nat.min_le_left _ _) id
        have h3 := hsold id
        simp only at h3 this
        rw [Fill.sold_cons]
        simp only
        omega
      · intro id
        have := settle_remainingSum vb j b (min s.currentQty b.currentQty) h2
          (Nat.min_le_right _ _) id
        have h3 := hbought id
        simp only at h3 this
        rw [Fill.bought_cons]
        simp only
        omega
      · rw [htot, Fill.total_cons]
        exact uint_add_mod _ _ _

theorem remaining_eq_sum (v : Vec) (id : String)
    (h : (v.map (fun o => o.order.orderId)).Nodup) : remaining v id = remainingSum v id := by
  induction v with
  | nil => rfl
  | cons x l ih =>
    have hn : x.order.orderId ∉ l.map (fun o => o.order.orderId) ∧
        (l.map (fun o => o.order.orderId)).Nodup := by
      rw [List.map_cons] at h
      exact List.nodup_cons.mp h
    rw [remainingSum_cons]
    unfold remaining
    by_cases hx : x.order.orderId = id
    · have hz : remainingSum l id = 0 := by
        unfold remainingSum
        have : l.filter (fun o => decide (o.order.orderId = id)) = [] := by
          rw [List.filter_eq_nil_iff]
          intro o ho hd
          have : o.order.orderId = id := by simpa using hd
          apply hn.1
          rw [hx, ← this]
          exact List.mem_map_of_mem (fun o => o.order.orderId) ho
        rw [this]; rfl
      simp [List.find?_cons, hx, hz]
    · have := ih hn.2
      unfold remaining at this
      simp [List.find?_cons, hx, this]

/-! ### The cancellation loops -/

theorem swapPop_getElem?_lt (v : Vec) (i k : Nat) (y : OrderExpander) (hk : k < i)
    (h : (swapPop v i)[k]? = some y) : v[k]? = some y := by
  rcases List.eq_nil_or_concat v with h0 | ⟨l, a, h0⟩
  · subst h0
    simp [swapPop] at h
  · subst h0
    rw [List.concat_eq_append] at h ⊢
    rw [swapPop_concat] at h
    have hkl : k < l.length := by
      split at h
      · have := getElem?_lt h
        simpa using this
      · exact getElem?_lt h
    rw [List.getElem?_append_left hkl]
    split at h
    · rw [List.getElem?_set_ne (by omega)] at h
      exact h
    · exact h

theorem all_keep_of_front (drop : OrderExpander → Bool) (vec : Vec) (i : Nat)
    (hi : vec.length ≤ i) (hpre : ∀ k x, k < i → vec[k]? = some x → drop x = false) :
    ∀ x ∈ vec, drop x = false := by
  intro x hx
  obtain ⟨k, hk, hkx⟩ := List.getElem_of_mem hx
  exact hpre k x (by omega) (by rw [List.getElem?_eq_getElem hk, hkx])

theorem sweepVec_spec (drop : OrderExpander → Bool) (fuel : Nat) :
    ∀ (vec : Vec) (ids : OrderIds) (i : Nat), vec.length < SIZE_MOD → vec.length - i < fuel →
    (∀ k x, k < i → vec[k]? = some x → drop x = false) →
    ∃ vec1, sweepVec drop fuel vec ids i =
        .ok (vec1, ids \ (idsOf (vec.filter drop)).toFinset) ∧
      List.Perm vec1 (vec.filter (fun o => !drop o)) := by
  induction fuel with
  | zero => intro vec ids i _ h; omega
  | succ fuel ih =>
    intro vec ids i hv hfuel hpre
    unfold sweepVec
    by_cases hi : i < vec.length
    · simp only [hi, if_true]
      rw [List.getElem?_eq_getElem hi]
      simp only
      generalize hx : vec[i] = x
      have hx1 : vec[i]? = some x := by rw [List.getElem?_eq_getElem hi, hx]
      by_cases hd : drop x = false
      · simp only [hd, if_true]
        rw [size_succ_mod i _ hi hv]
        apply ih vec ids (i + 1) hv (by omega)
        intro k y hk hy
        rcases Nat.lt_succ_iff_lt_or_eq.mp hk with h | h
        · exact hpre k y h hy
        · subst h
          rw [hx1] at hy
          cases hy
          exact hd
      · simp only [hd, if_false]
        have hd1 : drop x = true := by simpa using hd
        obtain ⟨i1, hei, hi1⟩ := erase_next vec i hi hv
        simp only [hei]
        obtain ⟨vec1, hrun, hperm⟩ := ih (swapPop vec i) (ids.erase x.order.orderId)
          ((i1 + 1) % SIZE_MOD) (by rw [swapPop_length]; omega)
          (by rw [swapPop_length, hi1]; split <;> omega)
          (by
            intro k y hk hy
            have hkl : k < (swapPop vec i).length := getElem?_lt hy
            rw [swapPop_length] at hkl
            have hki : k < i := by
              rw [hi1] at hk
              split at hk <;> omega
            exact hpre k y hki (swapPop_getElem?_lt vec i k y hki hy))
        have hp1 : List.Perm vec (x :: swapPop vec i) :=
          (perm_cons_eraseIdx vec i x hx1).trans (List.Perm.cons x (swapPop_perm vec i hi).symm)
        refine ⟨vec1, ?_, ?_⟩
        · rw [hrun]
          have hp2 := hp1.filter drop
          rw [List.filter_cons_of_pos hd1] at hp2
          have hp3 : List.Perm (idsOf (vec.filter drop))
              (x.order.orderId :: idsOf ((swapPop vec i).filter drop)) := hp2.map _
          rw [List.toFinset_eq_of_perm _ _ hp3]
          have hids : ids.erase x.order.orderId \ (idsOf ((swapPop vec i).filter drop)).toFinset =
              ids \ (x.order.orderId :: idsOf ((swapPop vec i).filter drop)).toFinset := by
            ext z
            simp only [Finset.mem_sdiff, Finset.mem_erase, List.toFinset_cons, Finset.mem_insert]
            tauto
          rw [hids]
          simp
        · have hp2 := hp1.filter (fun o => !drop o)
          rw [List.filter_cons_of_neg (by simp [hd1])] at hp2
          exact hperm.trans hp2.symm
    · simp only [hi, if_false]
      have hall := all_keep_of_front drop vec i (by omega) hpre
      have h1 : vec.filter drop = [] := by
        rw [List.filter_eq_nil_iff]
        intro x hx
        simp [hall x hx]
      have h2 : vec.filter (fun o => !drop o) = vec := by
        rw [List.filter_eq_self]
        intro x hx
        simp [hall x hx]
      refine ⟨vec, ?_, ?_⟩
      · rw [h1]; simp [idsOf]
      · rw [h2]

theorem cancelUserVec_eq (user : String) (fuel : Nat) : ∀ (vec : Vec) (ids : OrderIds) (i : Nat),
    cancelUserVec fuel user vec ids i =
      sweepVec (fun o => decide (o.order.user = user)) fuel vec ids i := by
  induction fuel with
  | zero => intro vec ids i; rfl
  | succ fuel ih =>
    intro vec ids i
    unfold cancelUserVec sweepVec
    split
    · split
      · rfl
      · rename_i o _
        by_cases h : o.order.user = user
        · simp only [h, ne_eq, not_true_eq_false, if_false, decide_True]
          split
          · rfl
          · simp [ih]
        · simp only [h, ne_eq, not_false_eq_true, if_true, decide_False, ih]
    · rfl

theorem cancelMinQtyVec_eq (minQty : Nat) (fuel : Nat) : ∀ (vec : Vec) (ids : OrderIds) (i : Nat),
    cancelMinQtyVec fuel minQty vec ids i =
      sweepVec (fun o => decide (minQty ≤ o.order.qty)) fuel vec ids i := by
  induction fuel with
  | zero => intro vec ids i; rfl
  | succ fuel ih =>
    intro vec ids i
    unfold cancelMinQtyVec sweepVec
    split
    · split
      · rfl
      · rename_i o _
        by_cases h : o.order.qty < minQty
        · have h1 : ¬ minQty ≤ o.order.qty := by omega
          simp only [h, if_true, h1, decide_False, ih]
        · have h1 : minQty ≤ o.order.qty := by omega
          simp only [h, if_false, h1, decide_True]
          split
          · rfl
          · simp [ih]
    · rfl

theorem cancelOrderVec_spec (orderId : String) (fuel : Nat) : ∀ (vec : Vec) (i : Nat),
    vec.length < SIZE_MOD → vec.length - i < fuel →
    (∀ k x, k < i → vec[k]? = some x → x.order.orderId ≠ orderId) →
    (∃ j x, vec[j]? = some x ∧ x.order.orderId = orderId ∧
        (∀ k y, k < j → vec[k]? = some y → y.order.orderId ≠ orderId) ∧
        cancelOrderVec fuel orderId vec i = .ok (some (swapPop vec j))) ∨
      ((∀ x ∈ vec, x.order.orderId ≠ orderId) ∧ cancelOrderVec fuel orderId vec i = .ok none) := by
  induction fuel with
  | zero => intro vec i _ h; omega
  | succ fuel ih =>
    intro vec i hv hfuel hpre
    unfold cancelOrderVec
    by_cases hi : i < vec.length
    · simp only [hi, if_true]
      rw [List.getElem?_eq_getElem hi]
      simp only
      generalize hx : vec[i] = x
      have hx1 : vec[i]? = some x := by rw [List.getElem?_eq_getElem hi, hx]
      by_cases hd : x.order.orderId = orderId
      · left
        obtain ⟨i1, hei, _⟩ := erase_next vec i hi hv
        refine ⟨i, x, hx1, hd, hpre, ?_⟩
        simp [hd, hei]
      · simp only [ne_eq, hd, not_false_eq_true, if_true]
        rw [size_succ_mod i _ hi hv]
        apply ih vec (i + 1) hv (by omega)
        intro k y hk hy
        rcases Nat.lt_succ_iff_lt_or_eq.mp hk with h | h
        · exact hpre k y h hy
        · subst h
          rw [hx1] at hy
          cases hy
          exact hd
    · right
      simp only [hi, if_false, and_true]
      intro x hx
      obtain ⟨k, hk, hkx⟩ := List.getElem_of_mem hx
      exact hpre k x (by omega) (by rw [List.getElem?_eq_getElem hk, hkx])

theorem cancelOrderIn_spec (orderId : String) (m : MapOrders)
    (hm : ∀ p ∈ m, p.2.length < SIZE_MOD) :
    (∃ m1 x, cancelOrderIn orderId m = .ok (true, m1) ∧ x.order.orderId = orderId ∧
        List.Perm (MapOrders.all m) (x :: MapOrders.all m1)) ∨
      (cancelOrderIn orderId m = .ok (false, m) ∧
        ∀ x ∈ MapOrders.all m, x.order.orderId ≠ orderId) := by
  induction m with
  | nil =>
    right
    exact ⟨rfl, by simp [MapOrders.all]⟩
  | cons p r ih =>
    obtain ⟨k, vec⟩ := p
    have hv : vec.length < SIZE_MOD := hm (k, vec) (List.mem_cons_self _ _)
    have hr : ∀ p ∈ r, p.2.length < SIZE_MOD := fun p hp => hm p (List.mem_cons_of_mem _ hp)
    unfold cancelOrderIn
    rcases cancelOrderVec_spec orderId (vec.length + 1) vec 0 hv (by omega)
      (by intro k x hk; omega) with ⟨j, x, hj, hx, _, hrun⟩ | ⟨hno, hrun⟩
    · left
      refine ⟨(k, swapPop vec j) :: r, x, ?_, hx, ?_⟩
      · simp [hrun]
      · rw [all_cons, all_cons]
        have h1 : List.Perm vec (x :: swapPop vec j) :=
          (perm_cons_eraseIdx vec j x hj).trans
            (List.Perm.cons x (swapPop_perm vec j (getElem?_lt hj)).symm)
        exact h1.append_right _
    · simp only [hrun]
      rcases ih hr with ⟨m1, x, hrun1, hx, hperm⟩ | ⟨hrun1, hno1⟩
      · left
        refine ⟨(k, vec) :: m1, x, ?_, hx, ?_⟩
        · simp [hrun1]
        · rw [all_cons, all_cons]
          exact (hperm.append_left vec).trans List.perm_middle
      · right
        refine ⟨by simp [hrun1], ?_⟩
        intro x hx
        rw [all_cons] at hx
        rcases List.mem_append.mp hx with h | h
        · exact hno x h
        · exact hno1 x h

theorem cancelOrdersForUserIn_spec (user : String) (m : MapOrders) :
    ∀ (ids : OrderIds), (∀ p ∈ m, p.2.length < SIZE_MOD) →
    ∃ m1, cancelOrdersForUserIn user m ids =
        .ok (m1, ids \ (idsOf ((MapOrders.all m).filter
          (fun o => decide (o.order.user = user)))).toFinset) ∧
      List.Perm (MapOrders.all m1)
        ((MapOrders.all m).filter (fun o => !decide (o.order.user = user))) := by
  induction m with
  | nil =>
    intro ids _
    exact ⟨[], by simp [cancelOrdersForUserIn, MapOrders.all, idsOf], by simp [MapOrders.all]⟩
  | cons p r ih =>
    intro ids hm
    obtain ⟨k, vec⟩ := p
    have hv : vec.length < SIZE_MOD := hm (k, vec) (List.mem_cons_self _ _)
    have hr : ∀ p ∈ r, p.2.length < SIZE_MOD := fun p hp => hm p (List.mem_cons_of_mem _ hp)
    unfold cancelOrdersForUserIn
    rw [cancelUserVec_eq]
    obtain ⟨v1, hrun, hperm⟩ := sweepVec_spec (fun o => decide (o.order.user = user))
      (vec.length + 1) vec ids 0 hv (by omega) (by intro k x hk; omega)
    rw [hrun]
    obtain ⟨r1, hrun1, hperm1⟩ := ih
      (ids \ (idsOf (vec.filter (fun o => decide (o.order.user = user)))).toFinset) hr
    simp only [hrun1]
    refine ⟨(k, v1) :: r1, ?_, ?_⟩
    · rw [all_cons, List.filter_append]
      have hids : ∀ (a b : Vec), (ids \ (idsOf a).toFinset) \ (idsOf b).toFinset =
          ids \ (idsOf (a ++ b)).toFinset := by
        intro a b
        ext z
        simp only [idsOf, List.map_append, List.toFinset_append, Finset.mem_sdiff,
          Finset.mem_union]
        tauto
      rw [hids]
    · rw [all_cons, all_cons, List.filter_append]
      exact hperm.append hperm1

theorem cancelMinQtyIn_spec (sid : String) (minQty : Nat) (m : MapOrders) (ids : OrderIds)
    (hm : ∀ p ∈ m, p.2.length < SIZE_MOD) :
    ∃ v1, cancelOrdersForSecIdWithMinimumQtyIn sid minQty m ids =
        .ok (MapOrders.put m sid v1, ids \ (idsOf ((MapOrders.vec m sid).filter
          (fun o => decide (minQty ≤ o.order.qty)))).toFinset) ∧
      List.Perm v1 ((MapOrders.vec m sid).filter (fun o => !decide (minQty ≤ o.order.qty))) := by
  unfold cancelOrdersForSecIdWithMinimumQtyIn
  simp only [subscript_snd]
  rw [cancelMinQtyVec_eq]
  obtain ⟨v1, hrun, hperm⟩ := sweepVec_spec (fun o => decide (minQty ≤ o.order.qty))
    ((MapOrders.vec m sid).length + 1) (MapOrders.vec m sid) ids 0 (vec_length_lt m sid hm)
    (by omega) (by intro k x hk; omega)
  simp only [hrun]
  exact ⟨v1, rfl, hperm⟩

/-! ### The invariant and the public members -/

theorem subperm_append {α : Type} {l₁ l₂ r₁ r₂ : List α} (h : List.Subperm l₁ l₂)
    (h1 : List.Subperm r₁ r₂) : List.Subperm (l₁ ++ r₁) (l₂ ++ r₂) := by
  obtain ⟨l, p, s⟩ := h
  obtain ⟨r, p1, s1⟩ := h1
  exact ⟨l ++ r, p.append p1, s.append s1⟩

theorem idsOf_eq (v : Vec) : idsOf v = (v.map OrderExpander.order).map Order.orderId := by
  simp [idsOf]

theorem LiveInv.perm {live live1 : Vec} {ids : OrderIds} (h : LiveInv live ids)
    (hp : List.Perm live1 live) : LiveInv live1 ids := by
  obtain ⟨h1, h2, h3⟩ := h
  refine ⟨?_, fun o ho => h2 o (hp.subset ho), fun o ho => h3 o (hp.subset ho)⟩
  exact (hp.map _).nodup_iff.mpr h1

theorem LiveInv.remove {live live1 removed : Vec} {ids : OrderIds} (h : LiveInv live ids)
    (hp : List.Perm live (removed ++ live1)) :
    LiveInv live1 (ids \ (idsOf removed).toFinset) := by
  have h0 := h.perm hp.symm
  obtain ⟨h1, h2, h3⟩ := h0
  simp only [idsOf, List.map_append] at h1
  have hd := List.nodup_append.mp h1
  refine ⟨hd.2.1, ?_, fun o ho => h3 o (List.mem_append_right _ ho)⟩
  intro o ho
  rw [Finset.mem_sdiff]
  refine ⟨h2 o (List.mem_append_right _ ho), ?_⟩
  intro hmem
  rw [List.mem_toFinset] at hmem
  exact hd.2.2 hmem (List.mem_map_of_mem (fun o => o.order.orderId) ho)

theorem LiveInv.add {live : Vec} {ids : OrderIds} (h : LiveInv live ids) (x : OrderExpander)
    (hx : x.order.orderId ∉ ids) (hq : 0 < x.currentQty) :
    LiveInv (x :: live) (insert x.order.orderId ids) := by
  obtain ⟨h1, h2, h3⟩ := h
  refine ⟨?_, ?_, ?_⟩
  · simp only [idsOf, List.map_cons]
    refine List.nodup_cons.mpr ⟨?_, h1⟩
    intro hm
    obtain ⟨o, ho, hoe⟩ := List.mem_map.mp hm
    exact hx (hoe ▸ h2 o ho)
  · intro o ho
    rcases List.mem_cons.mp ho with h | h
    · subst h; exact Finset.mem_insert_self _ _
    · exact Finset.mem_insert_of_mem (h2 o h)
  · intro o ho
    rcases List.mem_cons.mp ho with h | h
    · subst h; exact hq
    · exact h3 o h

theorem LiveInv.mono_ids {live : Vec} {ids ids1 : OrderIds} (h : LiveInv live ids)
    (hsub : ∀ o ∈ live, o.order.orderId ∈ ids → o.order.orderId ∈ ids1) : LiveInv live ids1 :=
  ⟨h.1, fun o ho => hsub o ho (h.2.1 o ho), h.2.2⟩

theorem all_put_append (m : MapOrders) (k : String) (x : OrderExpander) :
    List.Perm (MapOrders.all (MapOrders.put m k (MapOrders.vec m k ++ [x])))
      (x :: MapOrders.all m) := by
  refine (all_put_perm m k _).trans ?_
  refine List.Perm.trans ?_ (List.Perm.cons x (all_perm_vec_rest m k).symm)
  rw [List.append_assoc]
  exact (List.perm_middle).trans (by simp)

theorem fits_buy {c : State} (h : Fits c) : ∀ p ∈ c.m_buyOrders, p.2.length < SIZE_MOD :=
  fun p hp => h p (List.mem_append_left _ hp)

theorem fits_sell {c : State} (h : Fits c) : ∀ p ∈ c.m_sellOrders, p.2.length < SIZE_MOD :=
  fun p hp => h p (List.mem_append_right _ hp)

theorem inv_addOrder (c : State) (order : Order) (h : c.Inv) : (addOrder c order).2.Inv := by
  unfold addOrder
  split_ifs with h1 h2 h3 h4 h5 h6 h7 h8 h9
  · exact h
  · exact h
  · exact h
  · exact h
  · exact h
  · exact h
  · exact h
  · simp only [subscript_snd]
    have hq : 0 < (OrderExpander.ofOrder order).currentQty := Nat.pos_of_ne_zero h6
    have := LiveInv.add h (OrderExpander.ofOrder order) h7 hq
    refine this.perm ?_
    show List.Perm (MapOrders.all (MapOrders.put c.m_buyOrders order.securityId _) ++ _) _
    exact ((all_put_append c.m_buyOrders order.securityId _).append_right _)
  · simp only [subscript_snd]
    have hq : 0 < (OrderExpander.ofOrder order).currentQty := Nat.pos_of_ne_zero h6
    have := LiveInv.add h (OrderExpander.ofOrder order) h7 hq
    refine this.perm ?_
    show List.Perm (_ ++ MapOrders.all (MapOrders.put c.m_sellOrders order.securityId _)) _
    exact ((all_put_append c.m_sellOrders order.securityId _).append_left _).trans
      List.perm_middle
  · exact LiveInv.mono_ids h (fun o _ ho => Finset.mem_insert_of_mem ho)

/-- What `cancelOrder` does on a book that fits, for a non-empty identifier:
it returns, the identifier leaves the id-set, and either one live order with
that identifier is removed or no live order carries it and none is touched. -/
theorem cancelOrder_run (c : State) (orderId : String) (hid : orderId ≠ "") (hf : Fits c) :
    (cancelOrder c orderId).1 = .ret () ∧
    (cancelOrder c orderId).2.m_orderIds = c.m_orderIds.erase orderId ∧
    ((∃ x, x.order.orderId = orderId ∧
        List.Perm c.live (x :: (cancelOrder c orderId).2.live)) ∨
      ((cancelOrder c orderId).2.m_buyOrders = c.m_buyOrders ∧
        (cancelOrder c orderId).2.m_sellOrders = c.m_sellOrders ∧
        ∀ x ∈ c.live, x.order.orderId ≠ orderId)) := by
  unfold cancelOrder
  simp only [hid, if_false]
  rcases cancelOrderIn_spec orderId c.m_buyOrders (fits_buy hf) with
    ⟨m1, x, hrun, hx, hperm⟩ | ⟨hrun, hno⟩
  · simp only [hrun]
    exact ⟨trivial, trivial, Or.inl ⟨x, hx, hperm.append_right _⟩⟩
  · simp only [hrun]
    rcases cancelOrderIn_spec orderId c.m_sellOrders (fits_sell hf) with
      ⟨m1, x, hrun1, hx, hperm⟩ | ⟨hrun1, hno1⟩
    · simp only [hrun1]
      exact ⟨trivial, trivial, Or.inl ⟨x, hx, (hperm.append_left _).trans List.perm_middle⟩⟩
    · simp only [hrun1]
      refine ⟨trivial, trivial, Or.inr ⟨trivial, trivial, ?_⟩⟩
      intro o ho
      rcases List.mem_append.mp ho with h5 | h5
      · exact hno o h5
      · exact hno1 o h5

/-- What `cancelOrdersForUser` does on a book that fits, for a non-empty user:
it returns, the live orders of the user are removed and their identifiers
leave the id-set. -/
theorem cancelOrdersForUser_run (c : State) (user : String) (hu : user ≠ "") (hf : Fits c) :
    (cancelOrdersForUser c user).1 = .ret () ∧
    (cancelOrdersForUser c user).2.m_orderIds =
      c.m_orderIds \ (idsOf (c.live.filter (fun o => decide (o.order.user = user)))).toFinset ∧
    List.Perm (MapOrders.all (cancelOrdersForUser c user).2.m_buyOrders)
      ((MapOrders.all c.m_buyOrders).filter (fun o => !decide (o.order.user = user))) ∧
    List.Perm (MapOrders.all (cancelOrdersForUser c user).2.m_sellOrders)
      ((MapOrders.all c.m_sellOrders).filter (fun o => !decide (o.order.user = user))) := by
  unfold cancelOrdersForUser
  simp only [hu, if_false]
  obtain ⟨m1, hrun, hperm⟩ := cancelOrdersForUserIn_spec user c.m_buyOrders c.m_orderIds
    (fits_buy hf)
  simp only [hrun]
  obtain ⟨m2, hrun2, hperm2⟩ := cancelOrdersForUserIn_spec user c.m_sellOrders
    (c.m_orderIds \ (idsOf ((MapOrders.all c.m_buyOrders).filter
        (fun o => decide (o.order.user = user)))).toFinset) (fits_sell hf)
  simp only [hrun2]
  refine ⟨trivial, ?_, hperm, hperm2⟩
  ext z
  simp only [State.live, idsOf, List.filter_append, List.map_append, List.toFinset_append,
    Finset.mem_sdiff, Finset.mem_union]
  tauto

/-- What `cancelOrdersForSecIdWithMinimumQty` does on a book that fits, for
valid arguments: it returns, in the two vectors of the security the orders of
original quantity `minQty` or more are removed, their identifiers leave the
id-set, and every other vector is as before. -/
theorem cancelMinQty_run (c : State) (sid : String) (minQty : Nat) (hsid : sid ≠ "")
    (hq : minQty ≠ 0) (hf : Fits c) :
    ∃ vb vs,
      cancelOrdersForSecIdWithMinimumQty c sid minQty =
        (.ret (), { m_buyOrders := MapOrders.put c.m_buyOrders sid vb,
                    m_sellOrders := MapOrders.put c.m_sellOrders sid vs,
                    m_orderIds := c.m_orderIds \
                      (idsOf ((MapOrders.vec c.m_buyOrders sid ++
                        MapOrders.vec c.m_sellOrders sid).filter
                          (fun o => decide (minQty ≤ o.order.qty)))).toFinset }) ∧
      List.Perm vb ((MapOrders.vec c.m_buyOrders sid).filter
        (fun o => !decide (minQty ≤ o.order.qty))) ∧
      List.Perm vs ((MapOrders.vec c.m_sellOrders sid).filter
        (fun o => !decide (minQty ≤ o.order.qty))) := by
  unfold cancelOrdersForSecIdWithMinimumQty
  simp only [hsid, hq, if_false]
  obtain ⟨v1, hrun, hperm⟩ := cancelMinQtyIn_spec sid minQty c.m_buyOrders c.m_orderIds
    (fits_buy hf)
  simp only [hrun]
  obtain ⟨v2, hrun2, hperm2⟩ := cancelMinQtyIn_spec sid minQty c.m_sellOrders
    (c.m_orderIds \ (idsOf ((MapOrders.vec c.m_buyOrders sid).filter
        (fun o => decide (minQty ≤ o.order.qty)))).toFinset) (fits_sell hf)
  simp only [hrun2]
  refine ⟨v1, v2, ?_, hperm, hperm2⟩
  congr 2
  ext z
  simp only [idsOf, List.filter_append, List.map_append, List.toFinset_append,
    Finset.mem_sdiff, Finset.mem_union]
  tauto

theorem filter_split (v : Vec) (p : OrderExpander → Bool) :
    List.Perm v (v.filter p ++ v.filter (fun o => !p o)) :=
  (List.filter_append_perm p v).symm

theorem inv_cancelOrder (c : State) (orderId : String) (h : c.Inv) (hf : Fits c) :
    (cancelOrder c orderId).2.Inv := by
  by_cases hid : orderId = ""
  · simp [cancelOrder, hid, h]
  · obtain ⟨_, hids, hlive⟩ := cancelOrder_run c orderId hid hf
    unfold State.Inv
    rw [hids]
    rcases hlive with ⟨x, hx, hperm⟩ | ⟨hb, hs, hno⟩
    · have h3 := LiveInv.remove h (show List.Perm c.live ([x] ++ _) from hperm)
      have h4 : c.m_orderIds \ (idsOf [x]).toFinset = c.m_orderIds.erase orderId := by
        ext z
        simp [idsOf, hx, Finset.mem_sdiff, Finset.mem_erase, and_comm]
      rw [h4] at h3
      exact h3
    · have hl : (cancelOrder c orderId).2.live = c.live := by
        unfold State.live
        rw [hb, hs]
      rw [hl]
      refine LiveInv.mono_ids h ?_
      intro o ho hmem
      exact Finset.mem_erase.mpr ⟨hno o ho, hmem⟩

theorem inv_cancelOrdersForUser (c : State) (user : String) (h : c.Inv) (hf : Fits c) :
    (cancelOrdersForUser c user).2.Inv := by
  by_cases hu : user = ""
  · simp [cancelOrdersForUser, hu, h]
  · obtain ⟨_, hids, hpb, hps⟩ := cancelOrdersForUser_run c user hu hf
    unfold State.Inv
    rw [hids]
    refine LiveInv.remove h ?_
    refine (filter_split c.live (fun o => decide (o.order.user = user))).trans ?_
    refine List.Perm.append_left _ ?_
    unfold State.live
    rw [List.filter_append]
    exact (hpb.append hps).symm

theorem inv_cancelMinQty (c : State) (sid : String) (minQty : Nat) (h : c.Inv) (hf : Fits c) :
    (cancelOrdersForSecIdWithMinimumQty c sid minQty).2.Inv := by
  by_cases hsid : sid = ""
  · simp [cancelOrdersForSecIdWithMinimumQty, hsid, h]
  by_cases hq : minQty = 0
  · simp [cancelOrdersForSecIdWithMinimumQty, hsid, hq, h]
  obtain ⟨vb, vs, hrun, hpb, hps⟩ := cancelMinQty_run c sid minQty hsid hq hf
  rw [hrun]
  refine LiveInv.remove h ?_
  show List.Perm (MapOrders.all c.m_buyOrders ++ MapOrders.all c.m_sellOrders)
    (_ ++ (MapOrders.all (MapOrders.put c.m_buyOrders sid vb) ++
      MapOrders.all (MapOrders.put c.m_sellOrders sid vs)))
  have hb := (all_perm_vec_rest c.m_buyOrders sid).trans
    ((filter_split (MapOrders.vec c.m_buyOrders sid)
      (fun o => decide (minQty ≤ o.order.qty))).append_right _)
  have hs := (all_perm_vec_rest c.m_sellOrders sid).trans
    ((filter_split (MapOrders.vec c.m_sellOrders sid)
      (fun o => decide (minQty ≤ o.order.qty))).append_right _)
  have hb1 := (all_put_perm c.m_buyOrders sid vb).trans (hpb.append_right _)
  have hs1 := (all_put_perm c.m_sellOrders sid vs).trans (hps.append_right _)
  refine (hb.append hs).trans ?_
  refine List.Perm.trans ?_ ((hb1.append hs1).symm.append_left _)
  rw [List.filter_append, List.perm_iff_count]
  intro a
  simp only [List.count_append]
  omega

/-- The summary of `getMatchingSizeForSecurity` on a book that fits: the call
returns, the two vectors of the security come from a run of trades started
with `totalQty = 0`, and nothing else changes. -/
theorem getMatching_run (c : State) (sid : String) (hsid : sid ≠ "") (hf : Fits c) :
    ∃ vs1 vb1 t1,
      (getMatchingSizeForSecurity c sid).1 = .ret t1 ∧
      Trades (MapOrders.vec c.m_sellOrders sid, MapOrders.vec c.m_buyOrders sid, 0)
        (vs1, vb1, t1) ∧
      MapOrders.vec (getMatchingSizeForSecurity c sid).2.m_sellOrders sid = vs1 ∧
      MapOrders.vec (getMatchingSizeForSecurity c sid).2.m_buyOrders sid = vb1 ∧
      (∀ k, k ≠ sid →
        MapOrders.vec (getMatchingSizeForSecurity c sid).2.m_sellOrders k =
          MapOrders.vec c.m_sellOrders k ∧
        MapOrders.vec (getMatchingSizeForSecurity c sid).2.m_buyOrders k =
          MapOrders.vec c.m_buyOrders k) ∧
      (getMatchingSizeForSecurity c sid).2.m_orderIds = c.m_orderIds ∧
      List.Perm (MapOrders.all (getMatchingSizeForSecurity c sid).2.m_sellOrders)
        (vs1 ++ MapOrders.rest c.m_sellOrders sid) ∧
      List.Perm (MapOrders.all (getMatchingSizeForSecurity c sid).2.m_buyOrders)
        (vb1 ++ MapOrders.rest c.m_buyOrders sid) := by
  obtain ⟨vs1, buys1, t1, hrun, htr, hb⟩ := getMatching_spec c sid hsid
    (vec_length_lt _ sid (fits_sell hf)) (vec_length_lt _ sid (fits_buy hf))
  rw [hrun]
  refine ⟨vs1, MapOrders.vec buys1 sid, t1, rfl, htr, vec_put_same _ _ _, rfl, ?_, rfl,
    all_put_perm _ _ _, ?_⟩
  · intro k hk
    refine ⟨vec_put_other _ _ _ _ hk, ?_⟩
    rcases hb with h | h
    · rw [h]
    · show MapOrders.vec buys1 k = _
      rw [h]
      exact vec_put_other _ _ _ _ hk
  · show List.Perm (MapOrders.all buys1) _
    rcases hb with h | h
    · rw [h]
      exact all_perm_vec_rest _ _
    · have := all_put_perm c.m_buyOrders sid (MapOrders.vec buys1 sid)
      rw [← h] at this
      exact this

theorem inv_getMatching (c : State) (sid : String) (h : c.Inv) (hf : Fits c) :
    (getMatchingSizeForSecurity c sid).2.Inv := by
  by_cases hsid : sid = ""
  · simp [getMatchingSizeForSecurity, hsid, h]
  · obtain ⟨vs1, vb1, t1, _, htr, _, _, _, hids, hps, hpb⟩ := getMatching_run c sid hsid hf
    have hlive : List.Perm c.live ((MapOrders.vec c.m_buyOrders sid ++
        MapOrders.rest c.m_buyOrders sid) ++ (MapOrders.vec c.m_sellOrders sid ++
        MapOrders.rest c.m_sellOrders sid)) :=
      (all_perm_vec_rest _ _).append (all_perm_vec_rest _ _)
    have hlive1 : List.Perm (getMatchingSizeForSecurity c sid).2.live
        ((vb1 ++ MapOrders.rest c.m_buyOrders sid) ++
          (vs1 ++ MapOrders.rest c.m_sellOrders sid)) := hpb.append hps
    have h0 := h.perm hlive.symm
    have hord := trades_orders htr
    have hsub : List.Subperm
        (((vb1 ++ MapOrders.rest c.m_buyOrders sid) ++
          (vs1 ++ MapOrders.rest c.m_sellOrders sid)).map OrderExpander.order)
        (((MapOrders.vec c.m_buyOrders sid ++ MapOrders.rest c.m_buyOrders sid) ++
          (MapOrders.vec c.m_sellOrders sid ++
            MapOrders.rest c.m_sellOrders sid)).map OrderExpander.order) := by
      simp only [List.map_append]
      exact subperm_append (subperm_append hord.2 (List.Subperm.refl _))
        (subperm_append hord.1 (List.Subperm.refl _))
    have hpos := trades_pos htr
      (fun o ho => h0.2.2 o (List.mem_append_right _ (List.mem_append_left _ ho)))
      (fun o ho => h0.2.2 o (List.mem_append_left _ (List.mem_append_left _ ho)))
    have h1 : LiveInv ((vb1 ++ MapOrders.rest c.m_buyOrders sid) ++
        (vs1 ++ MapOrders.rest c.m_sellOrders sid)) c.m_orderIds := by
      refine ⟨?_, ?_, ?_⟩
      · rw [idsOf_eq]
        refine nodup_of_subperm (subperm_map _ hsub) ?_
        rw [← idsOf_eq]
        exact h0.1
      · intro o ho
        obtain ⟨o1, ho1, he⟩ := mem_of_order_subperm hsub ho
        rw [← he]
        exact h0.2.1 o1 ho1
      · intro o ho
        rcases List.mem_append.mp ho with h2 | h2
        · rcases List.mem_append.mp h2 with h3 | h3
          · exact hpos.2 o h3
          · exact h0.2.2 o (List.mem_append_left _ (List.mem_append_right _ h3))
        · rcases List.mem_append.mp h2 with h3 | h3
          · exact hpos.1 o h3
          · exact h0.2.2 o (List.mem_append_right _ (List.mem_append_right _ h3))
    unfold State.Inv
    rw [hids]
    exact h1.perm hlive1

/-! ### Reachable books -/

theorem op_inv (c : State) (op : Op) (h : c.Inv) (hf : Fits c) : (Op.run c op).Inv := by
  cases op with
  | addOrder order => exact inv_addOrder c order h
  | cancelOrder orderId => exact inv_cancelOrder c orderId h hf
  | cancelOrdersForUser user => exact inv_cancelOrdersForUser c user h hf
  | cancelOrdersForSecIdWithMinimumQty sid q => exact inv_cancelMinQty c sid q h hf
  | getMatchingSizeForSecurity sid => exact inv_getMatching c sid h hf
  | getAllOrders => exact h

theorem trace_inv_fits {c d : State} {ops : List Op} (h : Trace c ops d) (hi : c.Inv)
    (hf : Fits c) : d.Inv ∧ Fits d := by
  induction h with
  | nil => exact ⟨hi, hf⟩
  | snoc d ops op _ hfit ih => exact ⟨op_inv d op ih.1 ih.2, hfit⟩

theorem empty_inv : State.empty.Inv := by
  refine ⟨?_, ?_, ?_⟩ <;> simp [State.empty, State.live, MapOrders.all, idsOf]

theorem empty_fits : Fits State.empty := by
  intro p hp
  simp [State.empty] at hp

theorem reachable_inv_fits {c : State} (h : Reachable c) : c.Inv ∧ Fits c := by
  obtain ⟨ops, htr⟩ := h
  exact trace_inv_fits htr empty_inv empty_fits

theorem Trace.cons {c d : State} {ops : List Op} (op : Op)
    (hfit : Fits (Op.run c op)) (h : Trace (Op.run c op) ops d) : Trace c (op :: ops) d := by
  induction h with
  | nil =>
    have := Trace.snoc c c [] op (Trace.nil c) hfit
    simpa using this
  | snoc d ops op1 _ hfit1 ih =>
    have := Trace.snoc c d (op :: ops) op1 ih hfit1
    simpa using this

theorem trace_of_run (ops : List Op) : ∀ (c : State), fitsAlong c ops = true →
    Trace c ops (runOps c ops) := by
  induction ops with
  | nil => intro c _; exact Trace.nil c
  | cons op ops ih =>
    intro c h
    simp only [fitsAlong, Bool.and_eq_true, decide_eq_true_eq] at h
    have h1 := ih (Op.run c op) h.2
    have hfit : Fits (Op.run c op) := by
      cases ops with
      | nil => simpa [fitsAlong] using h.2
      | cons op1 ops1 =>
        simp only [fitsAlong, Bool.and_eq_true, decide_eq_true_eq] at h
        exact h.2.1
    exact Trace.cons op hfit h1

theorem reachable_of_run (ops : List Op) (h : fitsAlong State.empty ops = true) :
    Reachable (runOps State.empty ops) :=
  ⟨ops, trace_of_run ops State.empty h⟩

/-! # The claims -/

/-- C1: starting from an empty book and adding the eight orders of README
example 1 in the order of the test, the successive calls
`getMatchingSizeForSecurity("SecId1")`, `("SecId2")`, `("SecId3")` return 0,
2700 and 0. -/
theorem C1_readme_example1 :
    (getMatchingSizeForSecurity (runOps State.empty readme1) "SecId1").1 = .ret 0 ∧
    (getMatchingSizeForSecurity
      (getMatchingSizeForSecurity (runOps State.empty readme1) "SecId1").2 "SecId2").1
        = .ret 2700 ∧
    (getMatchingSizeForSecurity
      (getMatchingSizeForSecurity
        (getMatchingSizeForSecurity (runOps State.empty readme1) "SecId1").2 "SecId2").2
          "SecId3").1 = .ret 0 := by
  refine ⟨?_, ?_, ?_⟩ <;> rfl

/-- C5: with one Buy of 10000 and Sells of 2000, 1500, 2500 and 4000 for the
same security, all of distinct companies, added to an empty book in that
order, `getMatchingSizeForSecurity` returns 10000 and afterwards
`getAllOrders` is empty. -/
theorem C5_large_buyer :
    (getMatchingSizeForSecurity (runOps State.empty largeBuyer) "SecId1").1 = .ret 10000 ∧
    getAllOrders (getMatchingSizeForSecurity (runOps State.empty largeBuyer) "SecId1").2 = [] := by
  refine ⟨?_, ?_⟩ <;> rfl

/-- C4 (the code at the failing input): on the book `crossed` the call
returns 100, although the assignment S1-B2 100, S2-B1 100 is feasible and
trades 200. -/
theorem C4_greedy_not_maximal :
    (getMatchingSizeForSecurity (runOps State.empty crossed) "Sec").1 = .ret 100 ∧
    Feasible (MapOrders.vec (runOps State.empty crossed).m_sellOrders "Sec")
      (MapOrders.vec (runOps State.empty crossed).m_buyOrders "Sec")
      [⟨"S1", "B2", 100⟩, ⟨"S2", "B1", 100⟩] ∧
    Fill.total [⟨"S1", "B2", 100⟩, ⟨"S2", "B1", 100⟩] = 200 := by
  refine ⟨by rfl, by decide, by rfl⟩

/-- C10 (the code at the failing input): `addOrder` of the order with side
`"Hold"` on the empty book throws `std::invalid_argument`, leaves both maps
empty, but the id-set now holds `"OrdId1"`, so the state is not the one
before the call. -/
theorem C10_invalid_side_reserves_id :
    (addOrder State.empty holdOrder).1 = .invalid_argument "Error:invalid side!" ∧
    (addOrder State.empty holdOrder).2.m_buyOrders = [] ∧
    (addOrder State.empty holdOrder).2.m_sellOrders = [] ∧
    (addOrder State.empty holdOrder).2.m_orderIds = {"OrdId1"} ∧
    (addOrder State.empty holdOrder).2 ≠ State.empty := by
  refine ⟨by rfl, by rfl, by rfl, by rfl, by decide⟩

theorem assign_eq_self (m : MapOrders) (k : String) (v : Vec) (h : MapOrders.find m k = some v) :
    MapOrders.assign m k v = m := by
  induction m with
  | nil => rfl
  | cons p r ih =>
    obtain ⟨k2, v2⟩ := p
    by_cases h2 : k2 = k
    · simp only [MapOrders.find, h2, if_true, Option.some.injEq] at h
      simp [MapOrders.assign, h2, h]
    · simp only [MapOrders.find, h2, if_false] at h
      simp [MapOrders.assign, h2, ih h]

theorem all_put_self (m : MapOrders) (k : String) :
    MapOrders.all (MapOrders.put m k (MapOrders.vec m k)) = MapOrders.all m := by
  unfold MapOrders.put MapOrders.subscript MapOrders.vec
  cases h : MapOrders.find m k with
  | some w =>
    simp only [Option.getD_some]
    rw [assign_eq_self m k w h]
  | none =>
    simp only [Option.getD_none]
    have h1 := find_append_absent m k [] h k
    simp only [if_true] at h1
    rw [assign_eq_self _ k [] h1, all_append]
    simp [MapOrders.all]

theorem vec_put_self (m : MapOrders) (k k1 : String) :
    MapOrders.vec (MapOrders.put m k (MapOrders.vec m k)) k1 = MapOrders.vec m k1 := by
  by_cases h : k1 = k
  · subst h; exact vec_put_same _ _ _
  · exact vec_put_other _ _ _ _ h

/-- C8: for every book and every order whose id, security, user and company
are non-empty, whose side is exactly "Buy" or "Sell", whose quantity is
non-zero and whose id is not in the id-set, `addOrder` returns, the id is
inserted into the id-set, and a live order with `currentQty` equal to the
quantity is appended at the end of the vector for (side, security); every
other vector of that map is as before and the other map is untouched. -/
theorem C8_addOrder_appends (c : State) (o : Order) (hv : o.valid)
    (hnew : o.orderId ∉ c.m_orderIds) :
    (addOrder c o).1 = .ret () ∧
    (addOrder c o).2.m_orderIds = insert o.orderId c.m_orderIds ∧
    (o.side = BUY →
      (∀ k, MapOrders.vec (addOrder c o).2.m_buyOrders k =
        if k = o.securityId then
          MapOrders.vec c.m_buyOrders k ++ [{ order := o, currentQty := o.qty }]
        else MapOrders.vec c.m_buyOrders k) ∧
      List.Perm (MapOrders.all (addOrder c o).2.m_buyOrders)
        ({ order := o, currentQty := o.qty } :: MapOrders.all c.m_buyOrders) ∧
      (addOrder c o).2.m_sellOrders = c.m_sellOrders) ∧
    (o.side = SELL →
      (∀ k, MapOrders.vec (addOrder c o).2.m_sellOrders k =
        if k = o.securityId then
          MapOrders.vec c.m_sellOrders k ++ [{ order := o, currentQty := o.qty }]
        else MapOrders.vec c.m_sellOrders k) ∧
      List.Perm (MapOrders.all (addOrder c o).2.m_sellOrders)
        ({ order := o, currentQty := o.qty } :: MapOrders.all c.m_sellOrders) ∧
      (addOrder c o).2.m_buyOrders = c.m_buyOrders) := by
  obtain ⟨h1, h2, h3, h4, h5, h6⟩ := hv
  have hside : o.side ≠ "" := by
    rcases h5 with h | h <;> rw [h] <;> decide
  have hbs : BUY ≠ SELL := by decide
  unfold addOrder
  simp only [h1, h2, h3, h4, hside, h6, hnew, if_false, subscript_snd]
  rcases h5 with hb | hs
  · simp only [hb, if_true]
    refine ⟨trivial, trivial, ?_, ?_⟩
    · intro _
      refine ⟨?_, all_put_append _ _ _, trivial⟩
      intro k
      show MapOrders.vec (MapOrders.put c.m_buyOrders o.securityId _) k = _
      by_cases hk : k = o.securityId
      · subst hk
        simp only [if_true]
        exact vec_put_same _ _ _
      · simp only [hk, if_false]
        exact vec_put_other _ _ _ _ hk
    · intro h
      exact absurd h hbs
  · have hsb : ¬ SELL = BUY := fun h => hbs h.symm
    simp only [hs, hsb, if_true, if_false]
    refine ⟨trivial, trivial, ?_, ?_⟩
    · intro h
      exact False.elim h
    · intro _
      refine ⟨?_, all_put_append _ _ _, trivial⟩
      intro k
      show MapOrders.vec (MapOrders.put c.m_sellOrders o.securityId _) k = _
      by_cases hk : k = o.securityId
      · subst hk
        simp only [if_true]
        exact vec_put_same _ _ _
      · simp only [hk, if_false]
        exact vec_put_other _ _ _ _ hk

/-- C9: for every book and every order in which the id, the security, the
user, the company or the side is the empty string, or the quantity is zero,
`addOrder` throws `std::invalid_argument` and leaves the whole state (both
maps and the id-set) unchanged. -/
theorem C9_addOrder_malformed (c : State) (o : Order)
    (h : o.orderId = "" ∨ o.securityId = "" ∨ o.user = "" ∨ o.company = "" ∨ o.side = "" ∨
      o.qty = 0) :
    (∃ what, (addOrder c o).1 = .invalid_argument what) ∧ (addOrder c o).2 = c := by
  unfold addOrder
  by_cases h1 : o.orderId = ""
  · rw [if_pos h1]; exact ⟨⟨_, rfl⟩, rfl⟩
  rw [if_neg h1]
  by_cases h2 : o.securityId = ""
  · rw [if_pos h2]; exact ⟨⟨_, rfl⟩, rfl⟩
  rw [if_neg h2]
  by_cases h3 : o.user = ""
  · rw [if_pos h3]; exact ⟨⟨_, rfl⟩, rfl⟩
  rw [if_neg h3]
  by_cases h4 : o.company = ""
  · rw [if_pos h4]; exact ⟨⟨_, rfl⟩, rfl⟩
  rw [if_neg h4]
  by_cases h5 : o.side = ""
  · rw [if_pos h5]; exact ⟨⟨_, rfl⟩, rfl⟩
  rw [if_neg h5]
  by_cases h6 : o.qty = 0
  · rw [if_pos h6]; exact ⟨⟨_, rfl⟩, rfl⟩
  exfalso
  rcases h with h | h | h | h | h | h
  · exact h1 h
  · exact h2 h
  · exact h3 h
  · exact h4 h
  · exact h5 h
  · exact h6 h

/-- C2: for every reachable book and every non-empty security id, if the
security has no live sell order, or no live buy order, or every (sell, buy)
pair of live orders for it has the same company, then
`getMatchingSizeForSecurity` returns 0 and leaves the live orders, their
remaining quantities and the id-set unchanged. -/
theorem C2_no_pair_returns_zero (c : State) (hr : Reachable c) (sid : String)
    (hsid : sid ≠ "")
    (h : MapOrders.vec c.m_sellOrders sid = [] ∨ MapOrders.vec c.m_buyOrders sid = [] ∨
      ∀ s ∈ MapOrders.vec c.m_sellOrders sid, ∀ b ∈ MapOrders.vec c.m_buyOrders sid,
        s.order.company = b.order.company) :
    (getMatchingSizeForSecurity c sid).1 = .ret 0 ∧
    (∀ k, MapOrders.vec (getMatchingSizeForSecurity c sid).2.m_sellOrders k =
      MapOrders.vec c.m_sellOrders k) ∧
    (∀ k, MapOrders.vec (getMatchingSizeForSecurity c sid).2.m_buyOrders k =
      MapOrders.vec c.m_buyOrders k) ∧
    (getMatchingSizeForSecurity c sid).2.live = c.live ∧
    getAllOrders (getMatchingSizeForSecurity c sid).2 = getAllOrders c ∧
    (getMatchingSizeForSecurity c sid).2.m_orderIds = c.m_orderIds := by
  have hf := (reachable_inv_fits hr).2
  obtain ⟨vs1, buys1, t1, hrun, htr, hb⟩ := getMatching_spec c sid hsid
    (vec_length_lt _ sid (fits_sell hf)) (vec_length_lt _ sid (fits_buy hf))
  have hno : ∀ s ∈ MapOrders.vec c.m_sellOrders sid, ∀ b ∈ MapOrders.vec c.m_buyOrders sid,
      s.order.company = b.order.company := by
    rcases h with h | h | h
    · intro s hs; rw [h] at hs; cases hs
    · intro s _ b hb; rw [h] at hb; cases hb
    · exact h
  have heq := htr.eq_of_no_pair hno
  simp only [Prod.mk.injEq] at heq
  obtain ⟨e1, e2, e3⟩ := heq
  subst e1 e3
  have hbuys : MapOrders.all buys1 = MapOrders.all c.m_buyOrders ∧
      ∀ k, MapOrders.vec buys1 k = MapOrders.vec c.m_buyOrders k := by
    rcases hb with hb | hb
    · rw [hb]; exact ⟨rfl, fun _ => rfl⟩
    · rw [e2] at hb
      rw [hb]
      exact ⟨all_put_self _ _, vec_put_self _ _⟩
  rw [hrun]
  refine ⟨rfl, vec_put_self _ _, hbuys.2, ?_, ?_, rfl⟩
  · show MapOrders.all buys1 ++ MapOrders.all (MapOrders.put c.m_sellOrders sid _) = _
    rw [hbuys.1, all_put_self]
    rfl
  · show (MapOrders.all buys1).map _ ++ (MapOrders.all (MapOrders.put c.m_sellOrders sid _)).map _
      = _
    rw [hbuys.1, all_put_self]
    rfl

theorem vec_ids_nodup {live : Vec} (m : MapOrders) (k : String) (other : Vec)
    (hp : List.Perm live (MapOrders.all m ++ other)) (h : (idsOf live).Nodup) :
    (idsOf (MapOrders.vec m k)).Nodup := by
  have h1 : List.Perm live ((MapOrders.vec m k ++ MapOrders.rest m k) ++ other) :=
    hp.trans ((all_perm_vec_rest m k).append_right _)
  have h2 : (idsOf ((MapOrders.vec m k ++ MapOrders.rest m k) ++ other)).Nodup :=
    (h1.map (fun o : OrderExpander => o.order.orderId)).nodup_iff.mp h
  simp only [idsOf, List.map_append] at h2
  exact (List.nodup_append.mp (List.nodup_append.mp h2).1).1

theorem sell_ids_nodup {c : State} (h : c.Inv) (k : String) :
    (idsOf (MapOrders.vec c.m_sellOrders k)).Nodup :=
  vec_ids_nodup c.m_sellOrders k (MapOrders.all c.m_buyOrders) List.perm_append_comm h.1

theorem buy_ids_nodup {c : State} (h : c.Inv) (k : String) :
    (idsOf (MapOrders.vec c.m_buyOrders k)).Nodup :=
  vec_ids_nodup c.m_buyOrders k (MapOrders.all c.m_sellOrders) (List.Perm.refl _) h.1

theorem vec_subset_all (m : MapOrders) (k : String) : MapOrders.vec m k ⊆ MapOrders.all m :=
  fun _ ho => (all_perm_vec_rest m k).symm.subset (List.mem_append_left _ ho)

/-- C3: a buy and a sell order of the same company never trade against each
other. For every reachable book and non-empty security the call returns and
its effect is explained by a finite list of fills (sell id, buy id,
amount > 0), each between a live sell and a live buy of that security with
different companies, such that every order's remaining quantity decreases by
exactly the sum of the amounts of its fills, and the returned value is the
sum of all amounts modulo `UINT_MOD`, hence the sum itself absent
wrap-around. Identifiers are unique among the live orders, so `remaining`
reads one order. -/
theorem C3_trades_explain_matching (c : State) (hr : Reachable c) (sid : String)
    (hsid : sid ≠ "") :
    ∃ (fills : List Fill) (t : Nat),
      (getMatchingSizeForSecurity c sid).1 = .ret t ∧
      (∀ f ∈ fills, 0 < f.amount ∧
        ∃ s ∈ MapOrders.vec c.m_sellOrders sid, ∃ b ∈ MapOrders.vec c.m_buyOrders sid,
          s.order.orderId = f.sellId ∧ b.order.orderId = f.buyId ∧
          s.order.company ≠ b.order.company) ∧
      (∀ id, remaining (MapOrders.vec (getMatchingSizeForSecurity c sid).2.m_sellOrders sid) id
          + Fill.sold fills id = remaining (MapOrders.vec c.m_sellOrders sid) id) ∧
      (∀ id, remaining (MapOrders.vec (getMatchingSizeForSecurity c sid).2.m_buyOrders sid) id
          + Fill.bought fills id = remaining (MapOrders.vec c.m_buyOrders sid) id) ∧
      t = Fill.total fills % UINT_MOD ∧
      (Fill.total fills < UINT_MOD → t = Fill.total fills) ∧
      (idsOf c.live).Nodup := by
  obtain ⟨hinv, hf⟩ := reachable_inv_fits hr
  have hinv1 := inv_getMatching c sid hinv hf
  obtain ⟨vs1, vb1, t1, hret, htr, hvs, hvb, _, _, _, _⟩ := getMatching_run c sid hsid hf
  obtain ⟨fills, hfills, hsold, hbought, htot⟩ := htr.fills
    (fun o ho => hinv.2.2 o (List.mem_append_right _ (vec_subset_all _ _ ho)))
    (fun o ho => hinv.2.2 o (List.mem_append_left _ (vec_subset_all _ _ ho)))
    (by show 0 < UINT_MOD; unfold UINT_MOD; omega)
  simp only [Nat.zero_add] at htot hsold hbought
  refine ⟨fills, t1, hret, hfills, ?_, ?_, htot, ?_, hinv.1⟩
  · intro id
    rw [remaining_eq_sum _ _ (sell_ids_nodup hinv1 sid),
      remaining_eq_sum _ _ (sell_ids_nodup hinv sid), hvs]
    exact hsold id
  · intro id
    rw [remaining_eq_sum _ _ (buy_ids_nodup hinv1 sid),
      remaining_eq_sum _ _ (buy_ids_nodup hinv sid), hvb]
    exact hbought id
  · intro hlt
    rw [htot]
    exact Nat.mod_eq_of_lt hlt

theorem mem_idsOf {v : Vec} {z : String} : z ∈ idsOf v ↔ ∃ o ∈ v, o.order.orderId = z := by
  simp [idsOf]

theorem idsOf_subset_of_perm_append {v w r : Vec} (h : List.Perm v (r ++ w)) :
    ∀ z ∈ idsOf w, z ∈ idsOf v := by
  intro z hz
  obtain ⟨o, ho, hoz⟩ := mem_idsOf.mp hz
  exact mem_idsOf.mpr ⟨o, h.symm.subset (List.mem_append_right _ ho), hoz⟩

theorem rest_subset_all (m : MapOrders) (k : String) : MapOrders.rest m k ⊆ MapOrders.all m :=
  fun _ ho => (all_perm_vec_rest m k).symm.subset (List.mem_append_right _ ho)

theorem addOrder_duplicate (c : State) (o : Order) (hv : o.valid)
    (hdup : o.orderId ∈ c.m_orderIds) :
    addOrder c o = (.runtime_error "Error: order ID have already exist!", c) := by
  obtain ⟨h1, h2, h3, h4, h5, h6⟩ := hv
  have hside : o.side ≠ "" := by
    rcases h5 with h | h <;> rw [h] <;> decide
  unfold addOrder
  rw [if_neg h1, if_neg h2, if_neg h3, if_neg h4, if_neg hside, if_neg h6, if_pos hdup]

/-- The live identifiers after a call are live identifiers from before the
call, or the identifier of the order a successful `addOrder` inserted. -/
theorem op_live_ids (c : State) (op : Op) (hf : Fits c) :
    ∀ z ∈ idsOf (Op.run c op).live,
      z ∈ idsOf c.live ∨ ∃ o, op = .addOrder o ∧ z = o.orderId ∧ o.orderId ∉ c.m_orderIds := by
  intro z hz
  cases op with
  | addOrder order =>
    simp only [Op.run] at hz
    unfold addOrder at hz
    split_ifs at hz with h1 h2 h3 h4 h5 h6 h7 h8 h9
    · exact Or.inl hz
    · exact Or.inl hz
    · exact Or.inl hz
    · exact Or.inl hz
    · exact Or.inl hz
    · exact Or.inl hz
    · exact Or.inl hz
    · simp only [subscript_snd] at hz
      have hp : List.Perm (MapOrders.all (MapOrders.put c.m_buyOrders order.securityId
          (MapOrders.vec c.m_buyOrders order.securityId ++ [OrderExpander.ofOrder order])) ++
          MapOrders.all c.m_sellOrders) (OrderExpander.ofOrder order :: c.live) :=
        (all_put_append c.m_buyOrders order.securityId _).append_right _
      obtain ⟨o, ho, hoz⟩ := mem_idsOf.mp hz
      rcases List.mem_cons.mp (hp.subset ho) with h | h
      · right
        refine ⟨order, rfl, ?_, h7⟩
        rw [← hoz, h]
        rfl
      · exact Or.inl (mem_idsOf.mpr ⟨o, h, hoz⟩)
    · simp only [subscript_snd] at hz
      have hp : List.Perm (MapOrders.all c.m_buyOrders ++
          MapOrders.all (MapOrders.put c.m_sellOrders order.securityId
          (MapOrders.vec c.m_sellOrders order.securityId ++ [OrderExpander.ofOrder order])))
          (OrderExpander.ofOrder order :: c.live) :=
        ((all_put_append c.m_sellOrders order.securityId _).append_left _).trans
          List.perm_middle
      obtain ⟨o, ho, hoz⟩ := mem_idsOf.mp hz
      rcases List.mem_cons.mp (hp.subset ho) with h | h
      · right
        refine ⟨order, rfl, ?_, h7⟩
        rw [← hoz, h]
        rfl
      · exact Or.inl (mem_idsOf.mpr ⟨o, h, hoz⟩)
    · exact Or.inl hz
  | cancelOrder orderId =>
    left
    simp only [Op.run] at hz
    by_cases hid : orderId = ""
    · simpa [cancelOrder, hid] using hz
    · obtain ⟨_, _, hlive⟩ := cancelOrder_run c orderId hid hf
      rcases hlive with ⟨x, _, hperm⟩ | ⟨hb, hs, _⟩
      · exact idsOf_subset_of_perm_append (show List.Perm c.live ([x] ++ _) from hperm) z hz
      · unfold State.live at hz ⊢
        rwa [hb, hs] at hz
  | cancelOrdersForUser user =>
    left
    simp only [Op.run] at hz
    by_cases hu : user = ""
    · simpa [cancelOrdersForUser, hu] using hz
    · obtain ⟨_, _, hpb, hps⟩ := cancelOrdersForUser_run c user hu hf
      obtain ⟨o, ho, hoz⟩ := mem_idsOf.mp hz
      refine mem_idsOf.mpr ⟨o, ?_, hoz⟩
      rcases List.mem_append.mp ho with h | h
      · exact List.mem_append_left _ (List.mem_filter.mp (hpb.subset h)).1
      · exact List.mem_append_right _ (List.mem_filter.mp (hps.subset h)).1
  | cancelOrdersForSecIdWithMinimumQty sid q =>
    left
    simp only [Op.run] at hz
    by_cases hsid : sid = ""
    · simpa [cancelOrdersForSecIdWithMinimumQty, hsid] using hz
    by_cases hq : q = 0
    · simpa [cancelOrdersForSecIdWithMinimumQty, hsid, hq] using hz
    obtain ⟨vb, vs, hrun, hpb, hps⟩ := cancelMinQty_run c sid q hsid hq hf
    rw [hrun] at hz
    obtain ⟨o, ho, hoz⟩ := mem_idsOf.mp hz
    refine mem_idsOf.mpr ⟨o, ?_, hoz⟩
    rcases List.mem_append.mp ho with h | h
    · refine List.mem_append_left _ ?_
      rcases List.mem_append.mp ((all_put_perm _ _ _).subset h) with h1 | h1
      · exact vec_subset_all _ _ (List.mem_filter.mp (hpb.subset h1)).1
      · exact rest_subset_all _ _ h1
    · refine List.mem_append_right _ ?_
      rcases List.mem_append.mp ((all_put_perm _ _ _).subset h) with h1 | h1
      · exact vec_subset_all _ _ (List.mem_filter.mp (hps.subset h1)).1
      · exact rest_subset_all _ _ h1
  | getMatchingSizeForSecurity sid =>
    left
    simp only [Op.run] at hz
    by_cases hsid : sid = ""
    · simpa [getMatchingSizeForSecurity, hsid] using hz
    obtain ⟨vs1, vb1, t1, _, htr, _, _, _, _, hps, hpb⟩ := getMatching_run c sid hsid hf
    have hord := trades_orders htr
    obtain ⟨o, ho, hoz⟩ := mem_idsOf.mp hz
    rcases List.mem_append.mp ho with h | h
    · rcases List.mem_append.mp (hpb.subset h) with h1 | h1
      · obtain ⟨o1, ho1, he⟩ := mem_of_order_subperm hord.2 h1
        exact mem_idsOf.mpr ⟨o1, List.mem_append_left _ (vec_subset_all _ _ ho1), by rw [he, hoz]⟩
      · exact mem_idsOf.mpr ⟨o, List.mem_append_left _ (rest_subset_all _ _ h1), hoz⟩
    · rcases List.mem_append.mp (hps.subset h) with h1 | h1
      · obtain ⟨o1, ho1, he⟩ := mem_of_order_subperm hord.1 h1
        exact mem_idsOf.mpr ⟨o1, List.mem_append_right _ (vec_subset_all _ _ ho1), by rw [he, hoz]⟩
      · exact mem_idsOf.mpr ⟨o, List.mem_append_right _ (rest_subset_all _ _ h1), hoz⟩
  | getAllOrders => exact Or.inl hz

/-- An identifier leaves the id-set only by `cancelOrder` of that identifier or
by a call made while a live order carries it. -/
theorem op_ids (c : State) (op : Op) (hf : Fits c) :
    ∀ z ∈ c.m_orderIds, z ∈ (Op.run c op).m_orderIds ∨ op = .cancelOrder z ∨ z ∈ idsOf c.live := by
  intro z hz
  cases op with
  | addOrder order =>
    left
    simp only [Op.run]
    unfold addOrder
    split_ifs <;> first | exact hz | exact Finset.mem_insert_of_mem hz
  | cancelOrder orderId =>
    simp only [Op.run]
    by_cases hid : orderId = ""
    · left; simpa [cancelOrder, hid] using hz
    · obtain ⟨_, hids, _⟩ := cancelOrder_run c orderId hid hf
      by_cases hzo : z = orderId
      · right; left; rw [hzo]
      · left; rw [hids]; exact Finset.mem_erase.mpr ⟨hzo, hz⟩
  | cancelOrdersForUser user =>
    simp only [Op.run]
    by_cases hu : user = ""
    · left; simpa [cancelOrdersForUser, hu] using hz
    · obtain ⟨_, hids, _, _⟩ := cancelOrdersForUser_run c user hu hf
      rw [hids]
      by_cases hm : z ∈ idsOf (c.live.filter (fun o => decide (o.order.user = user)))
      · right; right
        obtain ⟨o, ho, hoz⟩ := mem_idsOf.mp hm
        exact mem_idsOf.mpr ⟨o, (List.mem_filter.mp ho).1, hoz⟩
      · left
        exact Finset.mem_sdiff.mpr ⟨hz, by simpa using hm⟩
  | cancelOrdersForSecIdWithMinimumQty sid q =>
    simp only [Op.run]
    by_cases hsid : sid = ""
    · left; simpa [cancelOrdersForSecIdWithMinimumQty, hsid] using hz
    by_cases hq : q = 0
    · left; simpa [cancelOrdersForSecIdWithMinimumQty, hsid, hq] using hz
    obtain ⟨vb, vs, hrun, _, _⟩ := cancelMinQty_run c sid q hsid hq hf
    rw [hrun]
    by_cases hm : z ∈ idsOf ((MapOrders.vec c.m_buyOrders sid ++
        MapOrders.vec c.m_sellOrders sid).filter (fun o => decide (q ≤ o.order.qty)))
    · right; right
      obtain ⟨o, ho, hoz⟩ := mem_idsOf.mp hm
      refine mem_idsOf.mpr ⟨o, ?_, hoz⟩
      rcases List.mem_append.mp (List.mem_filter.mp ho).1 with h | h
      · exact List.mem_append_left _ (vec_subset_all _ _ h)
      · exact List.mem_append_right _ (vec_subset_all _ _ h)
    · left
      exact Finset.mem_sdiff.mpr ⟨hz, by simpa using hm⟩
  | getMatchingSizeForSecurity sid =>
    left
    simp only [Op.run]
    by_cases hsid : sid = ""
    · simpa [getMatchingSizeForSecurity, hsid] using hz
    obtain ⟨_, _, _, _, _, _, _, _, hids, _, _⟩ := getMatching_run c sid hsid hf
    rw [hids]
    exact hz
  | getAllOrders => exact Or.inl hz

/-- C6: matching does not free identifiers. For every reachable book and
non-empty security, `getMatchingSizeForSecurity` leaves the id-set unchanged,
so immediately after a call that removed the live order with identifier `X`,
`addOrder` of any otherwise valid order with identifier `X` throws the
duplicate-identifier `std::runtime_error` and changes nothing. -/
theorem C6_matching_keeps_ids (c : State) (hr : Reachable c) (sid : String) (hsid : sid ≠ "") :
    (getMatchingSizeForSecurity c sid).2.m_orderIds = c.m_orderIds ∧
    ∀ X, X ∈ idsOf c.live → X ∉ idsOf (getMatchingSizeForSecurity c sid).2.live →
      ∀ o : Order, o.valid → o.orderId = X →
        addOrder (getMatchingSizeForSecurity c sid).2 o =
          (.runtime_error "Error: order ID have already exist!",
            (getMatchingSizeForSecurity c sid).2) := by
  obtain ⟨hinv, hf⟩ := reachable_inv_fits hr
  obtain ⟨_, _, _, _, _, _, _, _, hids, _, _⟩ := getMatching_run c sid hsid hf
  refine ⟨hids, ?_⟩
  intro X hlive _ o hv hid
  apply addOrder_duplicate _ _ hv
  rw [hids, hid]
  obtain ⟨x, hx, hxe⟩ := mem_idsOf.mp hlive
  rw [← hxe]
  exact hinv.2.1 x hx

theorem mem_assign (m : MapOrders) (k : String) (v : Vec) (p : String × Vec)
    (h : p ∈ MapOrders.assign m k v) : p ∈ m ∨ p = (k, v) := by
  induction m with
  | nil => simp [MapOrders.assign] at h
  | cons q r ih =>
    obtain ⟨k2, v2⟩ := q
    by_cases h2 : k2 = k
    · simp only [MapOrders.assign, h2, if_true, List.mem_cons] at h
      rcases h with h | h
      · exact Or.inr h
      · exact Or.inl (List.mem_cons_of_mem _ h)
    · simp only [MapOrders.assign, h2, if_false, List.mem_cons] at h
      rcases h with h | h
      · exact Or.inl (h ▸ List.mem_cons_self _ _)
      · rcases ih h with h3 | h3
        · exact Or.inl (List.mem_cons_of_mem _ h3)
        · exact Or.inr h3

theorem put_fits (m : MapOrders) (k : String) (v : Vec)
    (hm : ∀ p ∈ m, p.2.length < SIZE_MOD) (hv : v.length < SIZE_MOD) :
    ∀ p ∈ MapOrders.put m k v, p.2.length < SIZE_MOD := by
  intro p hp
  unfold MapOrders.put MapOrders.subscript at hp
  rcases mem_assign _ _ _ _ hp with h | h
  · split at h
    · exact hm p h
    · rcases List.mem_append.mp h with h1 | h1
      · exact hm p h1
      · simp only [List.mem_singleton] at h1
        rw [h1]
        simp [SIZE_MOD]
  · rw [h]
    exact hv

theorem fits_getMatching (c : State) (sid : String) (hf : Fits c) :
    Fits (getMatchingSizeForSecurity c sid).2 := by
  by_cases hsid : sid = ""
  · simpa [getMatchingSizeForSecurity, hsid] using hf
  obtain ⟨vs1, buys1, t1, hrun, htr, hb⟩ := getMatching_spec c sid hsid
    (vec_length_lt _ sid (fits_sell hf)) (vec_length_lt _ sid (fits_buy hf))
  have hl := trades_length_le htr
  simp only at hl
  have hs1 : vs1.length < SIZE_MOD :=
    lt_of_le_of_lt hl.1 (vec_length_lt _ sid (fits_sell hf))
  have hb1 : (MapOrders.vec buys1 sid).length < SIZE_MOD :=
    lt_of_le_of_lt hl.2 (vec_length_lt _ sid (fits_buy hf))
  rw [hrun]
  intro p hp
  rcases List.mem_append.mp hp with h | h
  · rcases hb with hb | hb
    · rw [hb] at h
      exact fits_buy hf p h
    · have h0 : p ∈ buys1 := h
      rw [hb] at h0
      exact put_fits _ _ _ (fits_buy hf) hb1 p h0
  · exact put_fits _ _ _ (fits_sell hf) hs1 p h

/-- An identifier that is in the id-set while no live order carries it stays
so under every call other than `cancelOrder` of that identifier. -/
theorem reserved_step (c : State) (op : Op) (X : String) (hf : Fits c)
    (hop : op ≠ .cancelOrder X) (h1 : X ∈ c.m_orderIds) (h2 : X ∉ idsOf c.live) :
    X ∈ (Op.run c op).m_orderIds ∧ X ∉ idsOf (Op.run c op).live := by
  constructor
  · rcases op_ids c op hf X h1 with h | h | h
    · exact h
    · exact absurd h hop
    · exact absurd h h2
  · intro h
    rcases op_live_ids c op hf X h with h3 | ⟨o, _, hXo, hno⟩
    · exact h2 h3
    · rw [hXo] at h1
      exact hno h1

theorem reserved_trace {c d : State} {ops : List Op} (h : Trace c ops d) (X : String)
    (hf : Fits c) (hops : Op.cancelOrder X ∉ ops) (h1 : X ∈ c.m_orderIds)
    (h2 : X ∉ idsOf c.live) :
    (X ∈ d.m_orderIds ∧ X ∉ idsOf d.live) ∧ Fits d := by
  induction h with
  | nil => exact ⟨⟨h1, h2⟩, hf⟩
  | snoc d ops op _ hfit ih =>
    have hops1 : Op.cancelOrder X ∉ ops := fun hm => hops (List.mem_append_left _ hm)
    have hop : op ≠ .cancelOrder X := by
      intro he
      apply hops
      rw [he]
      exact List.mem_append_right _ (List.mem_singleton_self _)
    obtain ⟨⟨h3, h4⟩, hfd⟩ := ih hops1
    exact ⟨reserved_step d op X hfd hop h3 h4, hfit⟩

/-- C7 (amended): once the live order with identifier `X` has been removed by
`getMatchingSizeForSecurity`, then after every finite sequence of further
public calls none of which is `cancelOrder(X)`, an `addOrder` of an otherwise
valid order with identifier `X` still throws the duplicate-identifier error
and changes nothing. -/
theorem C7_reserved_unless_cancelled (c : State) (hr : Reachable c) (sid : String)
    (hsid : sid ≠ "") (X : String) (hlive : X ∈ idsOf c.live)
    (hgone : X ∉ idsOf (getMatchingSizeForSecurity c sid).2.live)
    (ops : List Op) (d : State) (htr : Trace (getMatchingSizeForSecurity c sid).2 ops d)
    (hops : Op.cancelOrder X ∉ ops) (o : Order) (hv : o.valid) (hid : o.orderId = X) :
    addOrder d o = (.runtime_error "Error: order ID have already exist!", d) := by
  obtain ⟨hinv, hf⟩ := reachable_inv_fits hr
  obtain ⟨_, _, _, _, _, _, _, _, hids, _, _⟩ := getMatching_run c sid hsid hf
  have hX : X ∈ (getMatchingSizeForSecurity c sid).2.m_orderIds := by
    rw [hids]
    obtain ⟨x, hx, hxe⟩ := mem_idsOf.mp hlive
    rw [← hxe]
    exact hinv.2.1 x hx
  have hf1 : Fits (getMatchingSizeForSecurity c sid).2 := fits_getMatching c sid hf
  obtain ⟨⟨h3, _⟩, _⟩ := reserved_trace htr X hf1 hops hX hgone
  apply addOrder_duplicate _ _ hv
  rw [hid]
  exact h3

/-! ### Witnesses -/

/-- Witness for C2: in the book of README example 1 the only sell and the only
buy of `SecId1` are both of `CompanyA`. -/
theorem C2_witness :
    Reachable (runOps State.empty readme1) ∧ "SecId1" ≠ "" ∧
    (∀ s ∈ MapOrders.vec (runOps State.empty readme1).m_sellOrders "SecId1",
      ∀ b ∈ MapOrders.vec (runOps State.empty readme1).m_buyOrders "SecId1",
        s.order.company = b.order.company) ∧
    (getMatchingSizeForSecurity (runOps State.empty readme1) "SecId1").1 = .ret 0 ∧
    (getMatchingSizeForSecurity (runOps State.empty readme1) "SecId1").2.live =
      (runOps State.empty readme1).live :=
  ⟨reachable_of_run readme1 (by decide), by decide, by decide,
    (C2_no_pair_returns_zero (runOps State.empty readme1)
      (reachable_of_run readme1 (by decide)) "SecId1" (by decide)
      (Or.inr (Or.inr (by decide)))).1,
    (C2_no_pair_returns_zero (runOps State.empty readme1)
      (reachable_of_run readme1 (by decide)) "SecId1" (by decide)
      (Or.inr (Or.inr (by decide)))).2.2.2.1⟩

/-- Witness for C3: the book of README example 1 and the security `SecId2`. -/
theorem C3_witness :
    Reachable (runOps State.empty readme1) ∧ "SecId2" ≠ "" ∧
    ∃ (fills : List Fill) (t : Nat),
      (getMatchingSizeForSecurity (runOps State.empty readme1) "SecId2").1 = .ret t ∧
      (Fill.total fills < UINT_MOD → t = Fill.total fills) :=
  ⟨reachable_of_run readme1 (by decide), by decide,
    (C3_trades_explain_matching (runOps State.empty readme1)
      (reachable_of_run readme1 (by decide)) "SecId2" (by decide)).elim
      (fun fills h => h.elim (fun t ht => ⟨fills, t, ht.1, ht.2.2.2.2.2.1⟩))⟩

/-- Witness for C6: after the buy `OrdId1` and the sell `OrdId2` of `onePair`
have consumed each other, re-adding `OrdId1` is refused as a duplicate. -/
theorem C6_witness :
    Reachable (runOps State.empty onePair) ∧ "SecId1" ≠ "" ∧
    "OrdId1" ∈ idsOf (runOps State.empty onePair).live ∧
    "OrdId1" ∉ idsOf (getMatchingSizeForSecurity (runOps State.empty onePair) "SecId1").2.live ∧
    addOrder (getMatchingSizeForSecurity (runOps State.empty onePair) "SecId1").2
        ⟨"OrdId1", "SecId2", "Sell", 7, "User9", "CompanyZ"⟩ =
      (.runtime_error "Error: order ID have already exist!",
        (getMatchingSizeForSecurity (runOps State.empty onePair) "SecId1").2) :=
  ⟨reachable_of_run onePair (by decide), by decide, by decide, by decide,
    (C6_matching_keeps_ids (runOps State.empty onePair) (reachable_of_run onePair (by decide))
      "SecId1" (by decide)).2 "OrdId1" (by decide) (by decide)
      ⟨"OrdId1", "SecId2", "Sell", 7, "User9", "CompanyZ"⟩ (by decide) rfl⟩

/-- C7 (counterexample): in the book `onePair` the call for `SecId1` removes
the live order `OrdId1`; after the further call `cancelOrder("OrdId1")` an
`addOrder` of a valid order with identifier `OrdId1` returns normally instead
of throwing the duplicate-identifier error. -/
theorem C7_counterexample :
    Reachable (runOps State.empty onePair) ∧
    "OrdId1" ∈ idsOf (runOps State.empty onePair).live ∧
    "OrdId1" ∉ idsOf (getMatchingSizeForSecurity (runOps State.empty onePair) "SecId1").2.live ∧
    Trace (getMatchingSizeForSecurity (runOps State.empty onePair) "SecId1").2
      [.cancelOrder "OrdId1"]
      (runOps (getMatchingSizeForSecurity (runOps State.empty onePair) "SecId1").2
        [.cancelOrder "OrdId1"]) ∧
    Order.valid ⟨"OrdId1", "SecId2", "Sell", 7, "User9", "CompanyZ"⟩ ∧
    (addOrder
      (runOps (getMatchingSizeForSecurity (runOps State.empty onePair) "SecId1").2
        [.cancelOrder "OrdId1"])
      ⟨"OrdId1", "SecId2", "Sell", 7, "User9", "CompanyZ"⟩).1 = .ret () ∧
    ¬ (addOrder
      (runOps (getMatchingSizeForSecurity (runOps State.empty onePair) "SecId1").2
        [.cancelOrder "OrdId1"])
      ⟨"OrdId1", "SecId2", "Sell", 7, "User9", "CompanyZ"⟩).1 =
        .runtime_error "Error: order ID have already exist!" :=
  ⟨reachable_of_run onePair (by decide), by decide, by decide,
    trace_of_run _ _ (by decide), by decide, by rfl, by decide⟩

/-- Witness for C7 (amended): after the same matching call, a cancellation by
user, a cancellation by quantity, a new order and `cancelOrder` of another
identifier leave `OrdId1` reserved. -/
theorem C7_witness :
    Reachable (runOps State.empty onePair) ∧
    addOrder
      (runOps (getMatchingSizeForSecurity (runOps State.empty onePair) "SecId1").2
        [.cancelOrdersForUser "User1", .cancelOrdersForSecIdWithMinimumQty "SecId1" 1,
          .addOrder ⟨"OrdId3", "SecId1", "Buy", 5, "User1", "CompanyA"⟩,
          .cancelOrder "OrdId2", .getAllOrders, .getMatchingSizeForSecurity "SecId1"])
      ⟨"OrdId1", "SecId2", "Sell", 7, "User9", "CompanyZ"⟩ =
    (.runtime_error "Error: order ID have already exist!",
      runOps (getMatchingSizeForSecurity (runOps State.empty onePair) "SecId1").2
        [.cancelOrdersForUser "User1", .cancelOrdersForSecIdWithMinimumQty "SecId1" 1,
          .addOrder ⟨"OrdId3", "SecId1", "Buy", 5, "User1", "CompanyA"⟩,
          .cancelOrder "OrdId2", .getAllOrders, .getMatchingSizeForSecurity "SecId1"]) :=
  ⟨reachable_of_run onePair (by decide),
    C7_reserved_unless_cancelled (runOps State.empty onePair)
      (reachable_of_run onePair (by decide)) "SecId1" (by decide) "OrdId1" (by decide)
      (by decide) _ _ (trace_of_run _ _ (by decide)) (by decide)
      ⟨"OrdId1", "SecId2", "Sell", 7, "User9", "CompanyZ"⟩ (by decide) rfl⟩

/-- Witness for C8: the first order of README example 1 on the empty book. -/
theorem C8_witness :
    Order.valid ⟨"OrdId1", "SecId1", "Buy", 1000, "User1", "CompanyA"⟩ ∧
    "OrdId1" ∉ State.empty.m_orderIds ∧
    (addOrder State.empty ⟨"OrdId1", "SecId1", "Buy", 1000, "User1", "CompanyA"⟩).1 = .ret () ∧
    (addOrder State.empty ⟨"OrdId1", "SecId1", "Buy", 1000, "User1", "CompanyA"⟩).2.m_orderIds
      = insert "OrdId1" State.empty.m_orderIds :=
  ⟨by decide, by decide,
    (C8_addOrder_appends State.empty ⟨"OrdId1", "SecId1", "Buy", 1000, "User1", "CompanyA"⟩
      (by decide) (by decide)).1,
    (C8_addOrder_appends State.empty ⟨"OrdId1", "SecId1", "Buy", 1000, "User1", "CompanyA"⟩
      (by decide) (by decide)).2.1⟩

/-- Witness for C9: the order of the test `EdgeCases_AddOrder_ZeroQuantityThrowsException`. -/
theorem C9_witness :
    (0 : Nat) = 0 ∧
    (addOrder (runOps State.empty onePair)
      ⟨"OrdId9", "SecId1", "Buy", 0, "User1", "Company1"⟩).2 = runOps State.empty onePair :=
  ⟨rfl, (C9_addOrder_malformed (runOps State.empty onePair)
    ⟨"OrdId9", "SecId1", "Buy", 0, "User1", "Company1"⟩
    (Or.inr (Or.inr (Or.inr (Or.inr (Or.inr rfl)))))).2⟩

/-! # Cancellation, listing and the id-set (claims C11 to C20) -/

/-! ### Entry-level description of the cancellations -/

theorem find_append (a b : MapOrders) (k : String) :
    MapOrders.find (a ++ b) k =
      match MapOrders.find a k with
      | some v => some v
      | none => MapOrders.find b k := by
  induction a with
  | nil => simp [MapOrders.find]
  | cons p r ih =>
    obtain ⟨k2, v2⟩ := p
    by_cases h : k2 = k
    · simp [MapOrders.find, h]
    · simp only [List.cons_append, MapOrders.find, h, if_false]
      exact ih

theorem find_some_subset (m : MapOrders) (k : String) (v : Vec) (h : MapOrders.find m k = some v) :
    v ⊆ MapOrders.all m := by
  intro x hx
  have := find_mem m k v h
  simp only [MapOrders.all, List.mem_flatMap]
  exact ⟨(k, v), this, hx⟩

theorem swapPop_perm_erase (v : Vec) (j : Nat) (x : OrderExpander) (h : v[j]? = some x) :
    List.Perm (swapPop v j) (v.erase x) := by
  have h1 : List.Perm v (x :: swapPop v j) :=
    (perm_cons_eraseIdx v j x h).trans
      (List.Perm.cons x (swapPop_perm v j (getElem?_lt h)).symm)
  have h2 : List.Perm v (x :: v.erase x) := List.perm_cons_erase (List.getElem?_mem h)
  exact (List.Perm.cons_inv (h1.symm.trans h2))

theorem erasedAt_all {x : OrderExpander} {m m1 : MapOrders} (h : MapOrders.ErasedAt x m m1) :
    List.Perm (MapOrders.all m) (x :: MapOrders.all m1) := by
  cases h with
  | mk front k v back j hj _ =>
    rw [all_append, all_append, all_cons, all_cons]
    have h1 : List.Perm v (x :: swapPop v j) :=
      (perm_cons_eraseIdx v j x hj).trans
        (List.Perm.cons x (swapPop_perm v j (getElem?_lt hj)).symm)
    refine ((h1.append_right _).append_left _).trans ?_
    simp only [List.cons_append]
    exact List.perm_middle

theorem erasedAt_keys {x : OrderExpander} {m m1 : MapOrders} (h : MapOrders.ErasedAt x m m1) :
    m1.map Prod.fst = m.map Prod.fst := by
  cases h with
  | mk front k v back j hj _ => simp

theorem erasedAt_mem {x : OrderExpander} {m m1 : MapOrders} (h : MapOrders.ErasedAt x m m1) :
    ∀ p ∈ m1, ∃ q ∈ m, q.1 = p.1 ∧ p.2 ⊆ q.2 ∧ p.2.length ≤ q.2.length := by
  cases h with
  | mk front k v back j hj _ =>
    intro p hp
    rcases List.mem_append.mp hp with h1 | h1
    · exact ⟨p, List.mem_append_left _ h1, rfl, fun _ h => h, le_refl _⟩
    · rcases List.mem_cons.mp h1 with h2 | h2
      · refine ⟨(k, v), List.mem_append_right _ (List.mem_cons_self _ _), by rw [h2], ?_, ?_⟩
        · rw [h2]
          exact (swapPop_subperm v j (getElem?_lt hj)).subset
        · rw [h2]
          simp only [swapPop_length]
          omega
      · exact ⟨p, List.mem_append_right _ (List.mem_cons_of_mem _ h2), rfl, fun _ h => h,
          le_refl _⟩

/-- After the erasure every lookup sees the vector it saw before, less one copy of `x`. -/
theorem erasedAt_vec {x : OrderExpander} {m m1 : MapOrders} (h : MapOrders.ErasedAt x m m1)
    (hx : x ∉ MapOrders.all m1) (key : String) :
    List.Perm (MapOrders.vec m1 key) ((MapOrders.vec m key).erase x) := by
  cases h with
  | mk front k v back j hj _ =>
    unfold MapOrders.vec
    rw [find_append, find_append]
    cases hf : MapOrders.find front key with
    | some a =>
      simp only [Option.getD_some]
      have : x ∉ a := fun hm => hx (by
        rw [all_append]
        exact List.mem_append_left _ (find_some_subset front key a hf hm))
      rw [List.erase_of_not_mem this]
    | none =>
      simp only [MapOrders.find]
      by_cases hk : k = key
      · simp only [hk, if_true, Option.getD_some]
        exact swapPop_perm_erase v j x hj
      · simp only [hk, if_false]
        cases hb : MapOrders.find back key with
        | none => simp
        | some a =>
          simp only [Option.getD_some]
          have : x ∉ a := fun hm => hx (by
            rw [all_append, all_cons]
            exact List.mem_append_right _
              (List.mem_append_right _ (find_some_subset back key a hb hm)))
          rw [List.erase_of_not_mem this]

theorem cancelOrderIn_entries (orderId : String) (m : MapOrders)
    (hm : ∀ p ∈ m, p.2.length < SIZE_MOD) :
    (∃ m1 x, cancelOrderIn orderId m = .ok (true, m1) ∧ x.order.orderId = orderId ∧
        MapOrders.ErasedAt x m m1) ∨
      (cancelOrderIn orderId m = .ok (false, m) ∧
        ∀ x ∈ MapOrders.all m, x.order.orderId ≠ orderId) := by
  induction m with
  | nil =>
    right
    exact ⟨rfl, by simp [MapOrders.all]⟩
  | cons p r ih =>
    obtain ⟨k, vec⟩ := p
    have hv : vec.length < SIZE_MOD := hm (k, vec) (List.mem_cons_self _ _)
    have hr : ∀ p ∈ r, p.2.length < SIZE_MOD := fun p hp => hm p (List.mem_cons_of_mem _ hp)
    unfold cancelOrderIn
    rcases cancelOrderVec_spec orderId (vec.length + 1) vec 0 hv (by omega)
      (by intro k x hk; omega) with ⟨j, x, hj, hx, _, hrun⟩ | ⟨hno, hrun⟩
    · left
      refine ⟨(k, swapPop vec j) :: r, x, ?_, hx, ?_⟩
      · simp [hrun]
      · exact MapOrders.ErasedAt.mk [] k vec r j hj (by simp [MapOrders.all])
    · simp only [hrun]
      rcases ih hr with ⟨m1, x, hrun1, hx, her⟩ | ⟨hrun1, hno1⟩
      · left
        refine ⟨(k, vec) :: m1, x, ?_, hx, ?_⟩
        · simp [hrun1]
        · cases her with
          | mk front k1 v back j hj hfront =>
            have := MapOrders.ErasedAt.mk ((k, vec) :: front) k1 v back j hj (by
              intro y hy
              rw [all_cons] at hy
              rcases List.mem_append.mp hy with h | h
              · rw [hx]; exact hno y h
              · exact hfront y h)
            simpa using this
      · right
        refine ⟨by simp [hrun1], ?_⟩
        intro x hx
        rw [all_cons] at hx
        rcases List.mem_append.mp hx with h | h
        · exact hno x h
        · exact hno1 x h

theorem rel_keys {R : Vec → Vec → Prop} {m m1 : MapOrders} (h : MapOrders.Rel R m m1) :
    m1.map Prod.fst = m.map Prod.fst := by
  unfold MapOrders.Rel at h
  induction h with
  | nil => rfl
  | cons hpq _ ih => simp [hpq.1, ih]

theorem rel_find {R : Vec → Vec → Prop} {m m1 : MapOrders} (h : MapOrders.Rel R m m1)
    (k : String) :
    (MapOrders.find m k = none ∧ MapOrders.find m1 k = none) ∨
      ∃ v v1, MapOrders.find m k = some v ∧ MapOrders.find m1 k = some v1 ∧ R v v1 := by
  unfold MapOrders.Rel at h
  induction h with
  | nil => left; exact ⟨rfl, rfl⟩
  | @cons p q l l1 hpq _ ih =>
    obtain ⟨k1, v⟩ := p
    obtain ⟨k2, v1⟩ := q
    simp only at hpq
    obtain ⟨hk, hR⟩ := hpq
    subst hk
    by_cases hkk : k2 = k
    · right
      exact ⟨v, v1, by simp [MapOrders.find, hkk], by simp [MapOrders.find, hkk], hR⟩
    · simp only [MapOrders.find, hkk, if_false]
      exact ih

theorem rel_vec {R : Vec → Vec → Prop} {m m1 : MapOrders} (h : MapOrders.Rel R m m1)
    (h0 : R [] []) (k : String) : R (MapOrders.vec m k) (MapOrders.vec m1 k) := by
  unfold MapOrders.vec
  rcases rel_find h k with ⟨h1, h2⟩ | ⟨v, v1, h1, h2, hR⟩
  · rw [h1, h2]; exact h0
  · rw [h1, h2]; exact hR

theorem rel_mem {R : Vec → Vec → Prop} {m m1 : MapOrders} (h : MapOrders.Rel R m m1) :
    ∀ q ∈ m1, ∃ p ∈ m, q.1 = p.1 ∧ R p.2 q.2 := by
  unfold MapOrders.Rel at h
  induction h with
  | nil => intro q hq; cases hq
  | @cons p q l l1 hpq _ ih =>
    intro q1 hq1
    rcases List.mem_cons.mp hq1 with h1 | h1
    · exact ⟨p, List.mem_cons_self _ _, by rw [h1]; exact hpq.1, by rw [h1]; exact hpq.2⟩
    · obtain ⟨p1, hp1, h2⟩ := ih q1 h1
      exact ⟨p1, List.mem_cons_of_mem _ hp1, h2⟩

theorem cancelOrdersForUserIn_entries (user : String) (m : MapOrders) :
    ∀ (ids : OrderIds), (∀ p ∈ m, p.2.length < SIZE_MOD) →
    ∃ m1 ids1, cancelOrdersForUserIn user m ids = .ok (m1, ids1) ∧
      MapOrders.Rel (fun v v1 =>
        List.Perm v1 (v.filter (fun o => !decide (o.order.user = user)))) m m1 := by
  induction m with
  | nil =>
    intro ids _
    exact ⟨[], ids, by simp [cancelOrdersForUserIn], List.Forall₂.nil⟩
  | cons p r ih =>
    intro ids hm
    obtain ⟨k, vec⟩ := p
    have hv : vec.length < SIZE_MOD := hm (k, vec) (List.mem_cons_self _ _)
    have hr : ∀ p ∈ r, p.2.length < SIZE_MOD := fun p hp => hm p (List.mem_cons_of_mem _ hp)
    unfold cancelOrdersForUserIn
    rw [cancelUserVec_eq]
    obtain ⟨v1, hrun, hperm⟩ := sweepVec_spec (fun o => decide (o.order.user = user))
      (vec.length + 1) vec ids 0 hv (by omega) (by intro k x hk; omega)
    rw [hrun]
    obtain ⟨r1, ids1, hrun1, hrel⟩ := ih
      (ids \ (idsOf (vec.filter (fun o => decide (o.order.user = user)))).toFinset) hr
    simp only [hrun1]
    exact ⟨(k, v1) :: r1, ids1, rfl, List.Forall₂.cons ⟨rfl, hperm⟩ hrel⟩

/-! ### Placement of the stored orders -/

theorem find_none_iff (m : MapOrders) (k : String) :
    MapOrders.find m k = none ↔ k ∉ m.map Prod.fst := by
  induction m with
  | nil => simp [MapOrders.find]
  | cons p r ih =>
    obtain ⟨k2, v2⟩ := p
    by_cases h : k2 = k
    · simp [MapOrders.find, h]
    · have h1 : ¬ k = k2 := fun e => h e.symm
      simp [MapOrders.find, h, h1, ih]

theorem assign_keys (m : MapOrders) (k : String) (v : Vec) :
    (MapOrders.assign m k v).map Prod.fst = m.map Prod.fst := by
  induction m with
  | nil => rfl
  | cons p r ih =>
    obtain ⟨k2, v2⟩ := p
    by_cases h : k2 = k
    · simp [MapOrders.assign, h]
    · simp [MapOrders.assign, h, ih]

theorem put_keys_nodup (m : MapOrders) (k : String) (v : Vec) (h : (m.map Prod.fst).Nodup) :
    ((MapOrders.put m k v).map Prod.fst).Nodup := by
  unfold MapOrders.put MapOrders.subscript
  rw [assign_keys]
  cases hf : MapOrders.find m k with
  | some w => exact h
  | none =>
    simp only [List.map_append, List.map_cons, List.map_nil]
    have hk := (find_none_iff m k).mp hf
    exact List.Nodup.append h (List.nodup_singleton k) (by
      intro a ha hb
      rw [List.mem_singleton] at hb
      exact hk (hb ▸ ha))

theorem mem_put (m : MapOrders) (k : String) (v : Vec) (p : String × Vec)
    (hp : p ∈ MapOrders.put m k v) : p ∈ m ∨ p = (k, []) ∨ p = (k, v) := by
  unfold MapOrders.put MapOrders.subscript at hp
  rcases mem_assign _ _ _ _ hp with h | h
  · split at h
    · exact Or.inl h
    · rcases List.mem_append.mp h with h1 | h1
      · exact Or.inl h1
      · exact Or.inr (Or.inl (List.mem_singleton.mp h1))
  · exact Or.inr (Or.inr h)

theorem placed_vec {side : String} {m : MapOrders} (h : MapOrders.Placed side m) (k : String) :
    ∀ x ∈ MapOrders.vec m k, OrderExpander.placed side k x := by
  intro x hx
  unfold MapOrders.vec at hx
  cases hf : MapOrders.find m k with
  | none => rw [hf] at hx; cases hx
  | some v =>
    rw [hf] at hx
    exact h.2 (k, v) (find_mem m k v hf) x hx

theorem placed_put {side : String} {m : MapOrders} (h : MapOrders.Placed side m) (k : String)
    (v : Vec) (hv : ∀ x ∈ v, OrderExpander.placed side k x) :
    MapOrders.Placed side (MapOrders.put m k v) := by
  refine ⟨put_keys_nodup m k v h.1, ?_⟩
  intro p hp x hx
  rcases mem_put m k v p hp with h1 | h1 | h1
  · exact h.2 p h1 x hx
  · rw [h1] at hx; cases hx
  · rw [h1] at hx ⊢
    exact hv x hx

theorem placed_erasedAt {side : String} {m m1 : MapOrders} {x : OrderExpander}
    (h : MapOrders.Placed side m) (he : MapOrders.ErasedAt x m m1) :
    MapOrders.Placed side m1 := by
  refine ⟨by rw [erasedAt_keys he]; exact h.1, ?_⟩
  intro p hp y hy
  obtain ⟨q, hq, hk, hsub, _⟩ := erasedAt_mem he p hp
  rw [← hk]
  exact h.2 q hq y (hsub hy)

theorem placed_rel {side : String} {m m1 : MapOrders} {R : Vec → Vec → Prop}
    (h : MapOrders.Placed side m) (hr : MapOrders.Rel R m m1)
    (hsub : ∀ v v1, R v v1 → v1 ⊆ v) : MapOrders.Placed side m1 := by
  refine ⟨by rw [rel_keys hr]; exact h.1, ?_⟩
  intro q hq y hy
  obtain ⟨p, hp, hk, hR⟩ := rel_mem hr q hq
  rw [hk]
  exact h.2 p hp y (hsub _ _ hR hy)

theorem placed_of_orders {side k : String} {v w : Vec}
    (h : List.Subperm (w.map OrderExpander.order) (v.map OrderExpander.order))
    (hv : ∀ x ∈ v, OrderExpander.placed side k x) : ∀ x ∈ w, OrderExpander.placed side k x := by
  intro x hx
  obtain ⟨x0, hx0, he⟩ := mem_of_order_subperm h hx
  have := hv x0 hx0
  unfold OrderExpander.placed at this ⊢
  rw [← he]
  exact this

theorem fits_erasedAt {x : OrderExpander} {m m1 : MapOrders} (he : MapOrders.ErasedAt x m m1)
    (hm : ∀ p ∈ m, p.2.length < SIZE_MOD) : ∀ p ∈ m1, p.2.length < SIZE_MOD := by
  intro p hp
  obtain ⟨q, hq, _, _, hl⟩ := erasedAt_mem he p hp
  exact lt_of_le_of_lt hl (hm q hq)

/-- What `cancelOrder` does to the two maps on a book that fits, for a
non-empty identifier: one element with that identifier is erased from its
vector in the buy map, or (when the buy map has none) in the sell map, or no
element carries the identifier and both maps are as before. -/
theorem cancelOrder_entries (c : State) (orderId : String) (hid : orderId ≠ "") (hf : Fits c) :
    (cancelOrder c orderId).1 = .ret () ∧
    (cancelOrder c orderId).2.m_orderIds = c.m_orderIds.erase orderId ∧
    ((∃ x, x.order.orderId = orderId ∧
        MapOrders.ErasedAt x c.m_buyOrders (cancelOrder c orderId).2.m_buyOrders ∧
        (cancelOrder c orderId).2.m_sellOrders = c.m_sellOrders) ∨
      (∃ x, x.order.orderId = orderId ∧
        (cancelOrder c orderId).2.m_buyOrders = c.m_buyOrders ∧
        MapOrders.ErasedAt x c.m_sellOrders (cancelOrder c orderId).2.m_sellOrders ∧
        ∀ y ∈ MapOrders.all c.m_buyOrders, y.order.orderId ≠ orderId) ∨
      ((cancelOrder c orderId).2.m_buyOrders = c.m_buyOrders ∧
        (cancelOrder c orderId).2.m_sellOrders = c.m_sellOrders ∧
        ∀ x ∈ c.live, x.order.orderId ≠ orderId)) := by
  unfold cancelOrder
  simp only [hid, if_false]
  rcases cancelOrderIn_entries orderId c.m_buyOrders (fits_buy hf) with
    ⟨m1, x, hrun, hx, her⟩ | ⟨hrun, hno⟩
  · simp only [hrun]
    exact ⟨trivial, trivial, Or.inl ⟨x, hx, her, trivial⟩⟩
  · simp only [hrun]
    rcases cancelOrderIn_entries orderId c.m_sellOrders (fits_sell hf) with
      ⟨m1, x, hrun1, hx, her⟩ | ⟨hrun1, hno1⟩
    · simp only [hrun1]
      exact ⟨trivial, trivial, Or.inr (Or.inl ⟨x, hx, trivial, her, hno⟩)⟩
    · simp only [hrun1]
      refine ⟨trivial, trivial, Or.inr (Or.inr ⟨trivial, trivial, ?_⟩)⟩
      intro o ho
      rcases List.mem_append.mp ho with h5 | h5
      · exact hno o h5
      · exact hno1 o h5

/-- What `cancelOrdersForUser` does to the two maps on a book that fits, for
a non-empty user: entry by entry, the vector keeps the elements of other
users. -/
theorem cancelOrdersForUser_entries (c : State) (user : String) (hu : user ≠ "")
    (hf : Fits c) :
    MapOrders.Rel (fun v v1 =>
        List.Perm v1 (v.filter (fun o => !decide (o.order.user = user))))
      c.m_buyOrders (cancelOrdersForUser c user).2.m_buyOrders ∧
    MapOrders.Rel (fun v v1 =>
        List.Perm v1 (v.filter (fun o => !decide (o.order.user = user))))
      c.m_sellOrders (cancelOrdersForUser c user).2.m_sellOrders := by
  unfold cancelOrdersForUser
  simp only [hu, if_false]
  obtain ⟨m1, ids1, hrun, hrel⟩ := cancelOrdersForUserIn_entries user c.m_buyOrders c.m_orderIds
    (fits_buy hf)
  simp only [hrun]
  obtain ⟨m2, ids2, hrun2, hrel2⟩ := cancelOrdersForUserIn_entries user c.m_sellOrders ids1
    (fits_sell hf)
  simp only [hrun2]
  exact ⟨hrel, hrel2⟩

theorem placed_addOrder (c : State) (order : Order) (h : c.Placed) :
    (addOrder c order).2.Placed := by
  unfold addOrder
  split_ifs with h1 h2 h3 h4 h5 h6 h7 h8 h9
  · exact h
  · exact h
  · exact h
  · exact h
  · exact h
  · exact h
  · exact h
  · simp only [subscript_snd]
    refine ⟨placed_put h.1 order.securityId _ ?_, h.2⟩
    intro x hx
    rcases List.mem_append.mp hx with hx1 | hx1
    · exact placed_vec h.1 _ x hx1
    · rw [List.mem_singleton.mp hx1]
      exact ⟨h8, rfl, h1, h3, h4, h6⟩
  · simp only [subscript_snd]
    refine ⟨h.1, placed_put h.2 order.securityId _ ?_⟩
    intro x hx
    rcases List.mem_append.mp hx with hx1 | hx1
    · exact placed_vec h.2 _ x hx1
    · rw [List.mem_singleton.mp hx1]
      exact ⟨h9, rfl, h1, h3, h4, h6⟩
  · exact h

theorem placed_cancelOrder (c : State) (orderId : String) (h : c.Placed) (hf : Fits c) :
    (cancelOrder c orderId).2.Placed := by
  by_cases hid : orderId = ""
  · simp [cancelOrder, hid, h]
  · obtain ⟨_, _, hcases⟩ := cancelOrder_entries c orderId hid hf
    unfold State.Placed
    rcases hcases with ⟨x, _, her, hs⟩ | ⟨x, _, hb, her, _⟩ | ⟨hb, hs, _⟩
    · rw [hs]; exact ⟨placed_erasedAt h.1 her, h.2⟩
    · rw [hb]; exact ⟨h.1, placed_erasedAt h.2 her⟩
    · rw [hb, hs]; exact h

theorem placed_cancelOrdersForUser (c : State) (user : String) (h : c.Placed) (hf : Fits c) :
    (cancelOrdersForUser c user).2.Placed := by
  by_cases hu : user = ""
  · simp [cancelOrdersForUser, hu, h]
  · obtain ⟨hb, hs⟩ := cancelOrdersForUser_entries c user hu hf
    have hsub : ∀ v v1 : Vec,
        List.Perm v1 (v.filter (fun o => !decide (o.order.user = user))) → v1 ⊆ v :=
      fun v v1 hp x hx => (List.mem_filter.mp (hp.subset hx)).1
    exact ⟨placed_rel h.1 hb hsub, placed_rel h.2 hs hsub⟩

theorem placed_cancelMinQty (c : State) (sid : String) (minQty : Nat) (h : c.Placed)
    (hf : Fits c) : (cancelOrdersForSecIdWithMinimumQty c sid minQty).2.Placed := by
  by_cases hsid : sid = ""
  · simp [cancelOrdersForSecIdWithMinimumQty, hsid, h]
  by_cases hq : minQty = 0
  · simp [cancelOrdersForSecIdWithMinimumQty, hsid, hq, h]
  obtain ⟨vb, vs, hrun, hpb, hps⟩ := cancelMinQty_run c sid minQty hsid hq hf
  rw [hrun]
  refine ⟨placed_put h.1 sid vb ?_, placed_put h.2 sid vs ?_⟩
  · intro x hx
    exact placed_vec h.1 sid x (List.mem_filter.mp (hpb.subset hx)).1
  · intro x hx
    exact placed_vec h.2 sid x (List.mem_filter.mp (hps.subset hx)).1

theorem placed_getMatching (c : State) (sid : String) (h : c.Placed) (hf : Fits c) :
    (getMatchingSizeForSecurity c sid).2.Placed := by
  by_cases hsid : sid = ""
  · simp [getMatchingSizeForSecurity, hsid, h]
  obtain ⟨vs1, buys1, t1, hrun, htr, hb⟩ := getMatching_spec c sid hsid
    (vec_length_lt _ sid (fits_sell hf)) (vec_length_lt _ sid (fits_buy hf))
  have hord := trades_orders htr
  rw [hrun]
  refine ⟨?_, placed_put h.2 sid vs1 (placed_of_orders hord.1 (placed_vec h.2 sid))⟩
  show MapOrders.Placed BUY buys1
  rcases hb with hb | hb
  · rw [hb]; exact h.1
  · rw [hb]
    exact placed_put h.1 sid _ (placed_of_orders hord.2 (placed_vec h.1 sid))

theorem op_placed (c : State) (op : Op) (h : c.Placed) (hf : Fits c) : (Op.run c op).Placed := by
  cases op with
  | addOrder order => exact placed_addOrder c order h
  | cancelOrder orderId => exact placed_cancelOrder c orderId h hf
  | cancelOrdersForUser user => exact placed_cancelOrdersForUser c user h hf
  | cancelOrdersForSecIdWithMinimumQty sid q => exact placed_cancelMinQty c sid q h hf
  | getMatchingSizeForSecurity sid => exact placed_getMatching c sid h hf
  | getAllOrders => exact h

theorem trace_placed {c d : State} {ops : List Op} (h : Trace c ops d) (hp : c.Placed)
    (hi : c.Inv) (hf : Fits c) : d.Placed := by
  induction h with
  | nil => exact hp
  | snoc d ops op htr _ ih => exact op_placed d op ih (trace_inv_fits htr hi hf).2

theorem reachable_placed {c : State} (h : Reachable c) : c.Placed := by
  obtain ⟨ops, htr⟩ := h
  refine trace_placed htr ?_ empty_inv empty_fits
  refine ⟨⟨?_, ?_⟩, ⟨?_, ?_⟩⟩ <;> simp [State.empty]

/-- In a reachable book every live order has a non-empty identifier. -/
theorem live_id_ne_empty {c : State} (h : c.Placed) :
    ∀ x ∈ c.live, x.order.orderId ≠ "" := by
  intro x hx
  rcases List.mem_append.mp hx with h1 | h1
  · simp only [MapOrders.all, List.mem_flatMap] at h1
    obtain ⟨p, hp, hxp⟩ := h1
    exact (h.1.2 p hp x hxp).2.2.1
  · simp only [MapOrders.all, List.mem_flatMap] at h1
    obtain ⟨p, hp, hxp⟩ := h1
    exact (h.2.2 p hp x hxp).2.2.1

/-! ### `addOrder` and `cancelOrder` on reachable books -/

theorem addOrder_duplicate_filled (c : State) (o : Order) (hv : o.filled)
    (hdup : o.orderId ∈ c.m_orderIds) :
    addOrder c o = (.runtime_error "Error: order ID have already exist!", c) := by
  obtain ⟨h1, h2, h3, h4, h5, h6⟩ := hv
  unfold addOrder
  rw [if_neg h1, if_neg h2, if_neg h3, if_neg h4, if_neg h5, if_neg h6, if_pos hdup]

theorem addOrder_valid_run (c : State) (o : Order) (hv : o.valid)
    (hnew : o.orderId ∉ c.m_orderIds) :
    (addOrder c o).1 = .ret () ∧
    (addOrder c o).2.m_orderIds = insert o.orderId c.m_orderIds ∧
    List.Perm (addOrder c o).2.live (OrderExpander.ofOrder o :: c.live) := by
  obtain ⟨h1, h2, h3, h4, h5, h6⟩ := hv
  have hside : o.side ≠ "" := by
    rcases h5 with h | h <;> rw [h] <;> decide
  have hbs : BUY ≠ SELL := by decide
  unfold addOrder
  rw [if_neg h1, if_neg h2, if_neg h3, if_neg h4, if_neg hside, if_neg h6, if_neg hnew]
  simp only [subscript_snd]
  rcases h5 with hb | hs
  · rw [if_pos hb]
    refine ⟨rfl, rfl, ?_⟩
    exact (all_put_append c.m_buyOrders o.securityId _).append_right _
  · have hsb : ¬ o.side = BUY := by rw [hs]; exact fun h => hbs h.symm
    rw [if_neg hsb, if_pos hs]
    refine ⟨rfl, rfl, ?_⟩
    exact ((all_put_append c.m_sellOrders o.securityId _).append_left _).trans List.perm_middle

theorem live_id_mem_ids {c : State} (h : c.Inv) {X : String} (hlive : X ∈ idsOf c.live) :
    X ∈ c.m_orderIds := by
  obtain ⟨x, hx, hxe⟩ := mem_idsOf.mp hlive
  rw [← hxe]
  exact h.2.1 x hx

theorem not_mem_of_id_not_mem {v : Vec} {x : OrderExpander} (h : x.order.orderId ∉ idsOf v) :
    x ∉ v :=
  fun hx => h (mem_idsOf.mpr ⟨x, hx, rfl⟩)

/-- The live order removed by `cancelOrder` was the only one with its identifier. -/
theorem removed_id_gone {live live1 : Vec} {x : OrderExpander} (hn : (idsOf live).Nodup)
    (hp : List.Perm live (x :: live1)) : x.order.orderId ∉ idsOf live1 := by
  have h1 : (idsOf (x :: live1)).Nodup :=
    (hp.map (fun o : OrderExpander => o.order.orderId)).nodup_iff.mp hn
  simp only [idsOf, List.map_cons] at h1
  exact (List.nodup_cons.mp h1).1

/-- C11: for every reachable book in which an order with identifier `X` is
live, `addOrder` of any order with identifier `X` whose fields are otherwise
well-formed (no empty field, non-zero quantity) throws the
duplicate-identifier `std::runtime_error` and leaves the state unchanged, so
the live orders and what `getAllOrders` returns are as before. -/
theorem C11_duplicate_id_rejected (c : State) (hr : Reachable c) (X : String)
    (hlive : X ∈ idsOf c.live) (o : Order) (hid : o.orderId = X) (hfill : o.filled) :
    addOrder c o = (.runtime_error "Error: order ID have already exist!", c) ∧
    (addOrder c o).2.live = c.live ∧
    getAllOrders (addOrder c o).2 = getAllOrders c := by
  have hdup : addOrder c o = (.runtime_error "Error: order ID have already exist!", c) :=
    addOrder_duplicate_filled c o hfill
      (by rw [hid]; exact live_id_mem_ids (reachable_inv_fits hr).1 hlive)
  rw [hdup]
  exact ⟨rfl, rfl, rfl⟩

/-- C12: for every reachable book in which an order with identifier `X` is
live, `cancelOrder(X)` returns and removes exactly that order `x`:
afterwards `X` is not in the id-set, no live order has identifier `X`, and
each side, as a whole and vector by vector (so with the (side, security)
placement and the remaining quantities), holds the previous elements less
`x`, up to the position inside the vector. -/
theorem C12_cancelOrder_removes_exactly (c : State) (hr : Reachable c) (X : String)
    (hlive : X ∈ idsOf c.live) :
    (cancelOrder c X).1 = .ret () ∧
    X ∉ (cancelOrder c X).2.m_orderIds ∧
    X ∉ idsOf (cancelOrder c X).2.live ∧
    ∃ x ∈ c.live, x.order.orderId = X ∧
      List.Perm c.live (x :: (cancelOrder c X).2.live) ∧
      List.Perm (MapOrders.all (cancelOrder c X).2.m_buyOrders)
        ((MapOrders.all c.m_buyOrders).erase x) ∧
      List.Perm (MapOrders.all (cancelOrder c X).2.m_sellOrders)
        ((MapOrders.all c.m_sellOrders).erase x) ∧
      (∀ k, List.Perm (MapOrders.vec (cancelOrder c X).2.m_buyOrders k)
        ((MapOrders.vec c.m_buyOrders k).erase x)) ∧
      (∀ k, List.Perm (MapOrders.vec (cancelOrder c X).2.m_sellOrders k)
        ((MapOrders.vec c.m_sellOrders k).erase x)) := by
  obtain ⟨hinv, hf⟩ := reachable_inv_fits hr
  have hpl := reachable_placed hr
  have hX : X ≠ "" := by
    obtain ⟨x, hx, hxe⟩ := mem_idsOf.mp hlive
    rw [← hxe]
    exact live_id_ne_empty hpl x hx
  obtain ⟨hret, hids, hcases⟩ := cancelOrder_entries c X hX hf
  refine ⟨hret, by rw [hids]; exact Finset.not_mem_erase X _, ?_⟩
  rcases hcases with ⟨x, hx, her, hs⟩ | ⟨x, hx, hb, her, _⟩ | ⟨_, _, hno⟩
  · have hall := erasedAt_all her
    have hperm : List.Perm c.live (x :: (cancelOrder c X).2.live) := by
      unfold State.live
      rw [hs]
      exact hall.append_right _
    have hgone := removed_id_gone hinv.1 hperm
    have hxl : x ∉ (cancelOrder c X).2.live := not_mem_of_id_not_mem hgone
    have hxb : x ∉ MapOrders.all (cancelOrder c X).2.m_buyOrders :=
      fun h => hxl (List.mem_append_left _ h)
    have hxs : x ∉ MapOrders.all c.m_sellOrders := by
      intro h
      apply hxl
      unfold State.live
      rw [hs]
      exact List.mem_append_right _ h
    refine ⟨by have h0 := hgone; rw [hx] at h0; exact h0, x, hperm.symm.subset (List.mem_cons_self _ _), hx, hperm,
      ?_, ?_, ?_, ?_⟩
    · have := hall.erase x
      rw [List.erase_cons_head] at this
      exact this.symm
    · rw [hs, List.erase_of_not_mem hxs]
    · exact erasedAt_vec her hxb
    · intro k
      rw [hs, List.erase_of_not_mem (fun h => hxs (vec_subset_all _ _ h))]
  · have hall := erasedAt_all her
    have hperm : List.Perm c.live (x :: (cancelOrder c X).2.live) := by
      unfold State.live
      rw [hb]
      exact (hall.append_left _).trans List.perm_middle
    have hgone := removed_id_gone hinv.1 hperm
    have hxl : x ∉ (cancelOrder c X).2.live := not_mem_of_id_not_mem hgone
    have hxs : x ∉ MapOrders.all (cancelOrder c X).2.m_sellOrders :=
      fun h => hxl (List.mem_append_right _ h)
    have hxb : x ∉ MapOrders.all c.m_buyOrders := by
      intro h
      apply hxl
      unfold State.live
      rw [hb]
      exact List.mem_append_left _ h
    refine ⟨by have h0 := hgone; rw [hx] at h0; exact h0, x, hperm.symm.subset (List.mem_cons_self _ _), hx, hperm,
      ?_, ?_, ?_, ?_⟩
    · rw [hb, List.erase_of_not_mem hxb]
    · have := hall.erase x
      rw [List.erase_cons_head] at this
      exact this.symm
    · intro k
      rw [hb, List.erase_of_not_mem (fun h => hxb (vec_subset_all _ _ h))]
    · exact erasedAt_vec her hxs
  · exfalso
    obtain ⟨x, hx, hxe⟩ := mem_idsOf.mp hlive
    exact hno x hx hxe

/-- C13: for every reachable book in which an order with identifier `X` is
live (possibly partially matched) and every well-formed order `o` with
identifier `X`, `cancelOrder(X)` followed by `addOrder(o)` both return, and
afterwards the book holds exactly one order with identifier `X`: it carries
the fields of `o` and its remaining quantity is the quantity of `o`. -/
theorem C13_cancel_then_add_replaces (c : State) (hr : Reachable c) (X : String)
    (hlive : X ∈ idsOf c.live) (o : Order) (hid : o.orderId = X) (hv : o.valid) :
    (cancelOrder c X).1 = .ret () ∧
    (addOrder (cancelOrder c X).2 o).1 = .ret () ∧
    (addOrder (cancelOrder c X).2 o).2.live.filter (fun x => decide (x.order.orderId = X)) =
      [{ order := o, currentQty := o.qty }] ∧
    (getAllOrders (addOrder (cancelOrder c X).2 o).2).filter (fun p => decide (p.orderId = X)) =
      [o] := by
  obtain ⟨hinv, hf⟩ := reachable_inv_fits hr
  have hpl := reachable_placed hr
  have hX : X ≠ "" := by
    obtain ⟨x, hx, hxe⟩ := mem_idsOf.mp hlive
    rw [← hxe]
    exact live_id_ne_empty hpl x hx
  obtain ⟨hret, hids, hcases⟩ := cancelOrder_run c X hX hf
  have hgone : X ∉ idsOf (cancelOrder c X).2.live := by
    rcases hcases with ⟨x, hx, hperm⟩ | ⟨_, _, hno⟩
    · have h0 := removed_id_gone hinv.1 hperm
      rw [hx] at h0
      exact h0
    · exfalso
      obtain ⟨x, hx, hxe⟩ := mem_idsOf.mp hlive
      exact hno x hx hxe
  have hnew : o.orderId ∉ (cancelOrder c X).2.m_orderIds := by
    rw [hids, hid]; exact Finset.not_mem_erase X _
  obtain ⟨hret1, _, hperm1⟩ := addOrder_valid_run (cancelOrder c X).2 o hv hnew
  have hfilt : (addOrder (cancelOrder c X).2 o).2.live.filter
      (fun x => decide (x.order.orderId = X)) = [{ order := o, currentQty := o.qty }] := by
    have h1 := hperm1.filter (fun x => decide (x.order.orderId = X))
    have h2 : ((cancelOrder c X).2.live).filter (fun x => decide (x.order.orderId = X)) = [] := by
      rw [List.filter_eq_nil_iff]
      intro x hx hd
      exact hgone (mem_idsOf.mpr ⟨x, hx, by simpa using hd⟩)
    rw [List.filter_cons_of_pos (by simp [OrderExpander.ofOrder, hid]), h2] at h1
    exact List.perm_singleton.mp h1
  refine ⟨hret, hret1, hfilt, ?_⟩
  have h3 : getAllOrders (addOrder (cancelOrder c X).2 o).2 =
      (addOrder (cancelOrder c X).2 o).2.live.map OrderExpander.order := by
    simp [getAllOrders, State.live]
  rw [h3, List.filter_map]
  have h4 : ((fun p : Order => decide (p.orderId = X)) ∘ OrderExpander.order) =
      (fun x : OrderExpander => decide (x.order.orderId = X)) := rfl
  rw [h4, hfilt]
  rfl

/-- C14: for every reachable book and every non-empty identifier `X` that no
live order carries, `cancelOrder(X)` returns without error and is a no-op on
the orders: both maps, hence the result of `getAllOrders` and every
remaining quantity, are unchanged, and `X` is not in the id-set afterwards. -/
theorem C14_cancel_absent_is_noop (c : State) (hr : Reachable c) (X : String) (hX : X ≠ "")
    (hno : X ∉ idsOf c.live) :
    (cancelOrder c X).1 = .ret () ∧
    (cancelOrder c X).2.m_buyOrders = c.m_buyOrders ∧
    (cancelOrder c X).2.m_sellOrders = c.m_sellOrders ∧
    getAllOrders (cancelOrder c X).2 = getAllOrders c ∧
    (cancelOrder c X).2.m_orderIds = c.m_orderIds.erase X ∧
    X ∉ (cancelOrder c X).2.m_orderIds := by
  obtain ⟨_, hf⟩ := reachable_inv_fits hr
  obtain ⟨hret, hids, hcases⟩ := cancelOrder_run c X hX hf
  rcases hcases with ⟨x, hx, hperm⟩ | ⟨hb, hs, _⟩
  · exfalso
    exact hno (mem_idsOf.mpr ⟨x, hperm.symm.subset (List.mem_cons_self _ _), hx⟩)
  · refine ⟨hret, hb, hs, ?_, hids, by rw [hids]; exact Finset.not_mem_erase X _⟩
    unfold getAllOrders
    rw [hb, hs]

/-- C17: for every book, `cancelOrder("")`, `cancelOrdersForUser("")`,
`cancelOrdersForSecIdWithMinimumQty("", q)` for any `q`,
`cancelOrdersForSecIdWithMinimumQty(s, 0)` for any `s` and
`getMatchingSizeForSecurity("")` each throw `std::invalid_argument` and
leave the whole state unchanged. -/
theorem C17_malformed_calls_rejected (c : State) (s : String) (q : Nat) :
    cancelOrder c "" = (.invalid_argument "Error: order ID is empty!", c) ∧
    cancelOrdersForUser c "" = (.invalid_argument "Error: user is empty!", c) ∧
    cancelOrdersForSecIdWithMinimumQty c "" q =
      (.invalid_argument "Error: security ID is empty!", c) ∧
    ((∃ what, (cancelOrdersForSecIdWithMinimumQty c s 0).1 = .invalid_argument what) ∧
      (cancelOrdersForSecIdWithMinimumQty c s 0).2 = c) ∧
    getMatchingSizeForSecurity c "" = (.invalid_argument "Error: security ID is empty!", c) := by
  refine ⟨by simp [cancelOrder], by simp [cancelOrdersForUser],
    by simp [cancelOrdersForSecIdWithMinimumQty], ?_, by simp [getMatchingSizeForSecurity]⟩
  unfold cancelOrdersForSecIdWithMinimumQty
  by_cases hs : s = ""
  · rw [if_pos hs]
    exact ⟨⟨_, rfl⟩, rfl⟩
  · rw [if_neg hs, if_pos rfl]
    exact ⟨⟨_, rfl⟩, rfl⟩

/-! ### The call of `getAllOrders` -/

theorem copyOrders_spec (fuel : Nat) : ∀ (vec : Vec) (i : Nat) (orders : List Order),
    vec.length < SIZE_MOD → vec.length - i < fuel →
    copyOrders fuel vec i orders = .ok (orders ++ (vec.drop i).map OrderExpander.order) := by
  induction fuel with
  | zero => intro vec i orders _ h; omega
  | succ fuel ih =>
    intro vec i orders hv hfuel
    unfold copyOrders
    by_cases hi : i < vec.length
    · rw [if_pos hi, List.getElem?_eq_getElem hi]
      simp only
      rw [size_succ_mod i _ hi hv, ih vec (i + 1) _ hv (by omega),
        List.drop_eq_getElem_cons hi]
      simp only [List.map_cons, List.append_assoc, List.singleton_append]
    · rw [if_neg hi, List.drop_eq_nil_of_le (by omega)]
      simp

theorem copyAll_spec (m : MapOrders) : ∀ (orders : List Order),
    (∀ p ∈ m, p.2.length < SIZE_MOD) →
    copyAll m orders = .ok (orders ++ (MapOrders.all m).map OrderExpander.order) := by
  induction m with
  | nil =>
    intro orders _
    simp [copyAll, MapOrders.all]
  | cons p r ih =>
    intro orders hm
    obtain ⟨k, vec⟩ := p
    unfold copyAll
    rw [copyOrders_spec _ vec 0 orders (hm (k, vec) (List.mem_cons_self _ _)) (by simp)]
    simp only
    rw [ih _ (fun p hp => hm p (List.mem_cons_of_mem _ hp)), all_cons]
    simp

/-- The state the call of `getAllOrders` leaves is the state it found. -/
theorem getAllOrdersCall_state (c : State) : (getAllOrdersCall c).2 = c := by
  unfold getAllOrdersCall
  cases copyAll c.m_buyOrders [] with
  | error e => rfl
  | ok orders =>
    simp only
    cases copyAll c.m_sellOrders orders with
    | error e => rfl
    | ok orders1 => rfl

/-- On a book that fits the call of `getAllOrders` returns the list `getAllOrders` denotes. -/
theorem getAllOrdersCall_run (c : State) (hf : Fits c) :
    getAllOrdersCall c = (.ret (getAllOrders c), c) := by
  unfold getAllOrdersCall
  rw [copyAll_spec _ _ (fits_buy hf)]
  simp only
  rw [copyAll_spec _ _ (fits_sell hf)]
  simp [getAllOrders]

/-- C19: `getAllOrders` is a pure read returning a value copy. For every book the call leaves
the state of the object as it found it (on every path of its body), which is the step the
transition system takes for it. On every book whose vectors fit, it returns the `Order` base
of every element of the buy map, then of the sell map; a second call returns the same
sequence; and in the client code of the test `ResultNotModifiableExternally`, whatever
operation `edit` the caller applies to the vector the first call returned (e.g. `clear()`),
the second call returns what the first returned and the cache is unchanged. -/
theorem C19_getAllOrders_pure (c : State) (edit : List Order → List Order) :
    (getAllOrdersCall c).2 = c ∧
    Op.run c Op.getAllOrders = (getAllOrdersCall c).2 ∧
    (Fits c →
      getAllOrdersCall c = (.ret (getAllOrders c), c) ∧
      (getAllOrdersCall (getAllOrdersCall c).2).1 = (getAllOrdersCall c).1 ∧
      fetchEditFetch edit c = (.ret (edit (getAllOrders c), getAllOrders c), c)) := by
  refine ⟨getAllOrdersCall_state c, (getAllOrdersCall_state c).symm, ?_⟩
  intro hf
  have hrun := getAllOrdersCall_run c hf
  refine ⟨hrun, ?_, ?_⟩
  · rw [getAllOrdersCall_state]
  · unfold fetchEditFetch
    rw [hrun]
    simp only
    rw [hrun]

/-- Witness for C19: the test `EdgeCases_GetAllOrders_ResultNotModifiableExternally`: after
the caller has cleared the vector the first call returned, the second call returns the one
order `OrdId1`. -/
theorem C19_witness :
    Fits (runOps State.empty oneOrder) ∧
    fetchEditFetch (fun _ => []) (runOps State.empty oneOrder) =
      (.ret ([], [⟨"OrdId1", "SecId1", "Buy", 100, "User1", "Company1"⟩]),
        runOps State.empty oneOrder) ∧
    fetchEditFetch (fun _ => []) (runOps State.empty oneOrder) =
      (.ret ([], getAllOrders (runOps State.empty oneOrder)), runOps State.empty oneOrder) :=
  ⟨by decide, rfl,
    ((C19_getAllOrders_pure (runOps State.empty oneOrder) (fun _ => [])).2.2 (by decide)).2.2⟩

/-! ### The bulk cancellations on reachable books -/

/-- C15: for every reachable book and non-empty user `u`,
`cancelOrdersForUser(u)` returns and removes exactly the live orders of `u`:
afterwards no live order has user `u`; every vector of both maps holds the
elements of other users it held before, with their remaining quantities
(positions inside the vector may change); and the id-set is the previous
id-set minus the identifiers of the removed orders. -/
theorem C15_cancelOrdersForUser_exact (c : State) (hr : Reachable c) (u : String)
    (hu : u ≠ "") :
    (cancelOrdersForUser c u).1 = .ret () ∧
    (∀ x ∈ (cancelOrdersForUser c u).2.live, x.order.user ≠ u) ∧
    (∀ k, List.Perm (MapOrders.vec (cancelOrdersForUser c u).2.m_buyOrders k)
      ((MapOrders.vec c.m_buyOrders k).filter (fun o => !decide (o.order.user = u)))) ∧
    (∀ k, List.Perm (MapOrders.vec (cancelOrdersForUser c u).2.m_sellOrders k)
      ((MapOrders.vec c.m_sellOrders k).filter (fun o => !decide (o.order.user = u)))) ∧
    List.Perm (cancelOrdersForUser c u).2.live
      (c.live.filter (fun o => !decide (o.order.user = u))) ∧
    (cancelOrdersForUser c u).2.m_orderIds =
      c.m_orderIds \ (idsOf (c.live.filter (fun o => decide (o.order.user = u)))).toFinset := by
  obtain ⟨_, hf⟩ := reachable_inv_fits hr
  obtain ⟨hret, hids, hpb, hps⟩ := cancelOrdersForUser_run c u hu hf
  obtain ⟨hrb, hrs⟩ := cancelOrdersForUser_entries c u hu hf
  have hlive : List.Perm (cancelOrdersForUser c u).2.live
      (c.live.filter (fun o => !decide (o.order.user = u))) := by
    unfold State.live
    rw [List.filter_append]
    exact hpb.append hps
  refine ⟨hret, ?_, ?_, ?_, hlive, hids⟩
  · intro x hx
    have := (List.mem_filter.mp (hlive.subset hx)).2
    simpa using this
  · intro k
    exact rel_vec hrb (by simp) k
  · intro k
    exact rel_vec hrs (by simp) k

theorem rest_sec_ne {side : String} {m : MapOrders} (h : MapOrders.Placed side m) (s : String) :
    ∀ x ∈ MapOrders.rest m s, x.order.securityId ≠ s := by
  induction m with
  | nil => intro x hx; cases hx
  | cons p r ih =>
    obtain ⟨k1, v⟩ := p
    have hkeys : k1 ∉ r.map Prod.fst ∧ (r.map Prod.fst).Nodup := by
      have := h.1
      rw [List.map_cons] at this
      exact List.nodup_cons.mp this
    have hr : MapOrders.Placed side r :=
      ⟨hkeys.2, fun p hp => h.2 p (List.mem_cons_of_mem _ hp)⟩
    intro x hx
    unfold MapOrders.rest at hx
    by_cases hk : k1 = s
    · rw [if_pos hk] at hx
      simp only [MapOrders.all, List.mem_flatMap] at hx
      obtain ⟨q, hq, hxq⟩ := hx
      have hsec := (hr.2 q hq x hxq).2.1
      rw [hsec]
      intro he
      apply hkeys.1
      rw [hk, ← he]
      exact List.mem_map_of_mem Prod.fst hq
    · rw [if_neg hk] at hx
      rcases List.mem_append.mp hx with h1 | h1
      · have hsec := (h.2 (k1, v) (List.mem_cons_self _ _) x h1).2.1
        rw [hsec]
        exact hk
      · exact ih hr x h1

/-- In a placed map, selecting by security and a condition on the whole map
is selecting by the condition in the vector of the security. -/
theorem placed_filter_sec {side : String} {m : MapOrders} (h : MapOrders.Placed side m)
    (s : String) (p : OrderExpander → Bool) :
    List.Perm ((MapOrders.all m).filter (fun o => decide (o.order.securityId = s) && p o))
      ((MapOrders.vec m s).filter p) ∧
    List.Perm ((MapOrders.all m).filter (fun o => !(decide (o.order.securityId = s) && p o)))
      ((MapOrders.vec m s).filter (fun o => !p o) ++ MapOrders.rest m s) := by
  have hall := all_perm_vec_rest m s
  have hv := placed_vec h s
  have hrest := rest_sec_ne h s
  constructor
  · refine (hall.filter _).trans ?_
    rw [List.filter_append]
    have h1 : (MapOrders.rest m s).filter
        (fun o => decide (o.order.securityId = s) && p o) = [] := by
      rw [List.filter_eq_nil_iff]
      intro x hx
      simp [hrest x hx]
    have h2 : (MapOrders.vec m s).filter (fun o => decide (o.order.securityId = s) && p o) =
        (MapOrders.vec m s).filter p := by
      apply List.filter_congr
      intro x hx
      simp [(hv x hx).2.1]
    rw [h1, h2, List.append_nil]
  · refine (hall.filter _).trans ?_
    rw [List.filter_append]
    have h1 : (MapOrders.rest m s).filter
        (fun o => !(decide (o.order.securityId = s) && p o)) = MapOrders.rest m s := by
      rw [List.filter_eq_self]
      intro x hx
      simp [hrest x hx]
    have h2 : (MapOrders.vec m s).filter
        (fun o => !(decide (o.order.securityId = s) && p o)) =
        (MapOrders.vec m s).filter (fun o => !p o) := by
      apply List.filter_congr
      intro x hx
      simp [(hv x hx).2.1]
    rw [h1, h2]

/-- C16: for every reachable book, non-empty security `s` and threshold
`q > 0`, `cancelOrdersForSecIdWithMinimumQty(s, q)` returns and removes
exactly the live orders of security `s`, on either side, whose original
quantity `qty` (not `currentQty`) is at least `q`, and removes their
identifiers from the id-set; the two vectors of `s` keep the orders of
original quantity below `q` with their remaining quantities, and the vector
of every other security is as before. -/
theorem C16_cancelMinQty_exact (c : State) (hr : Reachable c) (s : String) (hs : s ≠ "")
    (q : Nat) (hq : 0 < q) :
    (cancelOrdersForSecIdWithMinimumQty c s q).1 = .ret () ∧
    List.Perm (MapOrders.vec (cancelOrdersForSecIdWithMinimumQty c s q).2.m_buyOrders s)
      ((MapOrders.vec c.m_buyOrders s).filter (fun o => !decide (q ≤ o.order.qty))) ∧
    List.Perm (MapOrders.vec (cancelOrdersForSecIdWithMinimumQty c s q).2.m_sellOrders s)
      ((MapOrders.vec c.m_sellOrders s).filter (fun o => !decide (q ≤ o.order.qty))) ∧
    (∀ k, k ≠ s →
      MapOrders.vec (cancelOrdersForSecIdWithMinimumQty c s q).2.m_buyOrders k =
        MapOrders.vec c.m_buyOrders k ∧
      MapOrders.vec (cancelOrdersForSecIdWithMinimumQty c s q).2.m_sellOrders k =
        MapOrders.vec c.m_sellOrders k) ∧
    List.Perm (cancelOrdersForSecIdWithMinimumQty c s q).2.live
      (c.live.filter (fun o => !(decide (o.order.securityId = s) && decide (q ≤ o.order.qty)))) ∧
    (cancelOrdersForSecIdWithMinimumQty c s q).2.m_orderIds =
      c.m_orderIds \ (idsOf (c.live.filter
        (fun o => decide (o.order.securityId = s) && decide (q ≤ o.order.qty)))).toFinset := by
  obtain ⟨_, hf⟩ := reachable_inv_fits hr
  have hpl := reachable_placed hr
  obtain ⟨vb, vs, hrun, hpb, hps⟩ := cancelMinQty_run c s q hs (by omega) hf
  have hfb := placed_filter_sec hpl.1 s (fun o => decide (q ≤ o.order.qty))
  have hfs := placed_filter_sec hpl.2 s (fun o => decide (q ≤ o.order.qty))
  rw [hrun]
  refine ⟨rfl, ?_, ?_, ?_, ?_, ?_⟩
  · show List.Perm (MapOrders.vec (MapOrders.put c.m_buyOrders s vb) s) _
    rw [vec_put_same]
    exact hpb
  · show List.Perm (MapOrders.vec (MapOrders.put c.m_sellOrders s vs) s) _
    rw [vec_put_same]
    exact hps
  · intro k hk
    exact ⟨vec_put_other _ _ _ _ hk, vec_put_other _ _ _ _ hk⟩
  · show List.Perm (MapOrders.all (MapOrders.put c.m_buyOrders s vb) ++
      MapOrders.all (MapOrders.put c.m_sellOrders s vs)) _
    unfold State.live
    rw [List.filter_append]
    exact ((all_put_perm _ _ _).trans ((hpb.append_right _).trans hfb.2.symm)).append
      ((all_put_perm _ _ _).trans ((hps.append_right _).trans hfs.2.symm))
  · show c.m_orderIds \ _ = _
    have hperm : List.Perm
        ((MapOrders.vec c.m_buyOrders s ++ MapOrders.vec c.m_sellOrders s).filter
          (fun o => decide (q ≤ o.order.qty)))
        (c.live.filter
          (fun o => decide (o.order.securityId = s) && decide (q ≤ o.order.qty))) := by
      unfold State.live
      rw [List.filter_append, List.filter_append]
      exact hfb.1.symm.append hfs.1.symm
    have := hperm.map (fun o : OrderExpander => o.order.orderId)
    unfold idsOf
    rw [List.toFinset_eq_of_perm _ _ this]

/-! ### What `getAllOrders` returns -/

/-- The `Order` base of a live element after a call is that of a live element
from before the call, or the order a successful `addOrder` stored. -/
theorem op_live_orders (c : State) (op : Op) (hf : Fits c) :
    ∀ x ∈ (Op.run c op).live,
      (∃ x0 ∈ c.live, x0.order = x.order) ∨ op = .addOrder x.order := by
  intro x hx
  cases op with
  | addOrder order =>
    simp only [Op.run] at hx
    unfold addOrder at hx
    split_ifs at hx with h1 h2 h3 h4 h5 h6 h7 h8 h9
    · exact Or.inl ⟨x, hx, rfl⟩
    · exact Or.inl ⟨x, hx, rfl⟩
    · exact Or.inl ⟨x, hx, rfl⟩
    · exact Or.inl ⟨x, hx, rfl⟩
    · exact Or.inl ⟨x, hx, rfl⟩
    · exact Or.inl ⟨x, hx, rfl⟩
    · exact Or.inl ⟨x, hx, rfl⟩
    · simp only [subscript_snd] at hx
      have hp : List.Perm (MapOrders.all (MapOrders.put c.m_buyOrders order.securityId
          (MapOrders.vec c.m_buyOrders order.securityId ++ [OrderExpander.ofOrder order])) ++
          MapOrders.all c.m_sellOrders) (OrderExpander.ofOrder order :: c.live) :=
        (all_put_append c.m_buyOrders order.securityId _).append_right _
      rcases List.mem_cons.mp (hp.subset hx) with h | h
      · right
        rw [h]
        rfl
      · exact Or.inl ⟨x, h, rfl⟩
    · simp only [subscript_snd] at hx
      have hp : List.Perm (MapOrders.all c.m_buyOrders ++
          MapOrders.all (MapOrders.put c.m_sellOrders order.securityId
          (MapOrders.vec c.m_sellOrders order.securityId ++ [OrderExpander.ofOrder order])))
          (OrderExpander.ofOrder order :: c.live) :=
        ((all_put_append c.m_sellOrders order.securityId _).append_left _).trans
          List.perm_middle
      rcases List.mem_cons.mp (hp.subset hx) with h | h
      · right
        rw [h]
        rfl
      · exact Or.inl ⟨x, h, rfl⟩
    · exact Or.inl ⟨x, hx, rfl⟩
  | cancelOrder orderId =>
    left
    simp only [Op.run] at hx
    by_cases hid : orderId = ""
    · exact ⟨x, by simpa [cancelOrder, hid] using hx, rfl⟩
    · obtain ⟨_, _, hlive⟩ := cancelOrder_run c orderId hid hf
      rcases hlive with ⟨y, _, hperm⟩ | ⟨hb, hs, _⟩
      · exact ⟨x, hperm.symm.subset (List.mem_cons_of_mem _ hx), rfl⟩
      · refine ⟨x, ?_, rfl⟩
        unfold State.live at hx ⊢
        rwa [hb, hs] at hx
  | cancelOrdersForUser user =>
    left
    simp only [Op.run] at hx
    by_cases hu : user = ""
    · exact ⟨x, by simpa [cancelOrdersForUser, hu] using hx, rfl⟩
    · obtain ⟨_, _, hpb, hps⟩ := cancelOrdersForUser_run c user hu hf
      refine ⟨x, ?_, rfl⟩
      rcases List.mem_append.mp hx with h | h
      · exact List.mem_append_left _ (List.mem_filter.mp (hpb.subset h)).1
      · exact List.mem_append_right _ (List.mem_filter.mp (hps.subset h)).1
  | cancelOrdersForSecIdWithMinimumQty sid q =>
    left
    simp only [Op.run] at hx
    by_cases hsid : sid = ""
    · exact ⟨x, by simpa [cancelOrdersForSecIdWithMinimumQty, hsid] using hx, rfl⟩
    by_cases hq : q = 0
    · exact ⟨x, by simpa [cancelOrdersForSecIdWithMinimumQty, hsid, hq] using hx, rfl⟩
    obtain ⟨vb, vs, hrun, hpb, hps⟩ := cancelMinQty_run c sid q hsid hq hf
    rw [hrun] at hx
    refine ⟨x, ?_, rfl⟩
    rcases List.mem_append.mp hx with h | h
    · refine List.mem_append_left _ ?_
      rcases List.mem_append.mp ((all_put_perm _ _ _).subset h) with h1 | h1
      · exact vec_subset_all _ _ (List.mem_filter.mp (hpb.subset h1)).1
      · exact rest_subset_all _ _ h1
    · refine List.mem_append_right _ ?_
      rcases List.mem_append.mp ((all_put_perm _ _ _).subset h) with h1 | h1
      · exact vec_subset_all _ _ (List.mem_filter.mp (hps.subset h1)).1
      · exact rest_subset_all _ _ h1
  | getMatchingSizeForSecurity sid =>
    left
    simp only [Op.run] at hx
    by_cases hsid : sid = ""
    · exact ⟨x, by simpa [getMatchingSizeForSecurity, hsid] using hx, rfl⟩
    obtain ⟨vs1, vb1, t1, _, htr, _, _, _, _, hps, hpb⟩ := getMatching_run c sid hsid hf
    have hord := trades_orders htr
    rcases List.mem_append.mp hx with h | h
    · rcases List.mem_append.mp (hpb.subset h) with h1 | h1
      · obtain ⟨o1, ho1, he⟩ := mem_of_order_subperm hord.2 h1
        exact ⟨o1, List.mem_append_left _ (vec_subset_all _ _ ho1), he⟩
      · exact ⟨x, List.mem_append_left _ (rest_subset_all _ _ h1), rfl⟩
    · rcases List.mem_append.mp (hps.subset h) with h1 | h1
      · obtain ⟨o1, ho1, he⟩ := mem_of_order_subperm hord.1 h1
        exact ⟨o1, List.mem_append_right _ (vec_subset_all _ _ ho1), he⟩
      · exact ⟨x, List.mem_append_right _ (rest_subset_all _ _ h1), rfl⟩
  | getAllOrders => exact Or.inl ⟨x, hx, rfl⟩

theorem trace_live_orders {c d : State} {ops : List Op} (h : Trace c ops d) (hf : Fits c) :
    ∀ x ∈ d.live, (∃ x0 ∈ c.live, x0.order = x.order) ∨ Op.addOrder x.order ∈ ops := by
  induction h with
  | nil => intro x hx; exact Or.inl ⟨x, hx, rfl⟩
  | snoc d ops op htr hfit ih =>
    intro x hx
    have hfd : Fits d := by
      cases htr with
      | nil => exact hf
      | snoc _ _ _ _ hfit1 => exact hfit1
    rcases op_live_orders d op hfd x hx with ⟨x0, hx0, he⟩ | hop
    · rcases ih x0 hx0 with ⟨x1, hx1, he1⟩ | hmem
      · exact Or.inl ⟨x1, hx1, he1.trans he⟩
      · right
        rw [← he]
        exact List.mem_append_left _ hmem
    · right
      rw [hop]
      exact List.mem_append_right _ (List.mem_singleton_self _)

/-- C18: in every book reached from the empty cache by the calls `ops`,
`getAllOrders` returns the `Order` of every live element of both maps, each
element once (so its length is the number of live orders, and no identifier
occurs twice), and each returned order is, field by field, an order that was
given to `addOrder`; in particular the quantity reported is the original
`qty`, whatever `currentQty` the element has after partial matching. -/
theorem C18_getAllOrders_lists_live (c : State) (ops : List Op)
    (htr : Trace State.empty ops c) :
    getAllOrders c = c.live.map OrderExpander.order ∧
    (getAllOrders c).length = c.live.length ∧
    ((getAllOrders c).map Order.orderId).Nodup ∧
    (∀ o ∈ getAllOrders c, Op.addOrder o ∈ ops) ∧
    (∀ x ∈ c.live, x.order ∈ getAllOrders c ∧ x.order.qty ≠ 0 ∧ 0 < x.currentQty) := by
  have hall : getAllOrders c = c.live.map OrderExpander.order := by
    simp [getAllOrders, State.live]
  obtain ⟨hinv, _⟩ := reachable_inv_fits ⟨ops, htr⟩
  have hpl := reachable_placed ⟨ops, htr⟩
  refine ⟨hall, by rw [hall, List.length_map], ?_, ?_, ?_⟩
  · rw [hall, ← idsOf_eq]
    exact hinv.1
  · intro o ho
    rw [hall] at ho
    obtain ⟨x, hx, hxo⟩ := List.mem_map.mp ho
    rcases trace_live_orders htr empty_fits x hx with ⟨x0, hx0, _⟩ | h
    · simp [State.empty, State.live, MapOrders.all] at hx0
    · rw [← hxo]; exact h
  · intro x hx
    refine ⟨by rw [hall]; exact List.mem_map_of_mem _ hx, ?_, hinv.2.2 x hx⟩
    rcases List.mem_append.mp hx with h1 | h1
    · simp only [MapOrders.all, List.mem_flatMap] at h1
      obtain ⟨p, hp, hxp⟩ := h1
      exact (hpl.1.2 p hp x hxp).2.2.2.2.2
    · simp only [MapOrders.all, List.mem_flatMap] at h1
      obtain ⟨p, hp, hxp⟩ := h1
      exact (hpl.2.2 p hp x hxp).2.2.2.2.2

/-! ### The id-set and the live identifiers -/

theorem countP_le_one_of_nodup (v : Vec) (X : String) (h : (idsOf v).Nodup) :
    v.countP (fun o => decide (o.order.orderId = X)) ≤ 1 := by
  induction v with
  | nil => simp
  | cons x l ih =>
    have hn : x.order.orderId ∉ idsOf l ∧ (idsOf l).Nodup := by
      simp only [idsOf, List.map_cons] at h
      exact List.nodup_cons.mp h
    by_cases hx : x.order.orderId = X
    · have h0 : l.countP (fun o => decide (o.order.orderId = X)) = 0 := by
        rw [List.countP_eq_zero]
        intro o ho hd
        apply hn.1
        rw [hx]
        exact mem_idsOf.mpr ⟨o, ho, by simpa using hd⟩
      rw [List.countP_cons_of_pos _ _ (by simp [hx]), h0]
    · rw [List.countP_cons_of_neg _ _ (by simp [hx])]
      exact ih hn.2

theorem countP_pos_of_mem_ids (v : Vec) (X : String) (h : X ∈ idsOf v) :
    0 < v.countP (fun o => decide (o.order.orderId = X)) := by
  obtain ⟨x, hx, hxe⟩ := mem_idsOf.mp h
  exact List.countP_pos_iff.mpr ⟨x, hx, by simp [hxe]⟩

/-- C20 (amended): in every reachable book, no identifier is carried by more
than one live order, counting both maps, and every identifier carried by a
live order is in the id-set and is carried by exactly one live order in
exactly one of the two maps. -/
theorem C20_live_ids_in_set_once (c : State) (hr : Reachable c) (X : String) :
    (MapOrders.all c.m_buyOrders).countP (fun o => decide (o.order.orderId = X)) +
      (MapOrders.all c.m_sellOrders).countP (fun o => decide (o.order.orderId = X)) ≤ 1 ∧
    (X ∈ idsOf c.live →
      X ∈ c.m_orderIds ∧
      (MapOrders.all c.m_buyOrders).countP (fun o => decide (o.order.orderId = X)) +
        (MapOrders.all c.m_sellOrders).countP (fun o => decide (o.order.orderId = X)) = 1) := by
  obtain ⟨hinv, _⟩ := reachable_inv_fits hr
  have hle := countP_le_one_of_nodup c.live X hinv.1
  unfold State.live at hle
  rw [List.countP_append] at hle
  refine ⟨hle, ?_⟩
  intro hlive
  have hpos := countP_pos_of_mem_ids c.live X hlive
  unfold State.live at hpos
  rw [List.countP_append] at hpos
  exact ⟨live_id_mem_ids hinv hlive, by omega⟩

/-! ### Witnesses for the cancellations and the listing -/

/-- Witness for C11: the replacement order of the test
`EdgeCases_AddOrder_ReplaceExistingOrderThrowsException` against the book `onePair`. -/
theorem C11_witness :
    Reachable (runOps State.empty onePair) ∧
    "OrdId1" ∈ idsOf (runOps State.empty onePair).live ∧
    Order.filled ⟨"OrdId1", "SecId2", "Sell", 1000, "User2", "Company2"⟩ ∧
    addOrder (runOps State.empty onePair)
        ⟨"OrdId1", "SecId2", "Sell", 1000, "User2", "Company2"⟩ =
      (.runtime_error "Error: order ID have already exist!", runOps State.empty onePair) :=
  ⟨reachable_of_run onePair (by decide), by decide, by decide,
    (C11_duplicate_id_rejected (runOps State.empty onePair)
      (reachable_of_run onePair (by decide)) "OrdId1" (by decide)
      ⟨"OrdId1", "SecId2", "Sell", 1000, "User2", "Company2"⟩ rfl (by decide)).1⟩

/-- Witness for C12: cancelling the buy `OrdId4` in the book of README example 1. -/
theorem C12_witness :
    Reachable (runOps State.empty readme1) ∧
    "OrdId4" ∈ idsOf (runOps State.empty readme1).live ∧
    (cancelOrder (runOps State.empty readme1) "OrdId4").1 = .ret () ∧
    "OrdId4" ∉ (cancelOrder (runOps State.empty readme1) "OrdId4").2.m_orderIds ∧
    "OrdId4" ∉ idsOf (cancelOrder (runOps State.empty readme1) "OrdId4").2.live :=
  ⟨reachable_of_run readme1 (by decide), by decide,
    (C12_cancelOrder_removes_exactly (runOps State.empty readme1)
      (reachable_of_run readme1 (by decide)) "OrdId4" (by decide)).1,
    (C12_cancelOrder_removes_exactly (runOps State.empty readme1)
      (reachable_of_run readme1 (by decide)) "OrdId4" (by decide)).2.1,
    (C12_cancelOrder_removes_exactly (runOps State.empty readme1)
      (reachable_of_run readme1 (by decide)) "OrdId4" (by decide)).2.2.1⟩

/-- Witness for C13: the partially matched sell `OrdId2` of `readme1Matched`
is cancelled and its identifier reused for a buy of another security. -/
theorem C13_witness :
    Reachable (runOps State.empty readme1Matched) ∧
    "OrdId2" ∈ idsOf (runOps State.empty readme1Matched).live ∧
    Order.valid ⟨"OrdId2", "SecId9", "Buy", 700, "User2", "Company2"⟩ ∧
    (addOrder (cancelOrder (runOps State.empty readme1Matched) "OrdId2").2
      ⟨"OrdId2", "SecId9", "Buy", 700, "User2", "Company2"⟩).2.live.filter
        (fun x => decide (x.order.orderId = "OrdId2")) =
      [{ order := ⟨"OrdId2", "SecId9", "Buy", 700, "User2", "Company2"⟩, currentQty := 700 }] :=
  ⟨reachable_of_run readme1Matched (by decide), by decide, by decide,
    (C13_cancel_then_add_replaces (runOps State.empty readme1Matched)
      (reachable_of_run readme1Matched (by decide)) "OrdId2" (by decide)
      ⟨"OrdId2", "SecId9", "Buy", 700, "User2", "Company2"⟩ rfl (by decide)).2.2.1⟩

/-- Witness for C14: the identifier `OrdId9` was never added to the book `onePair`. -/
theorem C14_witness :
    Reachable (runOps State.empty onePair) ∧ "OrdId9" ≠ "" ∧
    "OrdId9" ∉ idsOf (runOps State.empty onePair).live ∧
    (cancelOrder (runOps State.empty onePair) "OrdId9").1 = .ret () ∧
    getAllOrders (cancelOrder (runOps State.empty onePair) "OrdId9").2 =
      getAllOrders (runOps State.empty onePair) :=
  ⟨reachable_of_run onePair (by decide), by decide, by decide,
    (C14_cancel_absent_is_noop (runOps State.empty onePair)
      (reachable_of_run onePair (by decide)) "OrdId9" (by decide) (by decide)).1,
    (C14_cancel_absent_is_noop (runOps State.empty onePair)
      (reachable_of_run onePair (by decide)) "OrdId9" (by decide) (by decide)).2.2.2.1⟩

/-- Witness for C15: `User1` in the book of the test `userBook`. -/
theorem C15_witness :
    Reachable (runOps State.empty userBook) ∧ "User1" ≠ "" ∧
    (cancelOrdersForUser (runOps State.empty userBook) "User1").1 = .ret () ∧
    (∀ x ∈ (cancelOrdersForUser (runOps State.empty userBook) "User1").2.live,
      x.order.user ≠ "User1") :=
  ⟨reachable_of_run userBook (by decide), by decide,
    (C15_cancelOrdersForUser_exact (runOps State.empty userBook)
      (reachable_of_run userBook (by decide)) "User1" (by decide)).1,
    (C15_cancelOrdersForUser_exact (runOps State.empty userBook)
      (reachable_of_run userBook (by decide)) "User1" (by decide)).2.1⟩

/-- Witness for C16: `SecId1` with threshold 500 in the book of the test `minQtyBook`. -/
theorem C16_witness :
    Reachable (runOps State.empty minQtyBook) ∧ "SecId1" ≠ "" ∧ 0 < 500 ∧
    (cancelOrdersForSecIdWithMinimumQty (runOps State.empty minQtyBook) "SecId1" 500).1 =
      .ret () ∧
    List.Perm
      (cancelOrdersForSecIdWithMinimumQty (runOps State.empty minQtyBook) "SecId1" 500).2.live
      ((runOps State.empty minQtyBook).live.filter
        (fun o => !(decide (o.order.securityId = "SecId1") && decide (500 ≤ o.order.qty)))) :=
  ⟨reachable_of_run minQtyBook (by decide), by decide, by decide,
    (C16_cancelMinQty_exact (runOps State.empty minQtyBook)
      (reachable_of_run minQtyBook (by decide)) "SecId1" (by decide) 500 (by decide)).1,
    (C16_cancelMinQty_exact (runOps State.empty minQtyBook)
      (reachable_of_run minQtyBook (by decide)) "SecId1" (by decide) 500
      (by decide)).2.2.2.2.1⟩

/-- Witness for C18: after the matching call of `readme1Matched` five orders
are live and every one returned was given to `addOrder`. -/
theorem C18_witness :
    Trace State.empty readme1Matched (runOps State.empty readme1Matched) ∧
    (getAllOrders (runOps State.empty readme1Matched)).length =
      (runOps State.empty readme1Matched).live.length ∧
    (∀ o ∈ getAllOrders (runOps State.empty readme1Matched), Op.addOrder o ∈ readme1Matched) :=
  ⟨trace_of_run readme1Matched State.empty (by decide),
    (C18_getAllOrders_lists_live (runOps State.empty readme1Matched) readme1Matched
      (trace_of_run readme1Matched State.empty (by decide))).2.1,
    (C18_getAllOrders_lists_live (runOps State.empty readme1Matched) readme1Matched
      (trace_of_run readme1Matched State.empty (by decide))).2.2.2.1⟩

/-- C20 (counterexample): after the matching call on the book `onePair` the
identifier `OrdId1` is in the id-set of a reachable book although no live
order, in either map, carries it. -/
theorem C20_counterexample :
    Reachable (runOps State.empty (onePair ++ [.getMatchingSizeForSecurity "SecId1"])) ∧
    "OrdId1" ∈ (runOps State.empty
      (onePair ++ [.getMatchingSizeForSecurity "SecId1"])).m_orderIds ∧
    (MapOrders.all (runOps State.empty
      (onePair ++ [.getMatchingSizeForSecurity "SecId1"])).m_buyOrders).countP
        (fun o => decide (o.order.orderId = "OrdId1")) +
      (MapOrders.all (runOps State.empty
        (onePair ++ [.getMatchingSizeForSecurity "SecId1"])).m_sellOrders).countP
          (fun o => decide (o.order.orderId = "OrdId1")) = 0 ∧
    ¬ ("OrdId1" ∈ (runOps State.empty
        (onePair ++ [.getMatchingSizeForSecurity "SecId1"])).m_orderIds ↔
      (MapOrders.all (runOps State.empty
        (onePair ++ [.getMatchingSizeForSecurity "SecId1"])).m_buyOrders).countP
          (fun o => decide (o.order.orderId = "OrdId1")) +
        (MapOrders.all (runOps State.empty
          (onePair ++ [.getMatchingSizeForSecurity "SecId1"])).m_sellOrders).countP
            (fun o => decide (o.order.orderId = "OrdId1")) = 1) :=
  ⟨reachable_of_run _ (by decide), by decide, by decide, by decide⟩

/-- Witness for C20 (amended): the identifier `OrdId2` in the book `readme1Matched`. -/
theorem C20_witness :
    Reachable (runOps State.empty readme1Matched) ∧
    "OrdId2" ∈ idsOf (runOps State.empty readme1Matched).live ∧
    "OrdId2" ∈ (runOps State.empty readme1Matched).m_orderIds ∧
    (MapOrders.all (runOps State.empty readme1Matched).m_buyOrders).countP
        (fun o => decide (o.order.orderId = "OrdId2")) +
      (MapOrders.all (runOps State.empty readme1Matched).m_sellOrders).countP
        (fun o => decide (o.order.orderId = "OrdId2")) = 1 :=
  ⟨reachable_of_run readme1Matched (by decide), by decide,
    ((C20_live_ids_in_set_once (runOps State.empty readme1Matched)
      (reachable_of_run readme1Matched (by decide)) "OrdId2").2 (by decide)).1,
    ((C20_live_ids_in_set_once (runOps State.empty readme1Matched)
      (reachable_of_run readme1Matched (by decide)) "OrdId2").2 (by decide)).2⟩

/-! # Quantities, the reference pass and idempotence (claims C21 to C30) -/

/-! ### The loops and the reference pass -/

theorem set_getElem?_self (v : Vec) (i : Nat) (x : OrderExpander) (h : v[i]? = some x) :
    v.set i x = v := by
  induction v generalizing i with
  | nil => rfl
  | cons a l ih =>
    cases i with
    | zero =>
      simp only [List.getElem?_cons_zero, Option.some.injEq] at h
      simp [h]
    | succ n =>
      simp only [List.getElem?_cons_succ] at h
      simp [ih n h]

theorem refScan_exit (remove : Vec → Nat → Vec) (left : Nat) (s : OrderExpander) (vb : Vec)
    (j t : Nat) (h : vb.length ≤ j) : refScan remove left s vb j t = (some s, vb, t) := by
  cases left with
  | zero => rfl
  | succ n =>
    unfold refScan
    rw [List.getElem?_eq_none h]

theorem refSells_exit (remove : Vec → Nat → Vec) (left : Nat) (vs : Vec) (i : Nat) (vb : Vec)
    (t : Nat) (h : vs.length ≤ i) : refSells remove left vs i vb t = (vs, vb, t) := by
  cases left with
  | zero => rfl
  | succ n =>
    unfold refSells
    rw [List.getElem?_eq_none h]

theorem total_step (t T a : Nat) (h : t = T % UINT_MOD) :
    (t + a) % UINT_MOD = (T + a) % UINT_MOD := by
  rw [h, Nat.add_mod, Nat.mod_mod, ← Nat.add_mod]

/-- The inner loop computes the reference scan with the `swapPop` removal. -/
theorem matchBuys_ref (fuel : Nat) : ∀ (left : Nat) (vs vb : Vec) (i j t T : Nat)
    (s : OrderExpander),
    vs.length < SIZE_MOD → vb.length < SIZE_MOD → vs[i]? = some s →
    vb.length - j < fuel → vb.length - j ≤ left → t = T % UINT_MOD →
    ∃ st1, matchBuys fuel ⟨vs, vb, i, t⟩ j = .ok st1 ∧
      st1.vecBuy = (refScan swapPop left s vb j T).2.1 ∧
      st1.totalQty = (refScan swapPop left s vb j T).2.2 % UINT_MOD ∧
      (∀ s1, (refScan swapPop left s vb j T).1 = some s1 →
        st1.vecSell = vs.set i s1 ∧ st1.i = i) ∧
      ((refScan swapPop left s vb j T).1 = none →
        st1.vecSell = swapPop vs i ∧
        (st1.i + 1) % SIZE_MOD = (if i + 1 < vs.length then i else i + 1)) := by
  induction fuel with
  | zero => intro left vs vb i j t T s _ _ _ h; omega
  | succ fuel ih =>
    intro left vs vb i j t T s hvs hvb hs1 hfuel hleft ht
    have hi : i < vs.length := getElem?_lt hs1
    unfold matchBuys
    by_cases hj : j < vb.length
    · simp only [hj, if_true]
      cases left with
      | zero => omega
      | succ left =>
        obtain ⟨b, hb1⟩ : ∃ b, vb[j]? = some b := ⟨vb[j], List.getElem?_eq_getElem hj⟩
        unfold refScan
        simp only [hs1, hb1]
        by_cases hc : s.order.company = b.order.company
        · simp only [hc, if_true]
          rw [size_succ_mod j _ hj hvb]
          exact ih left vs vb i (j + 1) t T s hvs hvb hs1 (by omega) (by omega) ht
        · simp only [hc, if_false]
          obtain ⟨j1, hej, hj1⟩ := erase_next vb j hj hvb
          by_cases hge : s.currentQty ≥ b.currentQty
          · simp only [hge, if_true, hej]
            by_cases hz : s.currentQty - b.currentQty = 0
            · simp only [hz, if_true]
              obtain ⟨i1, hei, hi1⟩ := erase_next (vs.set i { s with currentQty := 0 }) i
                (by simpa using hi) (by simpa using hvs)
              rw [swapPop_set] at hei
              simp only [hei]
              refine ⟨_, rfl, rfl, total_step t T _ ht, ?_, ?_⟩
              · intro s1 h; cases h
              · intro _
                refine ⟨rfl, ?_⟩
                simpa using hi1
            · simp only [hz, if_false]
              have hjj : refScan swapPop left { s with currentQty := s.currentQty - b.currentQty }
                  (swapPop vb j) j (T + b.currentQty) =
                  refScan swapPop left { s with currentQty := s.currentQty - b.currentQty }
                  (swapPop vb j) ((j1 + 1) % SIZE_MOD) (T + b.currentQty) := by
                rw [hj1]
                by_cases h : j + 1 < vb.length
                · simp only [h, if_true]
                · simp only [h, if_false]
                  rw [refScan_exit _ _ _ _ j _ (by rw [swapPop_length]; omega),
                    refScan_exit _ _ _ _ (j + 1) _ (by rw [swapPop_length]; omega)]
              rw [hjj]
              obtain ⟨st1, hrun, h1, h2, h3, h4⟩ := ih left
                (vs.set i { s with currentQty := s.currentQty - b.currentQty }) (swapPop vb j) i
                ((j1 + 1) % SIZE_MOD) ((t + b.currentQty) % UINT_MOD) (T + b.currentQty)
                { s with currentQty := s.currentQty - b.currentQty }
                (by simpa using hvs) (by simp only [swapPop_length]; omega)
                (by rw [List.getElem?_set_self hi])
                (by simp only [swapPop_length, hj1]; split <;> omega)
                (by simp only [swapPop_length, hj1]; split <;> omega)
                (total_step t T _ ht)
              refine ⟨st1, hrun, h1, h2, ?_, ?_⟩
              · intro s1 hs
                have := h3 s1 hs
                rw [List.set_set] at this
                exact this
              · intro hn
                have := h4 hn
                rw [swapPop_set, List.length_set] at this
                exact this
          · simp only [hge, if_false]
            obtain ⟨i1, hei, hi1⟩ := erase_next vs i hi hvs
            simp only [hei]
            refine ⟨_, rfl, rfl, total_step t T _ ht, ?_, ?_⟩
            · intro s1 h; cases h
            · intro _
              exact ⟨rfl, hi1⟩
    · simp only [hj, if_false]
      rw [refScan_exit _ _ _ _ _ _ (by omega)]
      refine ⟨_, rfl, rfl, ht, ?_, ?_⟩
      · intro s1 h
        simp only [Option.some.injEq] at h
        subst h
        exact ⟨(set_getElem?_self vs i s hs1).symm, rfl⟩
      · intro h; cases h

/-- The outer loop computes the reference pass with the `swapPop` removal. -/
theorem matchSells_ref (sid : String) (fuel : Nat) : ∀ (left : Nat) (vs : Vec) (buys : MapOrders)
    (i t T : Nat),
    vs.length < SIZE_MOD → (MapOrders.vec buys sid).length < SIZE_MOD →
    vs.length - i < fuel → vs.length - i ≤ left → t = T % UINT_MOD →
    ∃ vs1 buys1 t1, matchSells fuel sid vs buys i t = .ok (vs1, buys1, t1) ∧
      vs1 = (refSells swapPop left vs i (MapOrders.vec buys sid) T).1 ∧
      MapOrders.vec buys1 sid = (refSells swapPop left vs i (MapOrders.vec buys sid) T).2.1 ∧
      t1 = (refSells swapPop left vs i (MapOrders.vec buys sid) T).2.2 % UINT_MOD := by
  induction fuel with
  | zero => intro left vs buys i t T _ _ h; omega
  | succ fuel ih =>
    intro left vs buys i t T hvs hvb hfuel hleft ht
    unfold matchSells
    by_cases hi : i < vs.length
    · simp only [hi, if_true, subscript_snd]
      cases left with
      | zero => omega
      | succ left =>
        obtain ⟨s, hs1⟩ : ∃ s, vs[i]? = some s := ⟨vs[i], List.getElem?_eq_getElem hi⟩
        obtain ⟨st1, hrun, h1, h2, h3, h4⟩ := matchBuys_ref ((MapOrders.vec buys sid).length + 1)
          (MapOrders.vec buys sid).length vs (MapOrders.vec buys sid) i 0 t T s hvs hvb hs1
          (by simp) (by simp) ht
        obtain ⟨st2, hrun2, htr, _⟩ := matchBuys_spec ((MapOrders.vec buys sid).length + 1)
          ⟨vs, MapOrders.vec buys sid, i, t⟩ 0 hvs hvb hi (by simp)
        have hst : st2 = st1 := by
          rw [hrun] at hrun2
          exact (Except.ok.inj hrun2).symm
        subst hst
        have hl := trades_length_le htr
        simp only at hl
        simp only [hrun]
        have hput : MapOrders.assign (MapOrders.subscript buys sid).1 sid st2.vecBuy =
            MapOrders.put buys sid st2.vecBuy := rfl
        rw [hput]
        unfold refSells
        simp only [hs1]
        generalize hR : refScan swapPop (MapOrders.vec buys sid).length s (MapOrders.vec buys sid)
          0 T = R at h1 h2 h3 h4
        obtain ⟨r, vb1, T1⟩ := R
        simp only at h1 h2 h3 h4
        cases r with
        | some s1 =>
          obtain ⟨h5, h6⟩ := h3 s1 rfl
          simp only
          rw [h6, size_succ_mod i _ hi hvs, h5, h1]
          have := ih left (vs.set i s1) (MapOrders.put buys sid vb1) (i + 1) st2.totalQty T1
            (by simpa using hvs) (by rw [vec_put_same, ← h1]; omega)
            (by simp only [List.length_set]; omega) (by simp only [List.length_set]; omega) h2
          rw [vec_put_same] at this
          exact this
        | none =>
          obtain ⟨h5, h6⟩ := h4 rfl
          simp only
          rw [h6, h5, h1]
          have hii : refSells swapPop left (swapPop vs i) i vb1 T1 =
              refSells swapPop left (swapPop vs i) (if i + 1 < vs.length then i else i + 1)
                vb1 T1 := by
            by_cases h : i + 1 < vs.length
            · simp only [h, if_true]
            · simp only [h, if_false]
              rw [refSells_exit _ _ _ i _ _ (by rw [swapPop_length]; omega),
                refSells_exit _ _ _ (i + 1) _ _ (by rw [swapPop_length]; omega)]
          rw [hii]
          have := ih left (swapPop vs i) (MapOrders.put buys sid vb1)
            (if i + 1 < vs.length then i else i + 1) st2.totalQty T1
            (by rw [swapPop_length]; omega) (by rw [vec_put_same, ← h1]; omega)
            (by rw [swapPop_length]; split <;> omega)
            (by rw [swapPop_length]; split <;> omega) h2
          rw [vec_put_same] at this
          exact this
    · simp only [hi, if_false]
      rw [refSells_exit _ _ _ _ _ _ (by omega)]
      exact ⟨vs, buys, t, rfl, rfl, rfl, ht⟩

/-- On a book whose two vectors of the security fit, `getMatchingSizeForSecurity` returns the
total of the reference pass with the `swapPop` removal, reduced to 32 bits, and leaves the two
sequences the reference pass leaves. -/
theorem getMatching_ref (c : State) (sid : String) (hsid : sid ≠ "")
    (hs : (MapOrders.vec c.m_sellOrders sid).length < SIZE_MOD)
    (hb : (MapOrders.vec c.m_buyOrders sid).length < SIZE_MOD) :
    (getMatchingSizeForSecurity c sid).1 =
      .ret ((refMatch swapPop (MapOrders.vec c.m_sellOrders sid)
        (MapOrders.vec c.m_buyOrders sid)).2.2 % UINT_MOD) ∧
    MapOrders.vec (getMatchingSizeForSecurity c sid).2.m_sellOrders sid =
      (refMatch swapPop (MapOrders.vec c.m_sellOrders sid)
        (MapOrders.vec c.m_buyOrders sid)).1 ∧
    MapOrders.vec (getMatchingSizeForSecurity c sid).2.m_buyOrders sid =
      (refMatch swapPop (MapOrders.vec c.m_sellOrders sid)
        (MapOrders.vec c.m_buyOrders sid)).2.1 := by
  obtain ⟨vs1, buys1, t1, hrun, h1, h2, h3⟩ := matchSells_ref sid
    ((MapOrders.vec c.m_sellOrders sid).length + 1) (MapOrders.vec c.m_sellOrders sid).length
    (MapOrders.vec c.m_sellOrders sid) c.m_buyOrders 0 0 0 hs hb (by simp) (by simp) rfl
  unfold getMatchingSizeForSecurity
  simp only [hsid, if_false, subscript_snd, hrun]
  refine ⟨?_, ?_, ?_⟩
  · rw [h3]; rfl
  · show MapOrders.vec (MapOrders.put c.m_sellOrders sid vs1) sid = _
    rw [vec_put_same, h1]; rfl
  · exact h2

/-! ### The reference pass leaves no pair that could trade -/

theorem mem_getElem? {v : Vec} {x : OrderExpander} (h : x ∈ v) : ∃ k, k < v.length ∧ v[k]? = some x := by
  obtain ⟨k, hk, hx⟩ := List.getElem_of_mem h
  exact ⟨k, hk, by rw [List.getElem?_eq_getElem hk, hx]⟩

theorem refScan_orders (left : Nat) : ∀ (s : OrderExpander) (vb : Vec) (j T : Nat),
    (∀ s1, (refScan swapPop left s vb j T).1 = some s1 → s1.order = s.order) ∧
    ∀ b1 ∈ (refScan swapPop left s vb j T).2.1, ∃ b ∈ vb, b.order = b1.order := by
  induction left with
  | zero =>
    intro s vb j T
    refine ⟨?_, ?_⟩
    · intro s1 h
      simp only [refScan, Option.some.injEq] at h
      rw [← h]
    · intro b1 h
      exact ⟨b1, h, rfl⟩
  | succ left ih =>
    intro s vb j T
    unfold refScan
    cases hb : vb[j]? with
    | none =>
      simp only
      refine ⟨?_, ?_⟩
      · intro s1 h
        simp only [Option.some.injEq] at h
        rw [← h]
      · intro b1 h
        exact ⟨b1, h, rfl⟩
    | some b =>
      simp only
      have hj := getElem?_lt hb
      by_cases hc : s.order.company = b.order.company
      · rw [if_pos hc]
        exact ih s vb (j + 1) T
      · rw [if_neg hc]
        by_cases hge : s.currentQty ≥ b.currentQty
        · rw [if_pos hge]
          by_cases hz : s.currentQty - b.currentQty = 0
          · rw [if_pos hz]
            refine ⟨fun s1 h => (by cases h), ?_⟩
            intro b1 h
            exact ⟨b1, (swapPop_subperm vb j hj).subset h, rfl⟩
          · rw [if_neg hz]
            obtain ⟨h1, h2⟩ := ih { s with currentQty := s.currentQty - b.currentQty }
              (swapPop vb j) j (T + b.currentQty)
            refine ⟨fun s1 h => h1 s1 h, ?_⟩
            intro b1 h
            obtain ⟨b0, hb0, hbo⟩ := h2 b1 h
            exact ⟨b0, (swapPop_subperm vb j hj).subset hb0, hbo⟩
        · rw [if_neg hge]
          refine ⟨fun s1 h => (by cases h), ?_⟩
          intro b1 h
          rcases List.mem_or_eq_of_mem_set h with h1 | h1
          · exact ⟨b1, h1, rfl⟩
          · exact ⟨b, List.getElem?_mem hb, by rw [h1]⟩

/-- A sell order that survives its scan has the company of every buy order left. -/
theorem refScan_done (left : Nat) : ∀ (s : OrderExpander) (vb : Vec) (j T : Nat),
    vb.length - j ≤ left →
    (∀ k b, k < j → vb[k]? = some b → s.order.company = b.order.company) →
    ∀ s1, (refScan swapPop left s vb j T).1 = some s1 →
      ∀ b ∈ (refScan swapPop left s vb j T).2.1, s.order.company = b.order.company := by
  induction left with
  | zero =>
    intro s vb j T hl hinv s1 _ b hb
    simp only [refScan] at hb
    obtain ⟨k, hk, hx⟩ := mem_getElem? hb
    exact hinv k b (by omega) hx
  | succ left ih =>
    intro s vb j T hl hinv s1
    unfold refScan
    cases hb : vb[j]? with
    | none =>
      simp only
      intro _ b hb1
      obtain ⟨k, hk, hx⟩ := mem_getElem? hb1
      have hjl : vb.length ≤ j := by
        rcases Nat.lt_or_ge j vb.length with h | h
        · rw [List.getElem?_eq_getElem h] at hb; cases hb
        · exact h
      exact hinv k b (by omega) hx
    | some b =>
      simp only
      have hj := getElem?_lt hb
      by_cases hc : s.order.company = b.order.company
      · rw [if_pos hc]
        refine ih s vb (j + 1) T (by omega) ?_ s1
        intro k b0 hk hb0
        rcases Nat.lt_or_ge k j with h | h
        · exact hinv k b0 h hb0
        · have hkj : k = j := by omega
          subst hkj
          rw [hb] at hb0
          cases hb0
          exact hc
      · rw [if_neg hc]
        by_cases hge : s.currentQty ≥ b.currentQty
        · rw [if_pos hge]
          by_cases hz : s.currentQty - b.currentQty = 0
          · rw [if_pos hz]
            intro h; cases h
          · rw [if_neg hz]
            refine ih { s with currentQty := s.currentQty - b.currentQty } (swapPop vb j) j
              (T + b.currentQty) (by rw [swapPop_length]; omega) ?_ s1
            intro k b0 hk hb0
            exact hinv k b0 hk (swapPop_getElem?_lt vb j k b0 hk hb0)
        · rw [if_neg hge]
          intro h; cases h

theorem refSells_orders (left : Nat) : ∀ (vs : Vec) (i : Nat) (vb : Vec) (T : Nat),
    ∀ b1 ∈ (refSells swapPop left vs i vb T).2.1, ∃ b ∈ vb, b.order = b1.order := by
  induction left with
  | zero =>
    intro vs i vb T b1 h
    exact ⟨b1, h, rfl⟩
  | succ left ih =>
    intro vs i vb T
    unfold refSells
    cases hs : vs[i]? with
    | none =>
      intro b1 h
      exact ⟨b1, h, rfl⟩
    | some s =>
      simp only
      have h2 := (refScan_orders vb.length s vb 0 T).2
      generalize refScan swapPop vb.length s vb 0 T = R at h2
      obtain ⟨r, vb1, T1⟩ := R
      simp only at h2
      cases r with
      | some s1 =>
        simp only
        intro b1 h
        obtain ⟨b0, hb0, hbo⟩ := ih _ _ _ _ b1 h
        obtain ⟨b2, hb2, hbo2⟩ := h2 b0 hb0
        exact ⟨b2, hb2, hbo2.trans hbo⟩
      | none =>
        simp only
        intro b1 h
        obtain ⟨b0, hb0, hbo⟩ := ih _ _ _ _ b1 h
        obtain ⟨b2, hb2, hbo2⟩ := h2 b0 hb0
        exact ⟨b2, hb2, hbo2.trans hbo⟩

/-- After the reference pass every sell order left has the company of every buy order left. -/
theorem refSells_done (left : Nat) : ∀ (vs : Vec) (i : Nat) (vb : Vec) (T : Nat),
    vs.length - i ≤ left →
    (∀ k x, k < i → vs[k]? = some x → ∀ b ∈ vb, x.order.company = b.order.company) →
    ∀ x ∈ (refSells swapPop left vs i vb T).1, ∀ b ∈ (refSells swapPop left vs i vb T).2.1,
      x.order.company = b.order.company := by
  induction left with
  | zero =>
    intro vs i vb T hl hinv x hx b hb
    simp only [refSells] at hx hb
    obtain ⟨k, hk, hxk⟩ := mem_getElem? hx
    exact hinv k x (by omega) hxk b hb
  | succ left ih =>
    intro vs i vb T hl hinv
    unfold refSells
    cases hs : vs[i]? with
    | none =>
      simp only
      intro x hx b hb
      obtain ⟨k, hk, hxk⟩ := mem_getElem? hx
      have hil : vs.length ≤ i := by
        rcases Nat.lt_or_ge i vs.length with h | h
        · rw [List.getElem?_eq_getElem h] at hs; cases hs
        · exact h
      exact hinv k x (by omega) hxk b hb
    | some s =>
      simp only
      have hi := getElem?_lt hs
      have h1 := (refScan_orders vb.length s vb 0 T).1
      have h2 := (refScan_orders vb.length s vb 0 T).2
      have h3 := refScan_done vb.length s vb 0 T (by omega) (fun k b hk _ => by omega)
      generalize refScan swapPop vb.length s vb 0 T = R at h1 h2 h3
      obtain ⟨r, vb1, T1⟩ := R
      simp only at h1 h2 h3
      cases r with
      | some s1 =>
        simp only
        refine ih (vs.set i s1) (i + 1) vb1 T1 (by simp only [List.length_set]; omega) ?_
        intro k x hk hx b hb
        rcases Nat.lt_or_ge k i with h | h
        · rw [List.getElem?_set_ne (by omega)] at hx
          obtain ⟨b0, hb0, hbo⟩ := h2 b hb
          rw [← hbo]
          exact hinv k x h hx b0 hb0
        · have hki : k = i := by omega
          subst hki
          rw [List.getElem?_set_self hi] at hx
          cases hx
          rw [h1 s1 rfl]
          exact h3 s1 rfl b hb
      | none =>
        simp only
        refine ih (swapPop vs i) i vb1 T1 (by rw [swapPop_length]; omega) ?_
        intro k x hk hx b hb
        obtain ⟨b0, hb0, hbo⟩ := h2 b hb
        rw [← hbo]
        exact hinv k x hk (swapPop_getElem?_lt vs i k x hk hx) b0 hb0

/-- After `getMatchingSizeForSecurity` no sell order and buy order of the security could still
trade: every sell order left has the company of every buy order left. -/
theorem getMatching_done (c : State) (sid : String) (hsid : sid ≠ "")
    (hs : (MapOrders.vec c.m_sellOrders sid).length < SIZE_MOD)
    (hb : (MapOrders.vec c.m_buyOrders sid).length < SIZE_MOD) :
    ∀ x ∈ MapOrders.vec (getMatchingSizeForSecurity c sid).2.m_sellOrders sid,
    ∀ b ∈ MapOrders.vec (getMatchingSizeForSecurity c sid).2.m_buyOrders sid,
      x.order.company = b.order.company := by
  obtain ⟨_, h1, h2⟩ := getMatching_ref c sid hsid hs hb
  rw [h1, h2]
  exact refSells_done _ _ 0 _ 0 (by simp) (fun k x hk _ => by omega)

/-! ### Sums of remaining quantities along a run of trades -/

theorem qtyWhere_perm (p : OrderExpander → Bool) {v w : Vec} (h : List.Perm v w) :
    qtyWhere p v = qtyWhere p w := by
  unfold qtyWhere
  exact ((h.filter _).map _).sum_eq

theorem qtyWhere_cons (p : OrderExpander → Bool) (x : OrderExpander) (v : Vec) :
    qtyWhere p (x :: v) = (if p x then x.currentQty else 0) + qtyWhere p v := by
  unfold qtyWhere
  by_cases h : p x
  · simp [List.filter_cons, h]
  · simp [List.filter_cons, h]

theorem qtyWhere_true (v : Vec) : qtyWhere (fun _ => true) v = totalRemaining v := by
  unfold qtyWhere totalRemaining
  simp

theorem qtyWhere_eq_zero (p : OrderExpander → Bool) (v : Vec) (h : ∀ x ∈ v, p x = false) :
    qtyWhere p v = 0 := by
  unfold qtyWhere
  rw [List.filter_eq_nil_iff.mpr]
  · rfl
  · intro x hx
    simp [h x hx]

theorem totalRemaining_pos (v : Vec) (hv : ∀ o ∈ v, 0 < o.currentQty) (h : totalRemaining v = 0) :
    v = [] := by
  cases v with
  | nil => rfl
  | cons a l =>
    have := hv a (List.mem_cons_self _ _)
    simp [totalRemaining] at h
    omega

theorem settle_qtyWhere (p : OrderExpander → Bool)
    (hp : ∀ x y : OrderExpander, x.order = y.order → p x = p y)
    (v : Vec) (i : Nat) (x : OrderExpander) (a : Nat) (h : v[i]? = some x)
    (ha : a ≤ x.currentQty) :
    qtyWhere p (settle v i x a) + (if p x then a else 0) = qtyWhere p v := by
  have hi := getElem?_lt h
  rw [qtyWhere_perm p (perm_cons_eraseIdx v i x h), qtyWhere_cons]
  unfold settle
  split
  · rename_i hxa
    rw [qtyWhere_perm p (swapPop_perm v i hi)]
    split <;> omega
  · rw [qtyWhere_perm p (set_perm_cons_eraseIdx v i _ hi), qtyWhere_cons]
    have hpx : p { x with currentQty := x.currentQty - a } = p x := hp _ _ rfl
    rw [hpx]
    simp only
    split <;> omega

theorem tradeStep_sums (p q : OrderExpander → Bool)
    (hp : ∀ x y : OrderExpander, x.order = y.order → p x = p y)
    (hq : ∀ x y : OrderExpander, x.order = y.order → q x = q y)
    {x y : Vec × Vec × Nat} (h : TradeStep x y) :
    ∃ s ∈ x.1, ∃ b ∈ x.2.1, s.order.company ≠ b.order.company ∧ ∃ a,
      qtyWhere p y.1 + (if p s then a else 0) = qtyWhere p x.1 ∧
      qtyWhere q y.2.1 + (if q b then a else 0) = qtyWhere q x.2.1 ∧
      y.2.2 = (x.2.2 + a) % UINT_MOD := by
  cases h with
  | trade vs vb t i j s b hs hb hc =>
    exact ⟨s, List.getElem?_mem hs, b, List.getElem?_mem hb, hc, min s.currentQty b.currentQty,
      settle_qtyWhere p hp _ _ _ _ hs (Nat.min_le_left _ _),
      settle_qtyWhere q hq _ _ _ _ hb (Nat.min_le_right _ _), rfl⟩

/-- Along a run of trades the sums of the remaining quantities selected by `p` among the sell
orders and by `q` among the buy orders both go down by the exact total traded, provided every
pair that can trade is selected. -/
theorem trades_sums (p q : OrderExpander → Bool)
    (hp : ∀ x y : OrderExpander, x.order = y.order → p x = p y)
    (hq : ∀ x y : OrderExpander, x.order = y.order → q x = q y)
    {x y : Vec × Vec × Nat} (h : Trades x y)
    (hpq : ∀ s ∈ x.1, ∀ b ∈ x.2.1, s.order.company ≠ b.order.company → p s = true ∧ q b = true)
    (ht : x.2.2 < UINT_MOD) :
    ∃ T, qtyWhere p y.1 + T = qtyWhere p x.1 ∧ qtyWhere q y.2.1 + T = qtyWhere q x.2.1 ∧
      y.2.2 = (x.2.2 + T) % UINT_MOD := by
  induction h with
  | refl =>
    refine ⟨0, rfl, rfl, ?_⟩
    rw [Nat.add_zero, Nat.mod_eq_of_lt ht]
  | tail hxz hstep ih =>
    rename_i z y
    obtain ⟨T, h1, h2, h3⟩ := ih
    obtain ⟨s, hs, b, hb, hc, a, h4, h5, h6⟩ := tradeStep_sums p q hp hq hstep
    have ho := trades_orders hxz
    obtain ⟨s0, hs0, hso⟩ := mem_of_order_subperm ho.1 hs
    obtain ⟨b0, hb0, hbo⟩ := mem_of_order_subperm ho.2 hb
    have hc0 : s0.order.company ≠ b0.order.company := by rw [hso, hbo]; exact hc
    obtain ⟨hps, hqb⟩ := hpq s0 hs0 b0 hb0 hc0
    rw [hp s0 s hso] at hps
    rw [hq b0 b hbo] at hqb
    simp only [hps, hqb, if_true] at h4 h5
    refine ⟨T + a, by omega, by omega, ?_⟩
    rw [h6, h3, Nat.add_mod, Nat.mod_mod, ← Nat.add_mod, Nat.add_assoc]

/-- A run of trades never raises a remaining quantity and never changes the order it belongs to. -/
theorem settle_qty_le (v : Vec) (i : Nat) (x : OrderExpander) (a : Nat) (h : v[i]? = some x) :
    ∀ e1 ∈ settle v i x a, ∃ e ∈ v, e.order = e1.order ∧ e1.currentQty ≤ e.currentQty := by
  intro e1 he
  unfold settle at he
  split at he
  · exact ⟨e1, (swapPop_subperm v i (getElem?_lt h)).subset he, rfl, le_refl _⟩
  · rcases List.mem_or_eq_of_mem_set he with h1 | h1
    · exact ⟨e1, h1, rfl, le_refl _⟩
    · refine ⟨x, List.getElem?_mem h, by rw [h1], ?_⟩
      rw [h1]
      exact Nat.sub_le _ _

theorem trades_qty_le {x y : Vec × Vec × Nat} (h : Trades x y) :
    (∀ e1 ∈ y.1, ∃ e ∈ x.1, e.order = e1.order ∧ e1.currentQty ≤ e.currentQty) ∧
    (∀ e1 ∈ y.2.1, ∃ e ∈ x.2.1, e.order = e1.order ∧ e1.currentQty ≤ e.currentQty) := by
  induction h with
  | refl => exact ⟨fun e he => ⟨e, he, rfl, le_refl _⟩, fun e he => ⟨e, he, rfl, le_refl _⟩⟩
  | tail _ hstep ih =>
    cases hstep with
    | trade vs vb t i j s b hs hb hc =>
      refine ⟨?_, ?_⟩
      · intro e1 he
        obtain ⟨e0, he0, ho, hq⟩ := settle_qty_le _ _ _ _ hs e1 he
        obtain ⟨e, hm, ho1, hq1⟩ := ih.1 e0 he0
        exact ⟨e, hm, ho1.trans ho, le_trans hq hq1⟩
      · intro e1 he
        obtain ⟨e0, he0, ho, hq⟩ := settle_qty_le _ _ _ _ hb e1 he
        obtain ⟨e, hm, ho1, hq1⟩ := ih.2 e0 he0
        exact ⟨e, hm, ho1.trans ho, le_trans hq hq1⟩

/-! ### Remaining quantities stay within the original quantity -/

/-- A live element after a call either stems from a live element from before the call, with the
same order and no larger remaining quantity, or is freshly stored with its full quantity. -/
theorem op_live_qty (c : State) (op : Op) (hf : Fits c) :
    ∀ x ∈ (Op.run c op).live,
      (∃ x0 ∈ c.live, x0.order = x.order ∧ x.currentQty ≤ x0.currentQty) ∨
        x.currentQty = x.order.qty := by
  intro x hx
  cases op with
  | addOrder order =>
    simp only [Op.run] at hx
    unfold addOrder at hx
    split_ifs at hx with h1 h2 h3 h4 h5 h6 h7 h8 h9
    · exact Or.inl ⟨x, hx, rfl, le_refl _⟩
    · exact Or.inl ⟨x, hx, rfl, le_refl _⟩
    · exact Or.inl ⟨x, hx, rfl, le_refl _⟩
    · exact Or.inl ⟨x, hx, rfl, le_refl _⟩
    · exact Or.inl ⟨x, hx, rfl, le_refl _⟩
    · exact Or.inl ⟨x, hx, rfl, le_refl _⟩
    · exact Or.inl ⟨x, hx, rfl, le_refl _⟩
    · simp only [subscript_snd] at hx
      have hp : List.Perm (MapOrders.all (MapOrders.put c.m_buyOrders order.securityId
          (MapOrders.vec c.m_buyOrders order.securityId ++ [OrderExpander.ofOrder order])) ++
          MapOrders.all c.m_sellOrders) (OrderExpander.ofOrder order :: c.live) :=
        (all_put_append c.m_buyOrders order.securityId _).append_right _
      rcases List.mem_cons.mp (hp.subset hx) with h | h
      · right
        rw [h]
        rfl
      · exact Or.inl ⟨x, h, rfl, le_refl _⟩
    · simp only [subscript_snd] at hx
      have hp : List.Perm (MapOrders.all c.m_buyOrders ++
          MapOrders.all (MapOrders.put c.m_sellOrders order.securityId
          (MapOrders.vec c.m_sellOrders order.securityId ++ [OrderExpander.ofOrder order])))
          (OrderExpander.ofOrder order :: c.live) :=
        ((all_put_append c.m_sellOrders order.securityId _).append_left _).trans
          List.perm_middle
      rcases List.mem_cons.mp (hp.subset hx) with h | h
      · right
        rw [h]
        rfl
      · exact Or.inl ⟨x, h, rfl, le_refl _⟩
    · exact Or.inl ⟨x, hx, rfl, le_refl _⟩
  | getMatchingSizeForSecurity sid =>
    left
    simp only [Op.run] at hx
    by_cases hsid : sid = ""
    · exact ⟨x, by simpa [getMatchingSizeForSecurity, hsid] using hx, rfl, le_refl _⟩
    obtain ⟨vs1, vb1, t1, _, htr, _, _, _, _, hps, hpb⟩ := getMatching_run c sid hsid hf
    have hq := trades_qty_le htr
    rcases List.mem_append.mp hx with h | h
    · rcases List.mem_append.mp (hpb.subset h) with h1 | h1
      · obtain ⟨o1, ho1, he, hle⟩ := hq.2 x h1
        exact ⟨o1, List.mem_append_left _ (vec_subset_all _ _ ho1), he, hle⟩
      · exact ⟨x, List.mem_append_left _ (rest_subset_all _ _ h1), rfl, le_refl _⟩
    · rcases List.mem_append.mp (hps.subset h) with h1 | h1
      · obtain ⟨o1, ho1, he, hle⟩ := hq.1 x h1
        exact ⟨o1, List.mem_append_right _ (vec_subset_all _ _ ho1), he, hle⟩
      · exact ⟨x, List.mem_append_right _ (rest_subset_all _ _ h1), rfl, le_refl _⟩
  | cancelOrder orderId =>
    left
    simp only [Op.run] at hx
    by_cases hid : orderId = ""
    · exact ⟨x, by simpa [cancelOrder, hid] using hx, rfl, le_refl _⟩
    · obtain ⟨_, _, hlive⟩ := cancelOrder_run c orderId hid hf
      rcases hlive with ⟨y, _, hperm⟩ | ⟨hb, hs, _⟩
      · exact ⟨x, hperm.symm.subset (List.mem_cons_of_mem _ hx), rfl, le_refl _⟩
      · refine ⟨x, ?_, rfl, le_refl _⟩
        unfold State.live at hx ⊢
        rwa [hb, hs] at hx
  | cancelOrdersForUser user =>
    left
    simp only [Op.run] at hx
    by_cases hu : user = ""
    · exact ⟨x, by simpa [cancelOrdersForUser, hu] using hx, rfl, le_refl _⟩
    · obtain ⟨_, _, hpb, hps⟩ := cancelOrdersForUser_run c user hu hf
      refine ⟨x, ?_, rfl, le_refl _⟩
      rcases List.mem_append.mp hx with h | h
      · exact List.mem_append_left _ (List.mem_filter.mp (hpb.subset h)).1
      · exact List.mem_append_right _ (List.mem_filter.mp (hps.subset h)).1
  | cancelOrdersForSecIdWithMinimumQty sid q =>
    left
    simp only [Op.run] at hx
    by_cases hsid : sid = ""
    · exact ⟨x, by simpa [cancelOrdersForSecIdWithMinimumQty, hsid] using hx, rfl, le_refl _⟩
    by_cases hq : q = 0
    · exact ⟨x, by simpa [cancelOrdersForSecIdWithMinimumQty, hsid, hq] using hx, rfl, le_refl _⟩
    obtain ⟨vb, vs, hrun, hpb, hps⟩ := cancelMinQty_run c sid q hsid hq hf
    rw [hrun] at hx
    refine ⟨x, ?_, rfl, le_refl _⟩
    rcases List.mem_append.mp hx with h | h
    · refine List.mem_append_left _ ?_
      rcases List.mem_append.mp ((all_put_perm _ _ _).subset h) with h1 | h1
      · exact vec_subset_all _ _ (List.mem_filter.mp (hpb.subset h1)).1
      · exact rest_subset_all _ _ h1
    · refine List.mem_append_right _ ?_
      rcases List.mem_append.mp ((all_put_perm _ _ _).subset h) with h1 | h1
      · exact vec_subset_all _ _ (List.mem_filter.mp (hps.subset h1)).1
      · exact rest_subset_all _ _ h1
  | getAllOrders => exact Or.inl ⟨x, hx, rfl, le_refl _⟩

theorem op_bounded (c : State) (op : Op) (h : c.Bounded) (hf : Fits c) :
    (Op.run c op).Bounded := by
  intro x hx
  rcases op_live_qty c op hf x hx with ⟨x0, hx0, ho, hle⟩ | h1
  · have := h x0 hx0
    rw [ho] at this
    omega
  · omega

theorem trace_bounded {c d : State} {ops : List Op} (h : Trace c ops d) (hb : c.Bounded)
    (hi : c.Inv) (hf : Fits c) : d.Bounded := by
  induction h with
  | nil => exact hb
  | snoc d ops op htr _ ih => exact op_bounded d op ih (trace_inv_fits htr hi hf).2

theorem reachable_bounded {c : State} (h : Reachable c) : c.Bounded := by
  obtain ⟨ops, htr⟩ := h
  refine trace_bounded htr ?_ empty_inv empty_fits
  intro x hx
  simp [State.empty, State.live, MapOrders.all] at hx

/-! ### The claims on quantities, the reference pass and the frame of a matching call -/

/-- C21: in every reachable book each live order has a remaining quantity `r` with
`0 < r` and `r ≤` its original quantity, and the same holds for the book any call of
`getMatchingSizeForSecurity` leaves: it never keeps a live order with remaining quantity 0, and
no subtraction wraps around to a value above the original quantity. -/
theorem C21_remaining_within_quantity (c : State) (h : Reachable c) :
    (∀ x ∈ c.live, 0 < x.currentQty ∧ x.currentQty ≤ x.order.qty) ∧
    ∀ sid, ∀ x ∈ (getMatchingSizeForSecurity c sid).2.live,
      0 < x.currentQty ∧ x.currentQty ≤ x.order.qty := by
  obtain ⟨hinv, hf⟩ := reachable_inv_fits h
  have hb := reachable_bounded h
  refine ⟨fun x hx => ⟨hinv.2.2 x hx, hb x hx⟩, ?_⟩
  intro sid x hx
  exact ⟨(op_inv c (.getMatchingSizeForSecurity sid) hinv hf).2.2 x hx,
    op_bounded c (.getMatchingSizeForSecurity sid) hb hf x hx⟩

/-- Witness for C21: the book of README example 1, where the call for `SecId2` leaves the sell
order `OrdId2` with 400 of its 3000. -/
theorem C21_witness :
    Reachable (runOps State.empty readme1) ∧
    (∀ x ∈ (runOps State.empty readme1).live, 0 < x.currentQty ∧ x.currentQty ≤ x.order.qty) ∧
    (∀ x ∈ (getMatchingSizeForSecurity (runOps State.empty readme1) "SecId2").2.live,
      0 < x.currentQty ∧ x.currentQty ≤ x.order.qty) :=
  ⟨reachable_of_run readme1 (by decide),
    (C21_remaining_within_quantity (runOps State.empty readme1)
      (reachable_of_run readme1 (by decide))).1,
    (C21_remaining_within_quantity (runOps State.empty readme1)
      (reachable_of_run readme1 (by decide))).2 "SecId2"⟩

/-- C22: for every reachable book and non-empty security id there is an exact total `T` of the
traded amounts such that `getMatchingSizeForSecurity` returns `T` reduced modulo 2^32, the sum
of the remaining quantities of the sell orders of the security goes down by exactly `T`, and
so does the sum over its buy orders; without 32-bit wrap-around (`T < 2^32`) the value returned
is `T` itself. -/
theorem C22_matching_conserves (c : State) (h : Reachable c) (sid : String) (hsid : sid ≠ "") :
    ∃ T, (getMatchingSizeForSecurity c sid).1 = .ret (T % UINT_MOD) ∧
      totalRemaining (MapOrders.vec (getMatchingSizeForSecurity c sid).2.m_sellOrders sid) + T =
        totalRemaining (MapOrders.vec c.m_sellOrders sid) ∧
      totalRemaining (MapOrders.vec (getMatchingSizeForSecurity c sid).2.m_buyOrders sid) + T =
        totalRemaining (MapOrders.vec c.m_buyOrders sid) ∧
      (T < UINT_MOD → (getMatchingSizeForSecurity c sid).1 = .ret T) := by
  obtain ⟨vs1, vb1, t1, hret, htr, hvs, hvb, _⟩ := getMatching_run c sid hsid
    (reachable_inv_fits h).2
  obtain ⟨T, h1, h2, h3⟩ := trades_sums (fun _ => true) (fun _ => true) (fun _ _ _ => rfl)
    (fun _ _ _ => rfl) htr (fun _ _ _ _ _ => ⟨rfl, rfl⟩) (by simp [UINT_MOD])
  simp only [qtyWhere_true, Nat.zero_add] at h1 h2 h3
  rw [hvs, hvb, hret, h3]
  refine ⟨T, rfl, h1, h2, ?_⟩
  intro hT
  rw [Nat.mod_eq_of_lt hT]

/-- Witness for C22: the call for `SecId2` on the book of README example 1 trades 2700. -/
theorem C22_witness :
    Reachable (runOps State.empty readme1) ∧ "SecId2" ≠ "" ∧
    ∃ T, (getMatchingSizeForSecurity (runOps State.empty readme1) "SecId2").1 =
        .ret (T % UINT_MOD) ∧
      totalRemaining (MapOrders.vec
        (getMatchingSizeForSecurity (runOps State.empty readme1) "SecId2").2.m_sellOrders
          "SecId2") + T =
        totalRemaining (MapOrders.vec (runOps State.empty readme1).m_sellOrders "SecId2") :=
  ⟨reachable_of_run readme1 (by decide), by decide,
    (C22_matching_conserves (runOps State.empty readme1)
      (reachable_of_run readme1 (by decide)) "SecId2" (by decide)).elim
      (fun T hT => ⟨T, hT.1, hT.2.1⟩)⟩

/-- C23: when the only live orders of a non-empty security are one sell order with remaining
quantity `a` and one buy order with remaining quantity `b`, of different companies (`a` and `b`
being 32-bit values, so that `min a b < 2^32`), `getMatchingSizeForSecurity` returns `min a b`;
if `a > b` the buy order is removed and the sell order stays with `a - b`; if `a < b` the sell
order is removed and the buy order stays with `b - a`; if `a = b` both are removed. -/
theorem C23_one_sell_one_buy (c : State) (sid : String) (hsid : sid ≠ "")
    (x y : OrderExpander)
    (hs : MapOrders.vec c.m_sellOrders sid = [x]) (hb : MapOrders.vec c.m_buyOrders sid = [y])
    (hc : x.order.company ≠ y.order.company)
    (hq : min x.currentQty y.currentQty < UINT_MOD) :
    (getMatchingSizeForSecurity c sid).1 = .ret (min x.currentQty y.currentQty) ∧
    (y.currentQty < x.currentQty →
      MapOrders.vec (getMatchingSizeForSecurity c sid).2.m_sellOrders sid =
        [{ x with currentQty := x.currentQty - y.currentQty }] ∧
      MapOrders.vec (getMatchingSizeForSecurity c sid).2.m_buyOrders sid = []) ∧
    (x.currentQty < y.currentQty →
      MapOrders.vec (getMatchingSizeForSecurity c sid).2.m_sellOrders sid = [] ∧
      MapOrders.vec (getMatchingSizeForSecurity c sid).2.m_buyOrders sid =
        [{ y with currentQty := y.currentQty - x.currentQty }]) ∧
    (x.currentQty = y.currentQty →
      MapOrders.vec (getMatchingSizeForSecurity c sid).2.m_sellOrders sid = [] ∧
      MapOrders.vec (getMatchingSizeForSecurity c sid).2.m_buyOrders sid = []) := by
  obtain ⟨h1, h2, h3⟩ := getMatching_ref c sid hsid (by rw [hs]; simp [SIZE_MOD])
    (by rw [hb]; simp [SIZE_MOD])
  rw [h1, h2, h3, hs, hb]
  have hsp : ∀ z : OrderExpander, swapPop [z] 0 = [] := fun z => rfl
  by_cases hge : x.currentQty ≥ y.currentQty
  · by_cases hz : x.currentQty - y.currentQty = 0
    · have hR : refMatch swapPop [x] [y] = ([], [], y.currentQty) := by
        simp [refMatch, refSells, refScan, hc, hge, hz, hsp]
      rw [hR]
      have hmin : min x.currentQty y.currentQty = y.currentQty := Nat.min_eq_right hge
      rw [hmin] at hq ⊢
      refine ⟨by simp only [Nat.mod_eq_of_lt hq], ?_, ?_, ?_⟩
      · intro h; omega
      · intro h; omega
      · intro _; exact ⟨rfl, rfl⟩
    · have hR : refMatch swapPop [x] [y] =
          ([{ x with currentQty := x.currentQty - y.currentQty }], [], y.currentQty) := by
        simp [refMatch, refSells, refScan, hc, hge, hz, hsp]
      rw [hR]
      have hmin : min x.currentQty y.currentQty = y.currentQty := Nat.min_eq_right hge
      rw [hmin] at hq ⊢
      refine ⟨by simp only [Nat.mod_eq_of_lt hq], ?_, ?_, ?_⟩
      · intro _; exact ⟨rfl, rfl⟩
      · intro h; omega
      · intro h; omega
  · have hR : refMatch swapPop [x] [y] =
        ([], [{ y with currentQty := y.currentQty - x.currentQty }], x.currentQty) := by
      simp [refMatch, refSells, refScan, hc, hge, hsp]
    rw [hR]
    have hmin : min x.currentQty y.currentQty = x.currentQty := Nat.min_eq_left (by omega)
    rw [hmin] at hq ⊢
    refine ⟨by simp only [Nat.mod_eq_of_lt hq], ?_, ?_, ?_⟩
    · intro h; omega
    · intro _; exact ⟨rfl, rfl⟩
    · intro h; omega

/-- Witness for C23: the sell order of 700 and the buy order of 300 of `unevenPair`; the call
returns 300, the buy order is removed and the sell order stays with 400. -/
theorem C23_witness :
    "SecId1" ≠ "" ∧
    (getMatchingSizeForSecurity (runOps State.empty unevenPair) "SecId1").1 = .ret 300 ∧
    MapOrders.vec (getMatchingSizeForSecurity (runOps State.empty unevenPair)
        "SecId1").2.m_sellOrders "SecId1" =
      [⟨⟨"OrdId1", "SecId1", "Sell", 700, "User1", "CompanyA"⟩, 400⟩] ∧
    MapOrders.vec (getMatchingSizeForSecurity (runOps State.empty unevenPair)
        "SecId1").2.m_buyOrders "SecId1" = [] :=
  ⟨by decide,
    (C23_one_sell_one_buy (runOps State.empty unevenPair) "SecId1" (by decide)
      ⟨⟨"OrdId1", "SecId1", "Sell", 700, "User1", "CompanyA"⟩, 700⟩
      ⟨⟨"OrdId2", "SecId1", "Buy", 300, "User2", "CompanyB"⟩, 300⟩
      (by decide) (by decide) (by decide) (by decide)).1,
    ((C23_one_sell_one_buy (runOps State.empty unevenPair) "SecId1" (by decide)
      ⟨⟨"OrdId1", "SecId1", "Sell", 700, "User1", "CompanyA"⟩, 700⟩
      ⟨⟨"OrdId2", "SecId1", "Buy", 300, "User2", "CompanyB"⟩, 300⟩
      (by decide) (by decide) (by decide) (by decide)).2.1 (by decide)).1,
    ((C23_one_sell_one_buy (runOps State.empty unevenPair) "SecId1" (by decide)
      ⟨⟨"OrdId1", "SecId1", "Sell", 700, "User1", "CompanyA"⟩, 700⟩
      ⟨⟨"OrdId2", "SecId1", "Buy", 300, "User2", "CompanyB"⟩, 300⟩
      (by decide) (by decide) (by decide) (by decide)).2.1 (by decide)).2⟩

/-- C24 (counterexample): in the book `swapBook`, whose two sequences hold the orders in the
order they were added, `getMatchingSizeForSecurity` returns 200 while the reference greedy pass
with order-preserving removal trades 250: after the sell `S1` has consumed the buy `B1`, the
last buy `B3` takes the freed slot and is examined before `B2`. -/
theorem C24_counterexample :
    Reachable (runOps State.empty swapBook) ∧
    idsOf (MapOrders.vec (runOps State.empty swapBook).m_sellOrders "Sec") = ["S1", "S2"] ∧
    idsOf (MapOrders.vec (runOps State.empty swapBook).m_buyOrders "Sec") = ["B1", "B2", "B3"] ∧
    (getMatchingSizeForSecurity (runOps State.empty swapBook) "Sec").1 = .ret 200 ∧
    (refMatch List.eraseIdx (MapOrders.vec (runOps State.empty swapBook).m_sellOrders "Sec")
      (MapOrders.vec (runOps State.empty swapBook).m_buyOrders "Sec")).2.2 = 250 :=
  ⟨reachable_of_run swapBook (by decide), by decide, by decide, by decide, by decide⟩

/-- C24 (amended): for every reachable book and non-empty security id,
`getMatchingSizeForSecurity` returns, reduced modulo 2^32, the total of the reference greedy
pass that takes the sell slots in stored order and for each scans the buy slots in stored
order, skips same-company pairs and trades the smaller remaining quantity on every other pair,
where a consumed order is replaced by the last element of its sequence and the freed slot is
examined again; the two sequences the call leaves are those of the reference pass. -/
theorem C24_matching_is_swap_greedy (c : State) (h : Reachable c) (sid : String)
    (hsid : sid ≠ "") :
    (getMatchingSizeForSecurity c sid).1 =
      .ret ((refMatch swapPop (MapOrders.vec c.m_sellOrders sid)
        (MapOrders.vec c.m_buyOrders sid)).2.2 % UINT_MOD) ∧
    MapOrders.vec (getMatchingSizeForSecurity c sid).2.m_sellOrders sid =
      (refMatch swapPop (MapOrders.vec c.m_sellOrders sid)
        (MapOrders.vec c.m_buyOrders sid)).1 ∧
    MapOrders.vec (getMatchingSizeForSecurity c sid).2.m_buyOrders sid =
      (refMatch swapPop (MapOrders.vec c.m_sellOrders sid)
        (MapOrders.vec c.m_buyOrders sid)).2.1 :=
  getMatching_ref c sid hsid (vec_length_lt _ sid (fits_sell (reachable_inv_fits h).2))
    (vec_length_lt _ sid (fits_buy (reachable_inv_fits h).2))

/-- Witness for C24 (amended): on `swapBook` the reference pass with swap removal trades 200,
the value the call returns. -/
theorem C24_witness :
    Reachable (runOps State.empty swapBook) ∧ "Sec" ≠ "" ∧
    (refMatch swapPop (MapOrders.vec (runOps State.empty swapBook).m_sellOrders "Sec")
      (MapOrders.vec (runOps State.empty swapBook).m_buyOrders "Sec")).2.2 = 200 ∧
    (getMatchingSizeForSecurity (runOps State.empty swapBook) "Sec").1 =
      .ret ((refMatch swapPop (MapOrders.vec (runOps State.empty swapBook).m_sellOrders "Sec")
        (MapOrders.vec (runOps State.empty swapBook).m_buyOrders "Sec")).2.2 % UINT_MOD) :=
  ⟨reachable_of_run swapBook (by decide), by decide, by decide,
    (C24_matching_is_swap_greedy (runOps State.empty swapBook)
      (reachable_of_run swapBook (by decide)) "Sec" (by decide)).1⟩

/-- C25: `addOrder` reports the first failing check in the order: id empty, security empty,
user empty, company empty, side empty, quantity zero (each `std::invalid_argument`, with the
message of that check), and only then the duplicate id (`std::runtime_error`); each of these
leaves the state unchanged. An order with an empty field or zero quantity is therefore
rejected with `std::invalid_argument` also when its id is in the id-set. -/
theorem C25_addOrder_check_order (c : State) (o : Order) :
    (o.orderId = "" → addOrder c o = (.invalid_argument "Error: order ID is empty!", c)) ∧
    (o.orderId ≠ "" → o.securityId = "" →
      addOrder c o = (.invalid_argument "Error: security ID is empty!", c)) ∧
    (o.orderId ≠ "" → o.securityId ≠ "" → o.user = "" →
      addOrder c o = (.invalid_argument "Error: user ID is empty!", c)) ∧
    (o.orderId ≠ "" → o.securityId ≠ "" → o.user ≠ "" → o.company = "" →
      addOrder c o = (.invalid_argument "Error: company name is empty!", c)) ∧
    (o.orderId ≠ "" → o.securityId ≠ "" → o.user ≠ "" → o.company ≠ "" → o.side = "" →
      addOrder c o = (.invalid_argument "Error: side is empty!", c)) ∧
    (o.orderId ≠ "" → o.securityId ≠ "" → o.user ≠ "" → o.company ≠ "" → o.side ≠ "" →
      o.qty = 0 → addOrder c o = (.invalid_argument "Error: qty is zero!", c)) ∧
    (o.filled → o.orderId ∈ c.m_orderIds →
      addOrder c o = (.runtime_error "Error: order ID have already exist!", c)) ∧
    (¬ o.filled → o.orderId ∈ c.m_orderIds →
      ∃ what, addOrder c o = (.invalid_argument what, c)) := by
  refine ⟨?_, ?_, ?_, ?_, ?_, ?_, ?_, ?_⟩
  · intro h1
    unfold addOrder
    rw [if_pos h1]
  · intro h1 h2
    unfold addOrder
    rw [if_neg h1, if_pos h2]
  · intro h1 h2 h3
    unfold addOrder
    rw [if_neg h1, if_neg h2, if_pos h3]
  · intro h1 h2 h3 h4
    unfold addOrder
    rw [if_neg h1, if_neg h2, if_neg h3, if_pos h4]
  · intro h1 h2 h3 h4 h5
    unfold addOrder
    rw [if_neg h1, if_neg h2, if_neg h3, if_neg h4, if_pos h5]
  · intro h1 h2 h3 h4 h5 h6
    unfold addOrder
    rw [if_neg h1, if_neg h2, if_neg h3, if_neg h4, if_neg h5, if_pos h6]
  · intro hf hd
    obtain ⟨h1, h2, h3, h4, h5, h6⟩ := hf
    unfold addOrder
    rw [if_neg h1, if_neg h2, if_neg h3, if_neg h4, if_neg h5, if_neg h6, if_pos hd]
  · intro hf _
    unfold addOrder
    by_cases h1 : o.orderId = ""
    · rw [if_pos h1]; exact ⟨_, rfl⟩
    rw [if_neg h1]
    by_cases h2 : o.securityId = ""
    · rw [if_pos h2]; exact ⟨_, rfl⟩
    rw [if_neg h2]
    by_cases h3 : o.user = ""
    · rw [if_pos h3]; exact ⟨_, rfl⟩
    rw [if_neg h3]
    by_cases h4 : o.company = ""
    · rw [if_pos h4]; exact ⟨_, rfl⟩
    rw [if_neg h4]
    by_cases h5 : o.side = ""
    · rw [if_pos h5]; exact ⟨_, rfl⟩
    rw [if_neg h5]
    by_cases h6 : o.qty = 0
    · rw [if_pos h6]; exact ⟨_, rfl⟩
    exact absurd ⟨h1, h2, h3, h4, h5, h6⟩ hf

/-- Witness for C25: in the book `onePair` an order with the live id `OrdId1`, an empty user
and the quantity zero is rejected for the empty user. -/
theorem C25_witness :
    "OrdId1" ∈ (runOps State.empty onePair).m_orderIds ∧
    addOrder (runOps State.empty onePair) ⟨"OrdId1", "SecId1", "Buy", 0, "", "CompanyA"⟩ =
      (.invalid_argument "Error: user ID is empty!", runOps State.empty onePair) :=
  ⟨by decide,
    (C25_addOrder_check_order (runOps State.empty onePair)
      ⟨"OrdId1", "SecId1", "Buy", 0, "", "CompanyA"⟩).2.2.1 (by decide) (by decide) rfl⟩

/-- C26: for every reachable book, `getMatchingSizeForSecurity(s)` leaves the sell and the buy
sequence of every other security and the id-set as they were, and the value a later call
returns for another security `s1` is the value it returns when `s` was not matched first. -/
theorem C26_matching_frame (c : State) (h : Reachable c) (s s1 : String) (hne : s1 ≠ s) :
    MapOrders.vec (getMatchingSizeForSecurity c s).2.m_sellOrders s1 =
      MapOrders.vec c.m_sellOrders s1 ∧
    MapOrders.vec (getMatchingSizeForSecurity c s).2.m_buyOrders s1 =
      MapOrders.vec c.m_buyOrders s1 ∧
    (getMatchingSizeForSecurity c s).2.m_orderIds = c.m_orderIds ∧
    (getMatchingSizeForSecurity (getMatchingSizeForSecurity c s).2 s1).1 =
      (getMatchingSizeForSecurity c s1).1 := by
  have hf := (reachable_inv_fits h).2
  by_cases hs : s = ""
  · have : (getMatchingSizeForSecurity c s).2 = c := by simp [getMatchingSizeForSecurity, hs]
    rw [this]
    exact ⟨rfl, rfl, rfl, rfl⟩
  obtain ⟨_, _, _, _, _, _, _, hfr, hids, _, _⟩ := getMatching_run c s hs hf
  obtain ⟨h1, h2⟩ := hfr s1 hne
  refine ⟨h1, h2, hids, ?_⟩
  by_cases hs1 : s1 = ""
  · simp [getMatchingSizeForSecurity, hs1]
  have hf1 := fits_getMatching c s hf
  rw [(getMatching_ref _ s1 hs1 (vec_length_lt _ s1 (fits_sell hf1))
      (vec_length_lt _ s1 (fits_buy hf1))).1,
    (getMatching_ref c s1 hs1 (vec_length_lt _ s1 (fits_sell hf))
      (vec_length_lt _ s1 (fits_buy hf))).1, h1, h2]

/-- Witness for C26: in the book of README example 1 the call for `SecId1` returns 0 whether
or not `SecId2` was matched first. -/
theorem C26_witness :
    Reachable (runOps State.empty readme1) ∧ "SecId1" ≠ "SecId2" ∧
    (getMatchingSizeForSecurity
      (getMatchingSizeForSecurity (runOps State.empty readme1) "SecId2").2 "SecId1").1 =
      (getMatchingSizeForSecurity (runOps State.empty readme1) "SecId1").1 :=
  ⟨reachable_of_run readme1 (by decide), by decide,
    (C26_matching_frame (runOps State.empty readme1) (reachable_of_run readme1 (by decide))
      "SecId2" "SecId1" (by decide)).2.2.2⟩

/-- C30: starting from an empty book and adding the eleven orders of README example 3 in the
order of the test, the successive calls `getMatchingSizeForSecurity("SecId1")`, `("SecId2")`,
`("SecId3")` return 900, 600 and 0. -/
theorem C30_readme_example3 :
    (getMatchingSizeForSecurity (runOps State.empty readme3) "SecId1").1 = .ret 900 ∧
    (getMatchingSizeForSecurity
      (getMatchingSizeForSecurity (runOps State.empty readme3) "SecId1").2 "SecId2").1 =
        .ret 600 ∧
    (getMatchingSizeForSecurity
      (getMatchingSizeForSecurity
        (getMatchingSizeForSecurity (runOps State.empty readme3) "SecId1").2 "SecId2").2
          "SecId3").1 = .ret 0 :=
  ⟨by decide, by decide, by decide⟩

/-! ### Calls that find nothing to remove -/

theorem sweepVec_noop (drop : OrderExpander → Bool) (fuel : Nat) :
    ∀ (vec : Vec) (ids : OrderIds) (i : Nat), vec.length < SIZE_MOD → vec.length - i < fuel →
    (∀ x ∈ vec, drop x = false) → sweepVec drop fuel vec ids i = .ok (vec, ids) := by
  induction fuel with
  | zero => intro vec ids i _ h; omega
  | succ fuel ih =>
    intro vec ids i hv hfuel hno
    unfold sweepVec
    by_cases hi : i < vec.length
    · rw [if_pos hi, List.getElem?_eq_getElem hi]
      simp only
      rw [if_pos (hno _ (List.getElem_mem hi)), size_succ_mod i _ hi hv]
      exact ih vec ids (i + 1) hv (by omega) hno
    · rw [if_neg hi]

theorem cancelOrdersForUserIn_noop (user : String) (m : MapOrders) :
    ∀ (ids : OrderIds), (∀ p ∈ m, p.2.length < SIZE_MOD) →
    (∀ x ∈ MapOrders.all m, x.order.user ≠ user) →
    cancelOrdersForUserIn user m ids = .ok (m, ids) := by
  induction m with
  | nil => intro ids _ _; rfl
  | cons p r ih =>
    intro ids hm hno
    obtain ⟨k, vec⟩ := p
    rw [all_cons] at hno
    unfold cancelOrdersForUserIn
    rw [cancelUserVec_eq, sweepVec_noop _ _ vec ids 0 (hm (k, vec) (List.mem_cons_self _ _))
      (by simp) (fun x hx => by simpa using hno x (List.mem_append_left _ hx))]
    simp only
    rw [ih ids (fun p hp => hm p (List.mem_cons_of_mem _ hp))
      (fun x hx => hno x (List.mem_append_right _ hx))]

theorem cancelMinQtyIn_noop (sid : String) (minQty : Nat) (m : MapOrders) (v : Vec)
    (ids : OrderIds) (hv : v.length < SIZE_MOD) (hno : ∀ x ∈ v, x.order.qty < minQty) :
    cancelOrdersForSecIdWithMinimumQtyIn sid minQty (MapOrders.put m sid v) ids =
      .ok (MapOrders.put m sid v, ids) := by
  unfold cancelOrdersForSecIdWithMinimumQtyIn
  rw [subscript_put]
  simp only
  rw [cancelMinQtyVec_eq, sweepVec_noop _ _ v ids 0 hv (by simp)
    (fun x hx => by simpa using hno x hx)]
  simp only
  rw [assign_eq_self _ _ _ (by rw [find_put]; simp)]

theorem fits_cancelOrder (c : State) (orderId : String) (hf : Fits c) :
    Fits (cancelOrder c orderId).2 := by
  by_cases hid : orderId = ""
  · simpa [cancelOrder, hid] using hf
  obtain ⟨_, _, h⟩ := cancelOrder_entries c orderId hid hf
  intro p hp
  rcases List.mem_append.mp hp with hp1 | hp1
  · rcases h with ⟨x, _, he, _⟩ | ⟨x, _, hb, _, _⟩ | ⟨hb, _, _⟩
    · exact fits_erasedAt he (fits_buy hf) p hp1
    · rw [hb] at hp1; exact fits_buy hf p hp1
    · rw [hb] at hp1; exact fits_buy hf p hp1
  · rcases h with ⟨x, _, _, hs⟩ | ⟨x, _, _, he, _⟩ | ⟨_, hs, _⟩
    · rw [hs] at hp1; exact fits_sell hf p hp1
    · exact fits_erasedAt he (fits_sell hf) p hp1
    · rw [hs] at hp1; exact fits_sell hf p hp1

theorem fits_cancelOrdersForUser (c : State) (user : String) (hf : Fits c) :
    Fits (cancelOrdersForUser c user).2 := by
  by_cases hu : user = ""
  · simpa [cancelOrdersForUser, hu] using hf
  obtain ⟨hb, hs⟩ := cancelOrdersForUser_entries c user hu hf
  intro p hp
  rcases List.mem_append.mp hp with hp1 | hp1
  · obtain ⟨q, hq, _, hperm⟩ := rel_mem hb p hp1
    have := fits_buy hf q hq
    have h1 := hperm.length_eq
    have h2 := List.length_filter_le (fun o => !decide (o.order.user = user)) q.2
    omega
  · obtain ⟨q, hq, _, hperm⟩ := rel_mem hs p hp1
    have := fits_sell hf q hq
    have h1 := hperm.length_eq
    have h2 := List.length_filter_le (fun o => !decide (o.order.user = user)) q.2
    omega

theorem state_eq_of_fields {c d : State} (h1 : c.m_buyOrders = d.m_buyOrders)
    (h2 : c.m_sellOrders = d.m_sellOrders) (h3 : c.m_orderIds = d.m_orderIds) : c = d := by
  cases c; cases d
  simp only at h1 h2 h3
  subst h1 h2 h3
  rfl

/-- C27: in every reachable book, with valid arguments, a second `cancelOrder(id)`,
`cancelOrdersForUser(u)` or `cancelOrdersForSecIdWithMinimumQty(s, q)` right after the first
returns normally and leaves the state exactly as the first call left it. -/
theorem C27_cancellation_idempotent (c : State) (h : Reachable c) :
    (∀ id, id ≠ "" →
      cancelOrder (cancelOrder c id).2 id = (.ret (), (cancelOrder c id).2)) ∧
    (∀ u, u ≠ "" →
      cancelOrdersForUser (cancelOrdersForUser c u).2 u =
        (.ret (), (cancelOrdersForUser c u).2)) ∧
    (∀ s q, s ≠ "" → 0 < q →
      cancelOrdersForSecIdWithMinimumQty (cancelOrdersForSecIdWithMinimumQty c s q).2 s q =
        (.ret (), (cancelOrdersForSecIdWithMinimumQty c s q).2)) := by
  obtain ⟨hinv, hf⟩ := reachable_inv_fits h
  refine ⟨?_, ?_, ?_⟩
  · intro id hid
    have hf1 := fits_cancelOrder c id hf
    obtain ⟨_, hids, hlive⟩ := cancelOrder_run c id hid hf
    have hgone : id ∉ idsOf (cancelOrder c id).2.live := by
      rcases hlive with ⟨x, hx, hperm⟩ | ⟨hb, hs, hno⟩
      · have := removed_id_gone hinv.1 hperm
        rwa [hx] at this
      · intro hmem
        obtain ⟨y, hy, hyid⟩ := List.mem_map.mp hmem
        have : y ∈ c.live := by
          unfold State.live at hy ⊢
          rwa [hb, hs] at hy
        exact hno y this hyid
    obtain ⟨hret, hids2, hlive2⟩ := cancelOrder_run (cancelOrder c id).2 id hid hf1
    rcases hlive2 with ⟨x, hx, hperm⟩ | ⟨hb, hs, _⟩
    · exfalso
      apply hgone
      have h0 : x.order.orderId ∈ idsOf (cancelOrder c id).2.live :=
        List.mem_map_of_mem _ (hperm.symm.subset (List.mem_cons_self _ _))
      rw [hx] at h0
      exact h0
    · refine Prod.ext hret (state_eq_of_fields hb hs ?_)
      rw [hids2, hids, Finset.erase_idem]
  · intro u hu
    have hf1 := fits_cancelOrdersForUser c u hf
    obtain ⟨_, _, hpb, hps⟩ := cancelOrdersForUser_run c u hu hf
    have hnb : ∀ x ∈ MapOrders.all (cancelOrdersForUser c u).2.m_buyOrders,
        x.order.user ≠ u := by
      intro x hx
      simpa using (List.mem_filter.mp (hpb.subset hx)).2
    have hns : ∀ x ∈ MapOrders.all (cancelOrdersForUser c u).2.m_sellOrders,
        x.order.user ≠ u := by
      intro x hx
      simpa using (List.mem_filter.mp (hps.subset hx)).2
    generalize (cancelOrdersForUser c u).2 = c1 at hf1 hnb hns
    unfold cancelOrdersForUser
    rw [if_neg hu, cancelOrdersForUserIn_noop u _ _ (fits_buy hf1) hnb]
    simp only
    rw [cancelOrdersForUserIn_noop u _ _ (fits_sell hf1) hns]
  · intro s q hs hq
    obtain ⟨vb, vs, hrun, hpb, hps⟩ := cancelMinQty_run c s q hs (by omega) hf
    have hlb : vb.length < SIZE_MOD := by
      have := vec_length_lt _ s (fits_buy hf)
      have h1 := hpb.length_eq
      have h2 := List.length_filter_le (fun o => !decide (q ≤ o.order.qty))
        (MapOrders.vec c.m_buyOrders s)
      omega
    have hls : vs.length < SIZE_MOD := by
      have := vec_length_lt _ s (fits_sell hf)
      have h1 := hps.length_eq
      have h2 := List.length_filter_le (fun o => !decide (q ≤ o.order.qty))
        (MapOrders.vec c.m_sellOrders s)
      omega
    have hnb : ∀ x ∈ vb, x.order.qty < q := by
      intro x hx
      simpa using (List.mem_filter.mp (hpb.subset hx)).2
    have hns : ∀ x ∈ vs, x.order.qty < q := by
      intro x hx
      simpa using (List.mem_filter.mp (hps.subset hx)).2
    rw [hrun]
    simp only
    unfold cancelOrdersForSecIdWithMinimumQty
    rw [if_neg hs, if_neg (by omega)]
    simp only
    rw [cancelMinQtyIn_noop s q _ vb _ hlb hnb]
    simp only
    rw [cancelMinQtyIn_noop s q _ vs _ hls hns]

/-- Witness for C27: in the book of README example 1, cancelling `OrdId4` twice, cancelling
the orders of `User2` twice, and cancelling the orders of `SecId2` of at least 1000 twice. -/
theorem C27_witness :
    Reachable (runOps State.empty readme1) ∧ "OrdId4" ≠ "" ∧ "User2" ≠ "" ∧ "SecId2" ≠ "" ∧
    0 < 1000 ∧
    cancelOrder (cancelOrder (runOps State.empty readme1) "OrdId4").2 "OrdId4" =
      (.ret (), (cancelOrder (runOps State.empty readme1) "OrdId4").2) ∧
    cancelOrdersForUser (cancelOrdersForUser (runOps State.empty readme1) "User2").2 "User2" =
      (.ret (), (cancelOrdersForUser (runOps State.empty readme1) "User2").2) ∧
    cancelOrdersForSecIdWithMinimumQty
        (cancelOrdersForSecIdWithMinimumQty (runOps State.empty readme1) "SecId2" 1000).2
        "SecId2" 1000 =
      (.ret (), (cancelOrdersForSecIdWithMinimumQty (runOps State.empty readme1)
        "SecId2" 1000).2) :=
  ⟨reachable_of_run readme1 (by decide), by decide, by decide, by decide, by decide,
    (C27_cancellation_idempotent (runOps State.empty readme1)
      (reachable_of_run readme1 (by decide))).1 "OrdId4" (by decide),
    (C27_cancellation_idempotent (runOps State.empty readme1)
      (reachable_of_run readme1 (by decide))).2.1 "User2" (by decide),
    (C27_cancellation_idempotent (runOps State.empty readme1)
      (reachable_of_run readme1 (by decide))).2.2 "SecId2" 1000 (by decide) (by decide)⟩

/-! ### What the pass leaves when every remaining pair has one company -/

/-- The facts about one call of `getMatchingSizeForSecurity` on a reachable book that the
closed forms of the total rest on. -/
theorem getMatching_facts (c : State) (h : Reachable c) (sid : String) (hsid : sid ≠ "") :
    ∃ vs1 vb1 t1,
      (getMatchingSizeForSecurity c sid).1 = .ret t1 ∧
      MapOrders.vec (getMatchingSizeForSecurity c sid).2.m_sellOrders sid = vs1 ∧
      MapOrders.vec (getMatchingSizeForSecurity c sid).2.m_buyOrders sid = vb1 ∧
      Trades (MapOrders.vec c.m_sellOrders sid, MapOrders.vec c.m_buyOrders sid, 0)
        (vs1, vb1, t1) ∧
      (∀ x ∈ vs1, ∀ b ∈ vb1, x.order.company = b.order.company) ∧
      (∀ x ∈ vs1, 0 < x.currentQty) ∧ (∀ b ∈ vb1, 0 < b.currentQty) ∧
      (∀ x ∈ vs1, ∃ x0 ∈ MapOrders.vec c.m_sellOrders sid, x0.order = x.order) ∧
      (∀ b ∈ vb1, ∃ b0 ∈ MapOrders.vec c.m_buyOrders sid, b0.order = b.order) := by
  obtain ⟨hinv, hf⟩ := reachable_inv_fits h
  obtain ⟨vs1, vb1, t1, hret, htr, hvs, hvb, _⟩ := getMatching_run c sid hsid hf
  have hdone := getMatching_done c sid hsid (vec_length_lt _ sid (fits_sell hf))
    (vec_length_lt _ sid (fits_buy hf))
  rw [hvs, hvb] at hdone
  have hpos := trades_pos htr
    (fun o ho => hinv.2.2 o (List.mem_append_right _ (vec_subset_all _ _ ho)))
    (fun o ho => hinv.2.2 o (List.mem_append_left _ (vec_subset_all _ _ ho)))
  have hord := trades_orders htr
  exact ⟨vs1, vb1, t1, hret, hvs, hvb, htr, hdone, hpos.1, hpos.2,
    fun x hx => mem_of_order_subperm hord.1 hx, fun b hb => mem_of_order_subperm hord.2 hb⟩

/-- C28: for every reachable book and non-empty security id, if no live sell order of the
security shares its company with any live buy order of the security, and the smaller of the two
sums of remaining quantities is below 2^32, then `getMatchingSizeForSecurity` returns
min(sum of sell remaining, sum of buy remaining), and afterwards the side with the smaller sum
is empty for that security (both sides when the sums are equal). -/
theorem C28_no_shared_company (c : State) (h : Reachable c) (sid : String) (hsid : sid ≠ "")
    (hno : ∀ s ∈ MapOrders.vec c.m_sellOrders sid, ∀ b ∈ MapOrders.vec c.m_buyOrders sid,
      s.order.company ≠ b.order.company)
    (hq : min (totalRemaining (MapOrders.vec c.m_sellOrders sid))
      (totalRemaining (MapOrders.vec c.m_buyOrders sid)) < UINT_MOD) :
    (getMatchingSizeForSecurity c sid).1 =
      .ret (min (totalRemaining (MapOrders.vec c.m_sellOrders sid))
        (totalRemaining (MapOrders.vec c.m_buyOrders sid))) ∧
    (totalRemaining (MapOrders.vec c.m_sellOrders sid) ≤
        totalRemaining (MapOrders.vec c.m_buyOrders sid) →
      MapOrders.vec (getMatchingSizeForSecurity c sid).2.m_sellOrders sid = []) ∧
    (totalRemaining (MapOrders.vec c.m_buyOrders sid) ≤
        totalRemaining (MapOrders.vec c.m_sellOrders sid) →
      MapOrders.vec (getMatchingSizeForSecurity c sid).2.m_buyOrders sid = []) := by
  obtain ⟨vs1, vb1, t1, hret, hvs, hvb, htr, hdone, hps, hpb, hos, hob⟩ :=
    getMatching_facts c h sid hsid
  obtain ⟨T, h1, h2, h3⟩ := trades_sums (fun _ => true) (fun _ => true) (fun _ _ _ => rfl)
    (fun _ _ _ => rfl) htr (fun _ _ _ _ _ => ⟨rfl, rfl⟩) (by simp [UINT_MOD])
  simp only [qtyWhere_true, Nat.zero_add] at h1 h2 h3
  rw [hret, hvs, hvb, h3]
  have hempty : vs1 = [] ∨ vb1 = [] := by
    cases hv : vs1 with
    | nil => exact Or.inl rfl
    | cons x l =>
      cases hw : vb1 with
      | nil => exact Or.inr rfl
      | cons b r =>
        exfalso
        have hx : x ∈ vs1 := by rw [hv]; exact List.mem_cons_self _ _
        have hb : b ∈ vb1 := by rw [hw]; exact List.mem_cons_self _ _
        obtain ⟨x0, hx0, hxo⟩ := hos x hx
        obtain ⟨b0, hb0, hbo⟩ := hob b hb
        apply hno x0 hx0 b0 hb0
        rw [hxo, hbo]
        exact hdone x hx b hb
  generalize totalRemaining (MapOrders.vec c.m_sellOrders sid) = S at h1 hq ⊢
  generalize totalRemaining (MapOrders.vec c.m_buyOrders sid) = B at h2 hq ⊢
  have hs0 : totalRemaining vs1 = 0 → vs1 = [] := totalRemaining_pos vs1 hps
  have hb0 : totalRemaining vb1 = 0 → vb1 = [] := totalRemaining_pos vb1 hpb
  rcases hempty with he | he
  · have hz : totalRemaining vs1 = 0 := by rw [he]; rfl
    have hT : T = S := by omega
    have hmin : min S B = S := Nat.min_eq_left (by omega)
    rw [hmin] at hq ⊢
    refine ⟨by rw [hT, Nat.mod_eq_of_lt hq], fun _ => he, fun hle => hb0 (by omega)⟩
  · have hz : totalRemaining vb1 = 0 := by rw [he]; rfl
    have hT : T = B := by omega
    have hmin : min S B = B := Nat.min_eq_right (by omega)
    rw [hmin] at hq ⊢
    refine ⟨by rw [hT, Nat.mod_eq_of_lt hq], fun hle => hs0 (by omega), fun _ => he⟩

/-- Witness for C28: the book of the test `MatchingSize_ManyToMany_MatchesBidirectionally`,
five orders of five companies; the sells sum to 6500, the buys to 7000, the call returns
6500 and no sell order is left. -/
theorem C28_witness :
    Reachable (runOps State.empty manyToMany) ∧ "SecId2" ≠ "" ∧
    totalRemaining (MapOrders.vec (runOps State.empty manyToMany).m_sellOrders "SecId2") =
      6500 ∧
    totalRemaining (MapOrders.vec (runOps State.empty manyToMany).m_buyOrders "SecId2") =
      7000 ∧
    (getMatchingSizeForSecurity (runOps State.empty manyToMany) "SecId2").1 =
      .ret (min (totalRemaining
          (MapOrders.vec (runOps State.empty manyToMany).m_sellOrders "SecId2"))
        (totalRemaining
          (MapOrders.vec (runOps State.empty manyToMany).m_buyOrders "SecId2"))) ∧
    MapOrders.vec (getMatchingSizeForSecurity (runOps State.empty manyToMany)
      "SecId2").2.m_sellOrders "SecId2" = [] :=
  ⟨reachable_of_run manyToMany (by decide), by decide, by decide, by decide,
    (C28_no_shared_company (runOps State.empty manyToMany)
      (reachable_of_run manyToMany (by decide)) "SecId2" (by decide) (by decide)
      (by decide)).1,
    (C28_no_shared_company (runOps State.empty manyToMany)
      (reachable_of_run manyToMany (by decide)) "SecId2" (by decide) (by decide)
      (by decide)).2.1 (by decide)⟩

/-- C29: for every reachable book and non-empty security id, when the security has exactly one
live buy order, with remaining quantity `r`, `getMatchingSizeForSecurity` returns `min r S`,
where `S` is the sum of the remaining quantities of the sell orders of the security whose
company differs from the buyer (`S < 2^32`); and likewise with exactly one live sell order
and `S` the sum over the buy orders of a different company. -/
theorem C29_single_order_side (c : State) (h : Reachable c) (sid : String) (hsid : sid ≠ "") :
    (∀ b, MapOrders.vec c.m_buyOrders sid = [b] →
      qtyWhere (fun s => decide (s.order.company ≠ b.order.company))
        (MapOrders.vec c.m_sellOrders sid) < UINT_MOD →
      (getMatchingSizeForSecurity c sid).1 =
        .ret (min b.currentQty (qtyWhere (fun s => decide (s.order.company ≠ b.order.company))
          (MapOrders.vec c.m_sellOrders sid)))) ∧
    (∀ s, MapOrders.vec c.m_sellOrders sid = [s] →
      qtyWhere (fun b => decide (b.order.company ≠ s.order.company))
        (MapOrders.vec c.m_buyOrders sid) < UINT_MOD →
      (getMatchingSizeForSecurity c sid).1 =
        .ret (min s.currentQty (qtyWhere (fun b => decide (b.order.company ≠ s.order.company))
          (MapOrders.vec c.m_buyOrders sid)))) := by
  obtain ⟨vs1, vb1, t1, hret, hvs, hvb, htr, hdone, hps, hpb, hos, hob⟩ :=
    getMatching_facts c h sid hsid
  obtain ⟨T, h1, h2, h3⟩ := trades_sums (fun _ => true) (fun _ => true) (fun _ _ _ => rfl)
    (fun _ _ _ => rfl) htr (fun _ _ _ _ _ => ⟨rfl, rfl⟩) (by simp [UINT_MOD])
  simp only [qtyWhere_true, Nat.zero_add] at h1 h2 h3
  rw [hret, h3]
  refine ⟨?_, ?_⟩
  · intro b hb hS
    rw [hb] at htr hob h2
    obtain ⟨T1, h4, h5, _⟩ := trades_sums
      (fun s => decide (s.order.company ≠ b.order.company)) (fun _ => true)
      (fun x y hxy => by simp only [hxy]) (fun _ _ _ => rfl) htr
      (fun s _ b1 hb1 hc => by
        rw [List.mem_singleton.mp hb1] at hc
        exact ⟨by simpa using hc, rfl⟩) (by simp [UINT_MOD])
    simp only [qtyWhere_true] at h4 h5
    have hTT : T1 = T := by omega
    subst hTT
    have hr : totalRemaining [b] = b.currentQty := by simp [totalRemaining]
    rw [hr] at h2
    generalize qtyWhere (fun s => decide (s.order.company ≠ b.order.company))
      (MapOrders.vec c.m_sellOrders sid) = S at h4 hS ⊢
    cases hw : vb1 with
    | nil =>
      rw [hw] at h2
      have hz : totalRemaining ([] : Vec) = 0 := rfl
      have hT : T1 = b.currentQty := by omega
      have hmin : min b.currentQty S = b.currentQty := Nat.min_eq_left (by omega)
      rw [hmin, hT, Nat.mod_eq_of_lt (by omega)]
    | cons y r =>
      have hy : y ∈ vb1 := by rw [hw]; exact List.mem_cons_self _ _
      have hyc : y.order.company = b.order.company := by
        obtain ⟨b0, hb0, hbo⟩ := hob y hy
        rw [List.mem_singleton.mp hb0] at hbo
        rw [hbo]
      have hz : qtyWhere (fun s => decide (s.order.company ≠ b.order.company)) vs1 = 0 := by
        apply qtyWhere_eq_zero
        intro x hx
        have := hdone x hx y hy
        simp [this, hyc]
      have hne : totalRemaining vb1 ≠ 0 := by
        intro h0
        have := totalRemaining_pos vb1 hpb h0
        rw [this] at hw
        cases hw
      have hT : T1 = S := by omega
      have hmin : min b.currentQty S = S := Nat.min_eq_right (by omega)
      rw [hmin, hT, Nat.mod_eq_of_lt hS]
  · intro s hs hS
    rw [hs] at htr hos h1
    obtain ⟨T1, h4, h5, _⟩ := trades_sums (fun _ => true)
      (fun b => decide (b.order.company ≠ s.order.company))
      (fun _ _ _ => rfl) (fun x y hxy => by simp only [hxy]) htr
      (fun s1 hs1 b _ hc => by
        rw [List.mem_singleton.mp hs1] at hc
        exact ⟨rfl, by simpa using Ne.symm hc⟩) (by simp [UINT_MOD])
    simp only [qtyWhere_true] at h4 h5
    have hTT : T1 = T := by omega
    subst hTT
    have hr : totalRemaining [s] = s.currentQty := by simp [totalRemaining]
    rw [hr] at h1
    generalize qtyWhere (fun b => decide (b.order.company ≠ s.order.company))
      (MapOrders.vec c.m_buyOrders sid) = S at h5 hS ⊢
    cases hw : vs1 with
    | nil =>
      rw [hw] at h1
      have hz : totalRemaining ([] : Vec) = 0 := rfl
      have hT : T1 = s.currentQty := by omega
      have hmin : min s.currentQty S = s.currentQty := Nat.min_eq_left (by omega)
      rw [hmin, hT, Nat.mod_eq_of_lt (by omega)]
    | cons y r =>
      have hy : y ∈ vs1 := by rw [hw]; exact List.mem_cons_self _ _
      have hyc : y.order.company = s.order.company := by
        obtain ⟨s0, hs0, hso⟩ := hos y hy
        rw [List.mem_singleton.mp hs0] at hso
        rw [hso]
      have hz : qtyWhere (fun b => decide (b.order.company ≠ s.order.company)) vb1 = 0 := by
        apply qtyWhere_eq_zero
        intro x hx
        have := hdone y hy x hx
        simp [← this, hyc]
      have hne : totalRemaining vs1 ≠ 0 := by
        intro h0
        have := totalRemaining_pos vs1 hps h0
        rw [this] at hw
        cases hw
      have hT : T1 = S := by omega
      have hmin : min s.currentQty S = S := Nat.min_eq_right (by omega)
      rw [hmin, hT, Nat.mod_eq_of_lt hS]

/-- Witness for C29: the single buy order of 5000 of `oneBuyer` faces sell orders of 2000 and
1000 of other companies and one of 700 of its own company; the call returns 3000. -/
theorem C29_witness :
    Reachable (runOps State.empty oneBuyer) ∧ "SecId1" ≠ "" ∧
    MapOrders.vec (runOps State.empty oneBuyer).m_buyOrders "SecId1" =
      [⟨⟨"OrdId1", "SecId1", "Buy", 5000, "User1", "Company1"⟩, 5000⟩] ∧
    qtyWhere (fun s => decide (s.order.company ≠ "Company1"))
      (MapOrders.vec (runOps State.empty oneBuyer).m_sellOrders "SecId1") = 3000 ∧
    (getMatchingSizeForSecurity (runOps State.empty oneBuyer) "SecId1").1 =
      .ret (min 5000 (qtyWhere (fun s => decide (s.order.company ≠ "Company1"))
        (MapOrders.vec (runOps State.empty oneBuyer).m_sellOrders "SecId1"))) :=
  ⟨reachable_of_run oneBuyer (by decide), by decide, by decide, by decide,
    (C29_single_order_side (runOps State.empty oneBuyer)
      (reachable_of_run oneBuyer (by decide)) "SecId1" (by decide)).1
      ⟨⟨"OrdId1", "SecId1", "Buy", 5000, "User1", "Company1"⟩, 5000⟩ (by decide)
      (by decide)⟩

/-! # Invariants, safety and termination (claims C31 to C39) -/

/-- C31: in every reachable book the identifiers of the live orders, taken over both maps and
all securities, are pairwise distinct, and the identifier of every live order is in the
id-set. -/
theorem C31_live_ids_distinct (c : State) (h : Reachable c) :
    (idsOf c.live).Nodup ∧ ∀ x ∈ c.live, x.order.orderId ∈ c.m_orderIds :=
  ⟨(reachable_inv_fits h).1.1, (reachable_inv_fits h).1.2.1⟩

/-- Witness for C31: the book of README example 1 after the matching call for `SecId2`. -/
theorem C31_witness :
    Reachable (runOps State.empty readme1Matched) ∧
    (idsOf (runOps State.empty readme1Matched).live).Nodup ∧
    ∀ x ∈ (runOps State.empty readme1Matched).live,
      x.order.orderId ∈ (runOps State.empty readme1Matched).m_orderIds :=
  ⟨reachable_of_run readme1Matched (by decide),
    C31_live_ids_distinct (runOps State.empty readme1Matched)
      (reachable_of_run readme1Matched (by decide))⟩

/-- C36: in every reachable book each order stored in the buy map under the key `k` has side
`Buy` and security id `k`, each order stored in the sell map under the key `k` has side `Sell`
and security id `k`, and all of them have a non-empty id, user and company and a non-zero
quantity. -/
theorem C36_orders_placed (c : State) (h : Reachable c) :
    (∀ p ∈ c.m_buyOrders, ∀ x ∈ p.2,
      x.order.side = "Buy" ∧ x.order.securityId = p.1 ∧ x.order.orderId ≠ "" ∧
        x.order.user ≠ "" ∧ x.order.company ≠ "" ∧ x.order.qty ≠ 0) ∧
    (∀ p ∈ c.m_sellOrders, ∀ x ∈ p.2,
      x.order.side = "Sell" ∧ x.order.securityId = p.1 ∧ x.order.orderId ≠ "" ∧
        x.order.user ≠ "" ∧ x.order.company ≠ "" ∧ x.order.qty ≠ 0) :=
  ⟨fun p hp x hx => (reachable_placed h).1.2 p hp x hx,
    fun p hp x hx => (reachable_placed h).2.2 p hp x hx⟩

/-- Witness for C36: the book of README example 1 after the matching call for `SecId2`. -/
theorem C36_witness :
    Reachable (runOps State.empty readme1Matched) ∧
    (∀ p ∈ (runOps State.empty readme1Matched).m_buyOrders, ∀ x ∈ p.2,
      x.order.side = "Buy" ∧ x.order.securityId = p.1 ∧ x.order.orderId ≠ "" ∧
        x.order.user ≠ "" ∧ x.order.company ≠ "" ∧ x.order.qty ≠ 0) :=
  ⟨reachable_of_run readme1Matched (by decide),
    (C36_orders_placed (runOps State.empty readme1Matched)
      (reachable_of_run readme1Matched (by decide))).1⟩

/-! ### The helper `erase` -/

theorem swapPop_last (l : Vec) (a : OrderExpander) :
    swapPop (l ++ [a]) l.length = l := by
  rw [swapPop_concat]
  simp

/-- C39: for every vector `v` (of fewer than 2^64 elements) and index `i < |v|`, `erase(v, i)`
returns a vector of length `|v| - 1` holding the elements of `v` other than `v[i]`. If `i` is
the last index, the result is `v` without its last element and the index stays `i`; otherwise
the former last element sits at position `i`, every other position below `|v| - 1` is
unchanged, and the index becomes `i - 1` modulo 2^64 (2^64 - 1 for `i = 0`), so that the
increment of the calling loop comes back to slot `i`. -/
theorem C39_erase_swaps_last (v : Vec) (i : Nat) (hi : i < v.length)
    (hv : v.length < SIZE_MOD) :
    ∃ w idx, erase v i = .ok (w, idx) ∧ w.length = v.length - 1 ∧
      List.Perm w (v.eraseIdx i) ∧
      (i + 1 = v.length → w = v.take i ∧ idx = i) ∧
      (i + 1 < v.length →
        w[i]? = v.getLast? ∧ (∀ k, k ≠ i → k + 1 < v.length → w[k]? = v[k]?) ∧
        idx = (SIZE_MOD - 1 + i) % SIZE_MOD ∧ (0 < i → idx = i - 1) ∧
        (i = 0 → idx = SIZE_MOD - 1) ∧ (idx + 1) % SIZE_MOD = i) := by
  refine ⟨swapPop v i, _, erase_eq v i hi hv, swapPop_length v i, swapPop_perm v i hi, ?_, ?_⟩
  · intro hlast
    have hn : ¬ i + 1 < v.length := by omega
    rw [if_neg hn]
    refine ⟨?_, rfl⟩
    rcases List.eq_nil_or_concat v with h0 | ⟨l, a, h0⟩
    · subst h0; simp at hi
    · subst h0
      rw [List.concat_eq_append] at hlast ⊢
      have hil : i = l.length := by simpa using hlast
      subst hil
      rw [swapPop_last, List.take_left]
  · intro hmid
    rw [if_pos hmid]
    have hidx : (SIZE_MOD - 1 + i) % SIZE_MOD + 1 = if i = 0 then SIZE_MOD else i := by
      unfold SIZE_MOD at *
      split <;> omega
    refine ⟨?_, ?_, rfl, ?_, ?_, index_redo i (by omega)⟩
    · rcases List.eq_nil_or_concat v with h0 | ⟨l, a, h0⟩
      · subst h0; simp at hi
      · subst h0
        rw [List.concat_eq_append] at hmid ⊢
        have hil : i < l.length := by simpa using hmid
        rw [swapPop_concat, if_pos hil, List.getElem?_set_self hil]
        simp
    · intro k hk hkl
      rcases List.eq_nil_or_concat v with h0 | ⟨l, a, h0⟩
      · subst h0; simp at hi
      · subst h0
        rw [List.concat_eq_append] at hmid hkl ⊢
        have hil : i < l.length := by simpa using hmid
        have hkl1 : k < l.length := by simpa using hkl
        rw [swapPop_concat, if_pos hil, List.getElem?_set_ne (Ne.symm hk),
          List.getElem?_append_left hkl1]
    · intro h0
      rw [if_neg (by omega)] at hidx
      omega
    · intro h0
      rw [if_pos h0] at hidx
      omega

/-- Witness for C39: erasing slot 0 of a vector of three elements; the last element moves to
slot 0 and the index wraps to 2^64 - 1. -/
theorem C39_witness :
    erase [⟨⟨"A", "S", "Buy", 1, "U", "C"⟩, 1⟩, ⟨⟨"B", "S", "Buy", 2, "U", "C"⟩, 2⟩,
        ⟨⟨"D", "S", "Buy", 3, "U", "C"⟩, 3⟩] 0 =
      .ok ([⟨⟨"D", "S", "Buy", 3, "U", "C"⟩, 3⟩, ⟨⟨"B", "S", "Buy", 2, "U", "C"⟩, 2⟩],
        SIZE_MOD - 1) ∧
    ∃ w idx, erase [⟨⟨"A", "S", "Buy", 1, "U", "C"⟩, 1⟩, ⟨⟨"B", "S", "Buy", 2, "U", "C"⟩, 2⟩,
        ⟨⟨"D", "S", "Buy", 3, "U", "C"⟩, 3⟩] 0 = .ok (w, idx) ∧ w.length = 3 - 1 :=
  ⟨rfl,
    (C39_erase_swaps_last [⟨⟨"A", "S", "Buy", 1, "U", "C"⟩, 1⟩,
        ⟨⟨"B", "S", "Buy", 2, "U", "C"⟩, 2⟩, ⟨⟨"D", "S", "Buy", 3, "U", "C"⟩, 3⟩] 0
      (by decide) (by simp [SIZE_MOD])).elim
      (fun w hw => hw.elim (fun idx hidx => ⟨w, idx, hidx.1, hidx.2.1⟩))⟩

/-! ### The identifier of an order rejected for its side -/

theorem addOrder_invalid_side (c : State) (o : Order) (ho : o.filled)
    (hnew : o.orderId ∉ c.m_orderIds) (hb : o.side ≠ BUY) (hs : o.side ≠ SELL) :
    addOrder c o = (.invalid_argument "Error:invalid side!",
      { c with m_orderIds := insert o.orderId c.m_orderIds }) := by
  obtain ⟨h1, h2, h3, h4, h5, h6⟩ := ho
  unfold addOrder
  rw [if_neg h1, if_neg h2, if_neg h3, if_neg h4, if_neg h5, if_neg h6, if_neg hnew]
  simp only
  rw [if_neg hb, if_neg hs]

/-- C34: for every book and every order with non-empty fields, non-zero quantity, an id `X`
not in the id-set and a side other than `Buy` and `Sell`, `addOrder` throws
`std::invalid_argument`, leaves both maps unchanged and inserts `X` into the id-set. A
following `addOrder` of a valid order with id `X` throws the duplicate error; in a reachable
book it still does after any sequence of public calls without `cancelOrder(X)`, and succeeds
right after `cancelOrder(X)`. -/
theorem C34_invalid_side_reserves (c : State) (o : Order) (ho : o.filled)
    (hnew : o.orderId ∉ c.m_orderIds) (hb : o.side ≠ "Buy") (hs : o.side ≠ "Sell") :
    addOrder c o = (.invalid_argument "Error:invalid side!",
      { c with m_orderIds := insert o.orderId c.m_orderIds }) ∧
    (∀ o1 : Order, o1.valid → o1.orderId = o.orderId →
      addOrder (addOrder c o).2 o1 =
        (.runtime_error "Error: order ID have already exist!", (addOrder c o).2)) ∧
    (Reachable c → ∀ ops d, Trace (addOrder c o).2 ops d → Op.cancelOrder o.orderId ∉ ops →
      ∀ o1 : Order, o1.valid → o1.orderId = o.orderId →
        addOrder d o1 = (.runtime_error "Error: order ID have already exist!", d)) ∧
    (Reachable c → ∀ o1 : Order, o1.valid → o1.orderId = o.orderId →
      (addOrder (cancelOrder (addOrder c o).2 o.orderId).2 o1).1 = .ret ()) := by
  have hrun := addOrder_invalid_side c o ho hnew hb hs
  have hin : o.orderId ∈ (addOrder c o).2.m_orderIds := by
    rw [hrun]
    exact Finset.mem_insert_self _ _
  have hlive : (addOrder c o).2.live = c.live := by rw [hrun]; rfl
  have hfits : Fits c → Fits (addOrder c o).2 := by
    intro hf
    rw [hrun]
    exact hf
  refine ⟨hrun, ?_, ?_, ?_⟩
  · intro o1 hv hid
    exact addOrder_duplicate _ o1 hv (by rw [hid]; exact hin)
  · intro hr ops d htr hops o1 hv hid
    obtain ⟨hinv, hf⟩ := reachable_inv_fits hr
    have hnl : o.orderId ∉ idsOf (addOrder c o).2.live := by
      rw [hlive]
      intro hmem
      exact hnew (live_id_mem_ids hinv hmem)
    obtain ⟨⟨h1, _⟩, _⟩ := reserved_trace htr o.orderId (hfits hf) hops hin hnl
    exact addOrder_duplicate d o1 hv (by rw [hid]; exact h1)
  · intro hr o1 hv hid
    obtain ⟨_, hf⟩ := reachable_inv_fits hr
    obtain ⟨_, hids, _⟩ := cancelOrder_run (addOrder c o).2 o.orderId ho.1 (hfits hf)
    refine (addOrder_valid_run _ o1 hv ?_).1
    rw [hid, hids]
    exact Finset.not_mem_erase _ _

/-- Witness for C34: the order of the test `EdgeCases_AddOrder_InvalidSideThrowsException`
on the empty book; its id `OrdId1` is refused as a duplicate afterwards. -/
theorem C34_witness :
    holdOrder.filled ∧ holdOrder.orderId ∉ State.empty.m_orderIds ∧
    holdOrder.side ≠ "Buy" ∧ holdOrder.side ≠ "Sell" ∧
    addOrder State.empty holdOrder = (.invalid_argument "Error:invalid side!",
      { State.empty with m_orderIds := insert holdOrder.orderId State.empty.m_orderIds }) ∧
    addOrder (addOrder State.empty holdOrder).2
        ⟨"OrdId1", "SecId1", "Buy", 500, "User1", "Company1"⟩ =
      (.runtime_error "Error: order ID have already exist!",
        (addOrder State.empty holdOrder).2) :=
  ⟨by decide, by decide, by decide, by decide,
    (C34_invalid_side_reserves State.empty holdOrder (by decide) (by decide) (by decide)
      (by decide)).1,
    (C34_invalid_side_reserves State.empty holdOrder (by decide) (by decide) (by decide)
      (by decide)).2.1 ⟨"OrdId1", "SecId1", "Buy", 500, "User1", "Company1"⟩ (by decide) rfl⟩

/-! ### No access out of range -/

/-- C37: on every reachable book no call of `getMatchingSizeForSecurity`, `cancelOrder`,
`cancelOrdersForUser` or `cancelOrdersForSecIdWithMinimumQty` ends in the fault `outOfRange`,
which the model raises at any vector access outside the bounds (`vecSell[i]`, `vecBuy[j]`,
also right after a removal, and the accesses of the cancellation loops) and at any call of
`erase` on an empty vector: with valid arguments the calls return, with an empty or zero
argument they throw `std::invalid_argument` before any access. -/
theorem C37_accesses_in_bounds (c : State) (h : Reachable c) :
    (∀ sid, (getMatchingSizeForSecurity c sid).1 ≠ .fault .outOfRange ∧
      (sid ≠ "" → ∃ t, (getMatchingSizeForSecurity c sid).1 = .ret t)) ∧
    (∀ id, (cancelOrder c id).1 ≠ .fault .outOfRange ∧
      (id ≠ "" → (cancelOrder c id).1 = .ret ())) ∧
    (∀ u, (cancelOrdersForUser c u).1 ≠ .fault .outOfRange ∧
      (u ≠ "" → (cancelOrdersForUser c u).1 = .ret ())) ∧
    (∀ s q, (cancelOrdersForSecIdWithMinimumQty c s q).1 ≠ .fault .outOfRange ∧
      (s ≠ "" → 0 < q → (cancelOrdersForSecIdWithMinimumQty c s q).1 = .ret ())) := by
  have hf := (reachable_inv_fits h).2
  refine ⟨?_, ?_, ?_, ?_⟩
  · intro sid
    by_cases hsid : sid = ""
    · refine ⟨?_, fun hne => absurd hsid hne⟩
      simp [getMatchingSizeForSecurity, hsid]
    · obtain ⟨_, _, t1, hret, _⟩ := getMatching_run c sid hsid hf
      refine ⟨?_, fun _ => ⟨t1, hret⟩⟩
      rw [hret]
      intro hc; cases hc
  · intro id
    by_cases hid : id = ""
    · refine ⟨?_, fun hne => absurd hid hne⟩
      simp [cancelOrder, hid]
    · have hret := (cancelOrder_run c id hid hf).1
      refine ⟨?_, fun _ => hret⟩
      rw [hret]
      intro hc; cases hc
  · intro u
    by_cases hu : u = ""
    · refine ⟨?_, fun hne => absurd hu hne⟩
      simp [cancelOrdersForUser, hu]
    · have hret := (cancelOrdersForUser_run c u hu hf).1
      refine ⟨?_, fun _ => hret⟩
      rw [hret]
      intro hc; cases hc
  · intro s q
    by_cases hs : s = ""
    · refine ⟨?_, fun hne => absurd hs hne⟩
      simp [cancelOrdersForSecIdWithMinimumQty, hs]
    by_cases hq : q = 0
    · refine ⟨?_, fun _ hpos => by omega⟩
      simp [cancelOrdersForSecIdWithMinimumQty, hs, hq]
    · obtain ⟨vb, vs, hrun, _⟩ := cancelMinQty_run c s q hs hq hf
      rw [hrun]
      refine ⟨?_, fun _ _ => rfl⟩
      intro hc; cases hc

/-- Witness for C37: the matching call for `SecId2` on the book of README example 1, which
removes three buy orders, returns. -/
theorem C37_witness :
    Reachable (runOps State.empty readme1) ∧
    (getMatchingSizeForSecurity (runOps State.empty readme1) "SecId2").1 ≠
      .fault .outOfRange ∧
    (cancelOrdersForUser (runOps State.empty readme1) "User2").1 ≠ .fault .outOfRange :=
  ⟨reachable_of_run readme1 (by decide),
    ((C37_accesses_in_bounds (runOps State.empty readme1)
      (reachable_of_run readme1 (by decide))).1 "SecId2").1,
    ((C37_accesses_in_bounds (runOps State.empty readme1)
      (reachable_of_run readme1 (by decide))).2.2.1 "User2").1⟩

/-! ### A repeated matching call -/

/-- The buy map the outer loop returns: untouched when the loop body never runs, and else the
map with the final buy vector written under the key of the security. -/
theorem matchSells_buys (sid : String) (fuel : Nat) : ∀ (vs : Vec) (buys : MapOrders) (i t : Nat)
    (vs1 : Vec) (buys1 : MapOrders) (t1 : Nat),
    matchSells fuel sid vs buys i t = .ok (vs1, buys1, t1) →
    buys1 = if i < vs.length then MapOrders.put buys sid (MapOrders.vec buys1 sid) else buys := by
  induction fuel with
  | zero =>
    intro vs buys i t vs1 buys1 t1 h
    rw [matchSells_zero] at h
    cases h
  | succ fuel ih =>
    intro vs buys i t vs1 buys1 t1 h
    unfold matchSells at h
    by_cases hi : i < vs.length
    · rw [if_pos hi] at h ⊢
      simp only at h
      cases hrun : matchBuys ((MapOrders.subscript buys sid).2.length + 1)
          ⟨vs, (MapOrders.subscript buys sid).2, i, t⟩ 0 with
      | error e =>
        rw [hrun] at h
        cases h
      | ok st =>
        rw [hrun] at h
        simp only at h
        have hput : MapOrders.assign (MapOrders.subscript buys sid).1 sid st.vecBuy =
            MapOrders.put buys sid st.vecBuy := rfl
        rw [hput] at h
        have := ih _ _ _ _ _ _ _ h
        by_cases h2 : (st.i + 1) % SIZE_MOD < st.vecSell.length
        · rw [if_pos h2, put_put] at this
          exact this
        · rw [if_neg h2] at this
          rw [this, vec_put_same]
    · rw [if_neg hi] at h ⊢
      simp only [Except.ok.injEq, Prod.mk.injEq] at h
      exact h.2.1.symm

/-- The state `getMatchingSizeForSecurity` leaves, with the buy map made explicit. -/
theorem getMatching_state (c : State) (sid : String) (hsid : sid ≠ "")
    (hs : (MapOrders.vec c.m_sellOrders sid).length < SIZE_MOD)
    (hb : (MapOrders.vec c.m_buyOrders sid).length < SIZE_MOD) :
    ∃ vs1 buys1 t1,
      getMatchingSizeForSecurity c sid =
        (.ret t1, { c with m_sellOrders := MapOrders.put c.m_sellOrders sid vs1,
                           m_buyOrders := buys1 }) ∧
      Trades (MapOrders.vec c.m_sellOrders sid, MapOrders.vec c.m_buyOrders sid, 0)
        (vs1, MapOrders.vec buys1 sid, t1) ∧
      buys1 = (if 0 < (MapOrders.vec c.m_sellOrders sid).length then
        MapOrders.put c.m_buyOrders sid (MapOrders.vec buys1 sid) else c.m_buyOrders) := by
  obtain ⟨vs1, buys1, t1, hrun, htr, _⟩ := matchSells_spec sid
    ((MapOrders.vec c.m_sellOrders sid).length + 1) (MapOrders.vec c.m_sellOrders sid)
    c.m_buyOrders 0 0 hs hb (by simp)
  have hbuys := matchSells_buys sid _ _ _ _ _ _ _ _ hrun
  unfold getMatchingSizeForSecurity
  simp only [hsid, if_false, subscript_snd, hrun]
  exact ⟨vs1, buys1, t1, rfl, htr, hbuys⟩

/-- C32: for every reachable book and non-empty security id, `getMatchingSizeForSecurity`
returns, and in the book it leaves every remaining sell order of the security has the company
of every remaining buy order of the security; an immediately repeated call returns 0 and
leaves that book exactly as it is. -/
theorem C32_no_pair_left (c : State) (h : Reachable c) (sid : String) (hsid : sid ≠ "") :
    (∃ t, (getMatchingSizeForSecurity c sid).1 = .ret t) ∧
    (∀ x ∈ MapOrders.vec (getMatchingSizeForSecurity c sid).2.m_sellOrders sid,
      ∀ b ∈ MapOrders.vec (getMatchingSizeForSecurity c sid).2.m_buyOrders sid,
        x.order.company = b.order.company) ∧
    getMatchingSizeForSecurity (getMatchingSizeForSecurity c sid).2 sid =
      (.ret 0, (getMatchingSizeForSecurity c sid).2) := by
  have hf := (reachable_inv_fits h).2
  have hs := vec_length_lt _ sid (fits_sell hf)
  have hb := vec_length_lt _ sid (fits_buy hf)
  have hdone := getMatching_done c sid hsid hs hb
  have hf1 := fits_getMatching c sid hf
  obtain ⟨vs1, buys1, t1, hrun, htr, hbuys⟩ := getMatching_state c sid hsid hs hb
  refine ⟨⟨t1, by rw [hrun]⟩, hdone, ?_⟩
  obtain ⟨vs2, buys2, t2, hrun2, htr2, hbuys2⟩ := getMatching_state
    (getMatchingSizeForSecurity c sid).2 sid hsid (vec_length_lt _ sid (fits_sell hf1))
    (vec_length_lt _ sid (fits_buy hf1))
  have heq := Trades.eq_of_no_pair htr2 hdone
  rw [hrun2]
  rw [hrun] at heq hbuys2 ⊢
  simp only [vec_put_same, Prod.mk.injEq] at heq hbuys2 ⊢
  obtain ⟨h1, h2, h3⟩ := heq
  subst h1 h3
  refine ⟨rfl, ?_⟩
  have hl := (trades_length_le htr).1
  simp only at hl
  have hb2 : buys2 = buys1 := by
    by_cases hv : 0 < vs2.length
    · rw [if_pos hv, h2] at hbuys2
      rw [if_pos (by omega)] at hbuys
      rw [hbuys2]
      generalize MapOrders.vec buys1 sid = w at hbuys ⊢
      rw [hbuys, put_put]
    · rw [if_neg hv] at hbuys2
      exact hbuys2
  rw [hb2, put_put]

/-- Witness for C32: after the call for `SecId2` on the book of README example 1, which
returns 2700, a second call returns 0 and changes nothing. -/
theorem C32_witness :
    Reachable (runOps State.empty readme1) ∧ "SecId2" ≠ "" ∧
    (getMatchingSizeForSecurity (runOps State.empty readme1) "SecId2").1 = .ret 2700 ∧
    getMatchingSizeForSecurity
        (getMatchingSizeForSecurity (runOps State.empty readme1) "SecId2").2 "SecId2" =
      (.ret 0, (getMatchingSizeForSecurity (runOps State.empty readme1) "SecId2").2) :=
  ⟨reachable_of_run readme1 (by decide), by decide, by decide,
    (C32_no_pair_left (runOps State.empty readme1) (reachable_of_run readme1 (by decide))
      "SecId2" (by decide)).2.2⟩

/-! ### A positive total -/

/-- A run of trades between orders of positive remaining quantity that leaves the sum on the
sell side as it was is the empty run. -/
theorem trades_zero {x y : Vec × Vec × Nat} (h : Trades x y)
    (hs : ∀ o ∈ x.1, 0 < o.currentQty) (hb : ∀ o ∈ x.2.1, 0 < o.currentQty)
    (ht : x.2.2 < UINT_MOD) (hsum : totalRemaining y.1 = totalRemaining x.1) : y = x := by
  rcases Relation.ReflTransGen.cases_tail h with h0 | ⟨z, hxz, hstep⟩
  · exact h0
  · exfalso
    obtain ⟨T, h1, _, _⟩ := trades_sums (fun _ => true) (fun _ => true) (fun _ _ _ => rfl)
      (fun _ _ _ => rfl) hxz (fun _ _ _ _ _ => ⟨rfl, rfl⟩) ht
    have hpos := trades_pos hxz hs hb
    cases hstep with
    | trade vs vb t i j s b h2 h3 hc =>
      have h4 := settle_qtyWhere (fun _ => true) (fun _ _ _ => rfl) vs i s
        (min s.currentQty b.currentQty) h2 (Nat.min_le_left _ _)
      have hsp := hpos.1 s (List.getElem?_mem h2)
      have hbp := hpos.2 b (List.getElem?_mem h3)
      simp only [qtyWhere_true, if_true] at h1 h4 hsum
      have hm : 0 < min s.currentQty b.currentQty := Nat.lt_min.mpr ⟨hsp, hbp⟩
      omega

/-- C33: for every reachable book and non-empty security id, with `T` the exact sum of the
traded amounts (the call returns `T` modulo 2^32 and the sell-side sum goes down by `T`),
`T` is positive if and only if some live sell order and some live buy order of the security
have different companies; so when `T < 2^32` the value returned is positive if and only if
such a pair exists. -/
theorem C33_positive_iff_pair (c : State) (h : Reachable c) (sid : String) (hsid : sid ≠ "") :
    ∃ T, (getMatchingSizeForSecurity c sid).1 = .ret (T % UINT_MOD) ∧
      totalRemaining (MapOrders.vec (getMatchingSizeForSecurity c sid).2.m_sellOrders sid) + T =
        totalRemaining (MapOrders.vec c.m_sellOrders sid) ∧
      ((∃ x ∈ MapOrders.vec c.m_sellOrders sid, ∃ b ∈ MapOrders.vec c.m_buyOrders sid,
          x.order.company ≠ b.order.company) ↔ 0 < T) ∧
      (T < UINT_MOD →
        ((∃ x ∈ MapOrders.vec c.m_sellOrders sid, ∃ b ∈ MapOrders.vec c.m_buyOrders sid,
          x.order.company ≠ b.order.company) ↔
        ∃ t, (getMatchingSizeForSecurity c sid).1 = .ret t ∧ 0 < t)) := by
  obtain ⟨hinv, hf⟩ := reachable_inv_fits h
  obtain ⟨vs1, vb1, t1, hret, hvs, hvb, htr, hdone, _, _, _, _⟩ :=
    getMatching_facts c h sid hsid
  obtain ⟨T, h1, _, h3⟩ := trades_sums (fun _ => true) (fun _ => true) (fun _ _ _ => rfl)
    (fun _ _ _ => rfl) htr (fun _ _ _ _ _ => ⟨rfl, rfl⟩) (by simp [UINT_MOD])
  simp only [qtyWhere_true, Nat.zero_add] at h1 h3
  have hps : ∀ o ∈ MapOrders.vec c.m_sellOrders sid, 0 < o.currentQty :=
    fun o ho => hinv.2.2 o (List.mem_append_right _ (vec_subset_all _ _ ho))
  have hpb : ∀ o ∈ MapOrders.vec c.m_buyOrders sid, 0 < o.currentQty :=
    fun o ho => hinv.2.2 o (List.mem_append_left _ (vec_subset_all _ _ ho))
  have hiff : (∃ x ∈ MapOrders.vec c.m_sellOrders sid, ∃ b ∈ MapOrders.vec c.m_buyOrders sid,
      x.order.company ≠ b.order.company) ↔ 0 < T := by
    constructor
    · rintro ⟨x, hx, b, hb, hc⟩
      by_contra hT
      have hT0 : T = 0 := by omega
      have heq := trades_zero htr hps hpb (by simp [UINT_MOD]) (by simp only; omega)
      simp only [Prod.mk.injEq] at heq
      obtain ⟨e1, e2, _⟩ := heq
      subst e1 e2
      exact hc (hdone x hx b hb)
    · intro hT
      by_contra hno
      have hall : ∀ s ∈ MapOrders.vec c.m_sellOrders sid,
          ∀ b ∈ MapOrders.vec c.m_buyOrders sid, s.order.company = b.order.company := by
        intro s hs b hb
        by_contra hc
        exact hno ⟨s, hs, b, hb, hc⟩
      have heq := Trades.eq_of_no_pair htr hall
      simp only [Prod.mk.injEq] at heq
      obtain ⟨e1, _, _⟩ := heq
      subst e1
      omega
  rw [hret, hvs, h3]
  refine ⟨T, rfl, h1, hiff, ?_⟩
  intro hT
  rw [hiff, Nat.mod_eq_of_lt hT]
  constructor
  · intro hp
    exact ⟨T, rfl, hp⟩
  · rintro ⟨t, ht, hp⟩
    cases ht
    exact hp

/-- Witness for C33: the book of README example 1 and `SecId2`, where the sell `OrdId2`
(CompanyB) faces the buy `OrdId4` (CompanyC); the call returns 2700. -/
theorem C33_witness :
    Reachable (runOps State.empty readme1) ∧ "SecId2" ≠ "" ∧
    (getMatchingSizeForSecurity (runOps State.empty readme1) "SecId2").1 = .ret 2700 ∧
    ∃ T, (getMatchingSizeForSecurity (runOps State.empty readme1) "SecId2").1 =
        .ret (T % UINT_MOD) ∧
      ((∃ x ∈ MapOrders.vec (runOps State.empty readme1).m_sellOrders "SecId2",
          ∃ b ∈ MapOrders.vec (runOps State.empty readme1).m_buyOrders "SecId2",
          x.order.company ≠ b.order.company) ↔ 0 < T) :=
  ⟨reachable_of_run readme1 (by decide), by decide, by decide,
    (C33_positive_iff_pair (runOps State.empty readme1)
      (reachable_of_run readme1 (by decide)) "SecId2" (by decide)).elim
      (fun T hT => ⟨T, hT.1, hT.2.2.1⟩)⟩

/-! ### The 32-bit total -/

/-- C35: for every reachable book and non-empty security id the value
`getMatchingSizeForSecurity` returns is the exact sum `T` of the traded amounts reduced modulo
2^32 (`T` being the amount by which the sell-side sum and the buy-side sum of remaining
quantities both go down), and it is `T` itself whenever the sell-side sum or the buy-side sum
before the call is below 2^32. In the book `wrapBook`, three sell and three buy orders of
2^31 each of six companies, all orders trade in full (`T = 3 * 2^31`) and the call returns
2^31. -/
theorem C35_total_modulo_32_bit :
    (∀ c, Reachable c → ∀ sid, sid ≠ "" →
      ∃ T, (getMatchingSizeForSecurity c sid).1 = .ret (T % UINT_MOD) ∧
        totalRemaining (MapOrders.vec (getMatchingSizeForSecurity c sid).2.m_sellOrders sid)
          + T = totalRemaining (MapOrders.vec c.m_sellOrders sid) ∧
        totalRemaining (MapOrders.vec (getMatchingSizeForSecurity c sid).2.m_buyOrders sid)
          + T = totalRemaining (MapOrders.vec c.m_buyOrders sid) ∧
        (totalRemaining (MapOrders.vec c.m_sellOrders sid) < UINT_MOD ∨
          totalRemaining (MapOrders.vec c.m_buyOrders sid) < UINT_MOD →
          (getMatchingSizeForSecurity c sid).1 = .ret T)) ∧
    Reachable (runOps State.empty wrapBook) ∧
    totalRemaining (MapOrders.vec (runOps State.empty wrapBook).m_sellOrders "Sec") =
      3 * 2147483648 ∧
    totalRemaining (MapOrders.vec
      (getMatchingSizeForSecurity (runOps State.empty wrapBook) "Sec").2.m_sellOrders "Sec") =
        0 ∧
    (getMatchingSizeForSecurity (runOps State.empty wrapBook) "Sec").1 = .ret 2147483648 := by
  refine ⟨?_, reachable_of_run wrapBook (by decide), by decide, by decide, by decide⟩
  intro c h sid hsid
  obtain ⟨vs1, vb1, t1, hret, htr, hvs, hvb, _⟩ := getMatching_run c sid hsid
    (reachable_inv_fits h).2
  obtain ⟨T, h1, h2, h3⟩ := trades_sums (fun _ => true) (fun _ => true) (fun _ _ _ => rfl)
    (fun _ _ _ => rfl) htr (fun _ _ _ _ _ => ⟨rfl, rfl⟩) (by simp [UINT_MOD])
  simp only [qtyWhere_true, Nat.zero_add] at h1 h2 h3
  rw [hvs, hvb, hret, h3]
  refine ⟨T, rfl, h1, h2, ?_⟩
  intro hlt
  rw [Nat.mod_eq_of_lt (by omega)]

/-- Witness for C35: on the book of README example 1 the buy side of `SecId2` sums to 2700,
below 2^32, and the call returns the exact total. -/
theorem C35_witness :
    Reachable (runOps State.empty readme1) ∧ "SecId2" ≠ "" ∧
    ∃ T, (getMatchingSizeForSecurity (runOps State.empty readme1) "SecId2").1 =
        .ret (T % UINT_MOD) ∧
      totalRemaining (MapOrders.vec
        (getMatchingSizeForSecurity (runOps State.empty readme1) "SecId2").2.m_buyOrders
          "SecId2") + T =
        totalRemaining (MapOrders.vec (runOps State.empty readme1).m_buyOrders "SecId2") :=
  ⟨reachable_of_run readme1 (by decide), by decide,
    (C35_total_modulo_32_bit.1 (runOps State.empty readme1)
      (reachable_of_run readme1 (by decide)) "SecId2" (by decide)).elim
      (fun T hT => ⟨T, hT.1, hT.2.2.1⟩)⟩

/-! ### Counting the iterations of the inner loop -/

/-- The counting loop runs as `matchBuys` does, and from slot `j` it makes at most as many
iterations as there are buy slots from `j` on: every iteration either moves on to the next
slot, shortens the buy vector, or leaves the loop. -/
theorem matchBuysCount_spec (fuel : Nat) : ∀ (st : MatchVars) (j n : Nat),
    st.vecSell.length < SIZE_MOD → st.vecBuy.length < SIZE_MOD →
    st.i < st.vecSell.length → st.vecBuy.length - j < fuel →
    ∃ st1 n1, matchBuysCount fuel st j n = .ok (st1, n1) ∧ matchBuys fuel st j = .ok st1 ∧
      n1 ≤ n + (st.vecBuy.length - j) := by
  induction fuel with
  | zero => intro st j n _ _ _ h; omega
  | succ fuel ih =>
    intro st j n hvs hvb hi hfuel
    unfold matchBuysCount matchBuys
    by_cases hj : j < st.vecBuy.length
    · simp only [hj, if_true]
      obtain ⟨vs, vb, i, t⟩ := st
      simp only at hvs hvb hi hfuel hj ⊢
      rw [List.getElem?_eq_getElem hi, List.getElem?_eq_getElem hj]
      simp only
      generalize vs[i] = s
      generalize vb[j] = b
      by_cases hc : s.order.company = b.order.company
      · simp only [hc, if_true]
        rw [size_succ_mod j _ hj hvb]
        obtain ⟨st1, n1, h1, h2, h3⟩ := ih ⟨vs, vb, i, t⟩ (j + 1) (n + 1) hvs hvb hi
          (by simp only; omega)
        exact ⟨st1, n1, h1, h2, by simp only at h3; omega⟩
      · simp only [hc, if_false]
        obtain ⟨j1, hej, hj1⟩ := erase_next vb j hj hvb
        by_cases hge : s.currentQty ≥ b.currentQty
        · simp only [hge, if_true, hej]
          by_cases hz : s.currentQty - b.currentQty = 0
          · simp only [hz, if_true]
            obtain ⟨i1, hei, hi1⟩ := erase_next (vs.set i { s with currentQty := 0 }) i
              (by simpa using hi) (by simpa using hvs)
            simp only [hei]
            exact ⟨_, _, rfl, rfl, by omega⟩
          · simp only [hz, if_false]
            obtain ⟨st1, n1, h1, h2, h3⟩ := ih
              ⟨vs.set i { s with currentQty := s.currentQty - b.currentQty }, swapPop vb j, i,
                (t + b.currentQty) % UINT_MOD⟩ ((j1 + 1) % SIZE_MOD) (n + 1)
              (by simpa using hvs) (by simp only [swapPop_length]; omega) (by simpa using hi)
              (by simp only [swapPop_length, hj1]; split <;> omega)
            refine ⟨st1, n1, h1, h2, ?_⟩
            simp only [swapPop_length, hj1] at h3
            split at h3 <;> omega
        · simp only [hge, if_false]
          obtain ⟨i1, hei, hi1⟩ := erase_next vs i hi hvs
          simp only [hei]
          exact ⟨_, _, rfl, rfl, by omega⟩
    · simp only [hj, if_false]
      exact ⟨st, n, rfl, rfl, by omega⟩

/-- The counting outer loop runs as `matchSells` does, and the inner iterations of the sell
slots from `i` on number at most (sell slots from `i` on) times (buy orders). -/
theorem matchSellsCount_spec (sid : String) (fuel : Nat) :
    ∀ (vs : Vec) (buys : MapOrders) (i t n : Nat),
    vs.length < SIZE_MOD → (MapOrders.vec buys sid).length < SIZE_MOD →
    vs.length - i < fuel →
    ∃ r n1, matchSellsCount fuel sid vs buys i t n = .ok (r, n1) ∧
      matchSells fuel sid vs buys i t = .ok r ∧
      n1 ≤ n + (vs.length - i) * (MapOrders.vec buys sid).length := by
  induction fuel with
  | zero => intro vs buys i t n _ _ h; omega
  | succ fuel ih =>
    intro vs buys i t n hvs hvb hfuel
    unfold matchSellsCount matchSells
    by_cases hi : i < vs.length
    · simp only [hi, if_true, subscript_snd]
      obtain ⟨st1, n0, hcount, hrun, hn0⟩ := matchBuysCount_spec
        ((MapOrders.vec buys sid).length + 1) ⟨vs, MapOrders.vec buys sid, i, t⟩ 0 n hvs hvb hi
        (by simp)
      obtain ⟨st2, hrun2, htr, hlen⟩ := matchBuys_spec ((MapOrders.vec buys sid).length + 1)
        ⟨vs, MapOrders.vec buys sid, i, t⟩ 0 hvs hvb hi (by simp)
      have hst : st2 = st1 := by
        rw [hrun] at hrun2
        exact (Except.ok.inj hrun2).symm
      subst hst
      have hl := trades_length_le htr
      simp only at hl hlen hn0
      simp only [hcount, hrun]
      have hput : MapOrders.assign (MapOrders.subscript buys sid).1 sid st2.vecBuy =
          MapOrders.put buys sid st2.vecBuy := rfl
      rw [hput]
      obtain ⟨r, n1, h1, h2, h3⟩ := ih st2.vecSell (MapOrders.put buys sid st2.vecBuy)
        ((st2.i + 1) % SIZE_MOD) st2.totalQty n0 (by omega) (by rw [vec_put_same]; omega)
        (by omega)
      refine ⟨r, n1, h1, h2, ?_⟩
      rw [vec_put_same] at h3
      have e1 : (st2.vecSell.length - (st2.i + 1) % SIZE_MOD) * st2.vecBuy.length ≤
          (st2.vecSell.length - (st2.i + 1) % SIZE_MOD) * (MapOrders.vec buys sid).length :=
        Nat.mul_le_mul_left _ hl.2
      have e2 : (st2.vecSell.length - (st2.i + 1) % SIZE_MOD + 1) *
          (MapOrders.vec buys sid).length ≤ (vs.length - i) * (MapOrders.vec buys sid).length :=
        Nat.mul_le_mul_right _ hlen
      rw [Nat.succ_mul] at e2
      omega
    · simp only [hi, if_false]
      exact ⟨_, n, rfl, rfl, by omega⟩

/-- C38: on every reachable book the calls terminate: `getMatchingSizeForSecurity` and the
three cancellations never exhaust the iterations their loops are given (vector size plus one,
the index wrap-around of `erase` included), and with `S` sell orders and `B` buy orders of a
non-empty security the inner loop of `getMatchingSizeForSecurity` makes at most `S * B`
iterations in one call, hence at most `S * B` plus the number of removals (the orders the call
takes out of the two vectors). -/
theorem C38_matching_terminates (c : State) (h : Reachable c) :
    (∀ sid, sid ≠ "" →
      ∃ n, getMatchingIterations c sid = .ok n ∧
        n ≤ (MapOrders.vec c.m_sellOrders sid).length *
          (MapOrders.vec c.m_buyOrders sid).length ∧
        n ≤ (MapOrders.vec c.m_sellOrders sid).length *
            (MapOrders.vec c.m_buyOrders sid).length +
          (((MapOrders.vec c.m_sellOrders sid).length -
              (MapOrders.vec (getMatchingSizeForSecurity c sid).2.m_sellOrders sid).length) +
            ((MapOrders.vec c.m_buyOrders sid).length -
              (MapOrders.vec (getMatchingSizeForSecurity c sid).2.m_buyOrders sid).length))) ∧
    (∀ sid, (getMatchingSizeForSecurity c sid).1 ≠ .fault .outOfFuel) ∧
    (∀ id, (cancelOrder c id).1 ≠ .fault .outOfFuel) ∧
    (∀ u, (cancelOrdersForUser c u).1 ≠ .fault .outOfFuel) ∧
    (∀ s q, (cancelOrdersForSecIdWithMinimumQty c s q).1 ≠ .fault .outOfFuel) := by
  have hf := (reachable_inv_fits h).2
  refine ⟨?_, ?_, ?_, ?_, ?_⟩
  · intro sid _
    obtain ⟨r, n1, h1, _, h3⟩ := matchSellsCount_spec sid
      ((MapOrders.vec c.m_sellOrders sid).length + 1) (MapOrders.vec c.m_sellOrders sid)
      c.m_buyOrders 0 0 0 (vec_length_lt _ sid (fits_sell hf))
      (vec_length_lt _ sid (fits_buy hf)) (by simp)
    have hn : n1 ≤ (MapOrders.vec c.m_sellOrders sid).length *
        (MapOrders.vec c.m_buyOrders sid).length := by
      simpa using h3
    refine ⟨n1, ?_, hn, Nat.le_trans hn (Nat.le_add_right _ _)⟩
    unfold getMatchingIterations
    simp only [subscript_snd, h1]
  · intro sid
    by_cases hsid : sid = ""
    · simp [getMatchingSizeForSecurity, hsid]
    · obtain ⟨_, _, t1, hret, _⟩ := getMatching_run c sid hsid hf
      rw [hret]
      intro hc; cases hc
  · intro id
    by_cases hid : id = ""
    · simp [cancelOrder, hid]
    · rw [(cancelOrder_run c id hid hf).1]
      intro hc; cases hc
  · intro u
    by_cases hu : u = ""
    · simp [cancelOrdersForUser, hu]
    · rw [(cancelOrdersForUser_run c u hu hf).1]
      intro hc; cases hc
  · intro s q
    by_cases hs : s = ""
    · simp [cancelOrdersForSecIdWithMinimumQty, hs]
    by_cases hq : q = 0
    · simp [cancelOrdersForSecIdWithMinimumQty, hs, hq]
    · obtain ⟨vb, vs, hrun, _⟩ := cancelMinQty_run c s q hs hq hf
      rw [hrun]
      intro hc; cases hc

/-- Witness for C38: on `swapBook` (two sell and three buy orders) the call makes four inner
iterations, within the bound of six. -/
theorem C38_witness :
    Reachable (runOps State.empty swapBook) ∧ "Sec" ≠ "" ∧
    getMatchingIterations (runOps State.empty swapBook) "Sec" = .ok 4 ∧
    ∃ n, getMatchingIterations (runOps State.empty swapBook) "Sec" = .ok n ∧
      n ≤ (MapOrders.vec (runOps State.empty swapBook).m_sellOrders "Sec").length *
        (MapOrders.vec (runOps State.empty swapBook).m_buyOrders "Sec").length :=
  ⟨reachable_of_run swapBook (by decide), by decide, rfl,
    ((C38_matching_terminates (runOps State.empty swapBook)
      (reachable_of_run swapBook (by decide))).1 "Sec" (by decide)).elim
      (fun n hn => ⟨n, hn.1, hn.2.1⟩)⟩

end OrderCache
